import Mathlib

/-!
# simple_scv: a verification development of `main.go`

The program is a single-file command line tool.  Every command reads and
writes files below the working directory, so the embedding has three layers:

* byte strings and the library functions the source calls on them
  (`strings.Split`, `bufio.Scanner` with `ScanLines`, `filepath.Clean`,
  `filepath.Join`, `fmt.Sprintf("%x", ...)`);
* a file system: a finite map from absolute paths to files and directories,
  with the path lookup of the operating system, and the `os` calls of the
  source on top of it;
* the functions of `main.go`, one definition each, under the source's names.

`log.Fatal` ends the process where it stands: what was written before stays
written.  Functions that can reach it return `none`, or a flag next to the
file system they leave behind.

The file system holds regular files and directories that the process may
read and write; links, permissions and devices are left out.  The lookup has
the limits of the kernel on the length of a name and of a path, and the
refusal of a zero byte by the `syscall` package.  Descriptors, memory and
disk space are taken to suffice.
-/

namespace Svcs

/-! ## Byte strings -/

/-- A Go `string` or `[]byte`: a sequence of bytes, one `Char` for each. -/
abbrev Str := List Char

/-- `strings.Split(s, sep)` for a separator of one byte; `strings.Split("", sep)`
is one empty string. -/
def splitOn (sep : Char) : Str → List Str
  | [] => [[]]
  | c :: cs =>
    if c = sep then [] :: splitOn sep cs
    else
      match splitOn sep cs with
      | [] => [[c]]
      | l :: ls => (c :: l) :: ls

/-- `strings.Join(elems, sep)` for a separator of one byte. -/
def joinWith (sep : Char) : List Str → Str
  | [] => []
  | [x] => x
  | x :: y :: rest => x ++ sep :: joinWith sep (y :: rest)

/-- The default `bufio.MaxScanTokenSize`: a scanner gives up with `ErrTooLong`
on a line that does not fit a buffer of this many bytes. -/
def maxScanTokenSize : Nat := 65536

/-- The `dropCR` of `bufio.ScanLines`: one trailing carriage return is removed. -/
def dropCR (l : Str) : Str :=
  if l.getLast? = some '\r' then l.dropLast else l

/-- The tokens of a `bufio.Scanner` with `ScanLines`, from the pieces between
the newlines of the input.  A last piece that is empty is no token; a piece
of `maxScanTokenSize` bytes or more stops the scan (the source never looks at
`sc.Err()`). -/
def scanTokens : List Str → List Str
  | [] => []
  | [l] =>
    if l = [] then []
    else if l.length < maxScanTokenSize then [dropCR l] else []
  | l :: m :: rest =>
    if l.length < maxScanTokenSize then dropCR l :: scanTokens (m :: rest) else []

/-- Every `sc.Text()` of `for sc.Scan()` over a file holding `data`. -/
def scanLines (data : Str) : List Str :=
  scanTokens (splitOn '\n' data)

/-- One step of `filepath.Clean` over the elements of a path; `stack` holds the
elements kept so far, the last one first. -/
def cleanStep (rooted : Bool) (stack : List Str) (c : Str) : List Str :=
  if c = [] ∨ c = ['.'] then stack
  else if c = ['.', '.'] then
    match stack with
    | [] => if rooted then [] else [c]
    | top :: rest => if top = ['.', '.'] then c :: stack else rest
  else c :: stack

/-- `filepath.Clean` on Unix. -/
def filepathClean (s : Str) : Str :=
  if s = [] then ['.']
  else
    let rooted : Bool := s.head? = some '/'
    let body := joinWith '/' ((splitOn '/' s).foldl (cleanStep rooted) []).reverse
    let r := if rooted then '/' :: body else body
    if r = [] then ['.'] else r

/-- `filepath.Join` on Unix: leading empty elements are ignored, the rest is
joined with slashes and cleaned. -/
def filepathJoin : List Str → Str
  | [] => []
  | e :: rest => if e = [] then filepathJoin rest else filepathClean (joinWith '/' (e :: rest))

/-- One hexadecimal digit, lower case. -/
def hexDigit (n : Nat) : Char :=
  if n % 16 < 10 then Char.ofNat (48 + n % 16) else Char.ofNat (87 + n % 16)

/-- `fmt.Sprintf("%x", sum)` for the 20 bytes of a SHA-1 sum, the sum given as
a number below `2 ^ 160`: 40 hexadecimal digits. -/
def hex40 (n : Nat) : Str :=
  (List.range 40).map fun i => hexDigit (n / 16 ^ (39 - i))

/-- Byte-wise order of two names, as `os.ReadDir` sorts its entries. -/
def strLe : Str → Str → Bool
  | [], _ => true
  | _ :: _, [] => false
  | a :: as, b :: bs => a.toNat < b.toNat || (a = b && strLe as bs)

/-! ## The file system -/

/-- What a path names: a regular file with its bytes, or a directory. -/
inductive Node where
  | file (data : Str)
  | dir
  deriving DecidableEq, Repr

/-- An absolute path, as the list of its names from the root. -/
abbrev Path := List Str

/-- A file system: the paths that exist, the binding nearest the head being the
current one.  The root always exists and is a directory.  Nothing is ever
removed by this program. -/
abbrev FS := List (Path × Node)

/-- The binding of `p`, the root apart. -/
def fsFind : FS → Path → Option Node
  | [], _ => none
  | (q, n) :: rest, p => if q = p then some n else fsFind rest p

/-- What `p` names in `fs`, if anything. -/
def fsGet (fs : FS) (p : Path) : Option Node :=
  if p = [] then some Node.dir else fsFind fs p

/-- The file system with `p` bound to `n`. -/
def fsSet (fs : FS) (p : Path) (n : Node) : FS :=
  (p, n) :: fs

/-- The name a binding gives to a child of `d`, if it is one. -/
def childName (d : Path) (e : Path × Node) : Option Str :=
  if e.1 ≠ [] ∧ e.1.dropLast = d then e.1.getLast? else none

/-- The names in directory `d`, sorted as `os.ReadDir` returns them. -/
def listDir (fs : FS) (d : Path) : List Str :=
  ((fs.filterMap (childName d)).dedup).insertionSort (fun a b => strLe a b = true)

/-- The outcome of looking a path up: what it names; nothing, in a directory
where it can be made; or the error of a lookup that cannot go on. -/
inductive Lookup where
  | found (p : Path) (n : Node)
  | absent (parent : Path) (name : Str)
  | enoent
  | enotdir
  | enametoolong
  | einval
  deriving DecidableEq, Repr

/-- `NAME_MAX`: the kernel refuses a name of more bytes with `ENAMETOOLONG`. -/
def nameMax : Nat := 255

/-- `PATH_MAX`: a path and its closing zero byte have to fit this many bytes,
or the call ends in `ENAMETOOLONG`. -/
def pathMax : Nat := 4096

/-- The names of a path as the kernel walks them: empty names (doubled
slashes) count for nothing, a trailing slash asks for a directory as a final
`.` does. -/
def pathComps (s : Str) : List Str :=
  let cs := (splitOn '/' s).filter (fun c => c ≠ [])
  if s.getLast? = some '/' then cs ++ [['.']] else cs

/-- The walk along the names of a path from directory `cur`.  A name of more
than `nameMax` bytes is `enametoolong`.  A name that is missing ends the
walk: as `absent` when it is the last one (the path can be created), as
`enoent` otherwise.  A regular file in the middle of the path is `enotdir`. -/
def walk (fs : FS) : Path → List Str → Lookup
  | cur, [] => Lookup.found cur Node.dir
  | cur, c :: rest =>
    if c = ['.'] then walk fs cur rest
    else if c = ['.', '.'] then walk fs cur.dropLast rest
    else if nameMax < c.length then Lookup.enametoolong
    else
      match fsGet fs (cur ++ [c]) with
      | none => if rest = [] then Lookup.absent cur c else Lookup.enoent
      | some (Node.file d) =>
        if rest = [] then Lookup.found (cur ++ [c]) (Node.file d) else Lookup.enotdir
      | some Node.dir => walk fs (cur ++ [c]) rest

/-- Path lookup for a process whose working directory is `cwd`.  A path with
a zero byte never reaches the kernel (`EINVAL` from the `syscall` package),
the empty path names nothing, a path of `pathMax` bytes or more is
`enametoolong`, a path with a leading slash starts at the root. -/
def resolve (fs : FS) (cwd : Path) (s : Str) : Lookup :=
  if '\x00' ∈ s then Lookup.einval
  else if s = [] then Lookup.enoent
  else if pathMax ≤ s.length then Lookup.enametoolong
  else walk fs (if s.head? = some '/' then [] else cwd) (pathComps s)

/-- The two kinds of error the source tells apart: those `os.IsNotExist`
accepts (`ENOENT`) and the others (`ENOTDIR`, `EISDIR`, `ENAMETOOLONG`,
`EINVAL`). -/
inductive OsErr where
  | notExist
  | other
  deriving DecidableEq, Repr

deriving instance DecidableEq for Except

/-- `os.Stat(s)`: the node, or the error. -/
def osStat (fs : FS) (cwd : Path) (s : Str) : Except OsErr Node :=
  match resolve fs cwd s with
  | Lookup.found _ n => Except.ok n
  | Lookup.absent _ _ => Except.error OsErr.notExist
  | Lookup.enoent => Except.error OsErr.notExist
  | Lookup.enotdir => Except.error OsErr.other
  | Lookup.enametoolong => Except.error OsErr.other
  | Lookup.einval => Except.error OsErr.other

/-- `FileInfo.Size()`: the length of a regular file; a directory reports the
size of its block, 4096. -/
def nodeSize : Node → Nat
  | Node.file d => d.length
  | Node.dir => 4096

/-- `os.Open(s)`: read-only; a directory can be opened too.  The handle is
the path the name resolved to. -/
def osOpen (fs : FS) (cwd : Path) (s : Str) : Except OsErr Path :=
  match resolve fs cwd s with
  | Lookup.found p _ => Except.ok p
  | Lookup.absent _ _ => Except.error OsErr.notExist
  | Lookup.enoent => Except.error OsErr.notExist
  | Lookup.enotdir => Except.error OsErr.other
  | Lookup.enametoolong => Except.error OsErr.other
  | Lookup.einval => Except.error OsErr.other

/-- Every byte a read of handle `p` gives; reading a directory fails at once,
with nothing read. -/
def readAll (fs : FS) (p : Path) : Str :=
  match fsGet fs p with
  | some (Node.file d) => d
  | _ => []

/-- `os.Create(s)`, that is `O_RDWR|O_CREATE|O_TRUNC`: an existing file is
emptied, a missing one is made in its directory, a directory is refused. -/
def osCreate (fs : FS) (cwd : Path) (s : Str) : Except OsErr (FS × Path) :=
  match resolve fs cwd s with
  | Lookup.found p (Node.file _) => Except.ok (fsSet fs p (Node.file []), p)
  | Lookup.found _ Node.dir => Except.error OsErr.other
  | Lookup.absent parent name =>
    Except.ok (fsSet fs (parent ++ [name]) (Node.file []), parent ++ [name])
  | Lookup.enoent => Except.error OsErr.notExist
  | Lookup.enotdir => Except.error OsErr.other
  | Lookup.enametoolong => Except.error OsErr.other
  | Lookup.einval => Except.error OsErr.other

/-- `io.Copy(dst, src)` into a file that was just created: the bytes `src`
gives now become the content of `dst`.  The source ignores its error. -/
def ioCopy (fs : FS) (dst src : Path) : FS :=
  fsSet fs dst (Node.file (readAll fs src))

/-- `os.ReadDir(s)`: the sorted names of a directory. -/
def osReadDir (fs : FS) (cwd : Path) (s : Str) : Except OsErr (List Str) :=
  match resolve fs cwd s with
  | Lookup.found p Node.dir => Except.ok (listDir fs p)
  | Lookup.found _ (Node.file _) => Except.error OsErr.other
  | Lookup.absent _ _ => Except.error OsErr.notExist
  | Lookup.enoent => Except.error OsErr.notExist
  | Lookup.enotdir => Except.error OsErr.other
  | Lookup.enametoolong => Except.error OsErr.other
  | Lookup.einval => Except.error OsErr.other

/-- The walk of `os.MkdirAll`: every directory of the path that is missing is
made; a regular file on the way, or a name of more than `nameMax` bytes, is
an error. -/
def mkdirWalk : FS → Path → List Str → Option FS
  | fs, _, [] => some fs
  | fs, cur, c :: rest =>
    if c = ['.'] then mkdirWalk fs cur rest
    else if c = ['.', '.'] then mkdirWalk fs cur.dropLast rest
    else if nameMax < c.length then none
    else
      match fsGet fs (cur ++ [c]) with
      | none => mkdirWalk (fsSet fs (cur ++ [c]) Node.dir) (cur ++ [c]) rest
      | some (Node.file _) => none
      | some Node.dir => mkdirWalk fs (cur ++ [c]) rest

/-- `os.MkdirAll(s, perm)`, `none` for an error.  The source calls it with
`./vcs`, `./vcs/commits` and `./vcs/commits/` followed by 40 hexadecimal
digits: on such a path an error comes before any directory is made. -/
def osMkdirAll (fs : FS) (cwd : Path) (s : Str) : Option FS :=
  if '\x00' ∈ s then none
  else if s = [] then none
  else if pathMax ≤ s.length then none
  else mkdirWalk fs (if s.head? = some '/' then [] else cwd) (pathComps s)

/-- `os.ReadFile(s)`. -/
def osReadFile (fs : FS) (cwd : Path) (s : Str) : Except OsErr Str :=
  match resolve fs cwd s with
  | Lookup.found _ (Node.file d) => Except.ok d
  | Lookup.found _ Node.dir => Except.error OsErr.other
  | Lookup.absent _ _ => Except.error OsErr.notExist
  | Lookup.enoent => Except.error OsErr.notExist
  | Lookup.enotdir => Except.error OsErr.other
  | Lookup.enametoolong => Except.error OsErr.other
  | Lookup.einval => Except.error OsErr.other

/-- `os.WriteFile(s, data, perm)`: the file is made or emptied, then written. -/
def osWriteFile (fs : FS) (cwd : Path) (s : Str) (data : Str) : Except OsErr FS :=
  match osCreate fs cwd s with
  | Except.ok (fs1, p) => Except.ok (fsSet fs1 p (Node.file data))
  | Except.error e => Except.error e

/-- `os.OpenFile(s, flags, perm)` for reading and appending, with or without
`O_CREATE`: the file system after the call and the handle. -/
def osOpenAppend (create : Bool) (fs : FS) (cwd : Path) (s : Str) : Except OsErr (FS × Path) :=
  match resolve fs cwd s with
  | Lookup.found p (Node.file _) => Except.ok (fs, p)
  | Lookup.found _ Node.dir => Except.error OsErr.other
  | Lookup.absent parent name =>
    if create then Except.ok (fsSet fs (parent ++ [name]) (Node.file []), parent ++ [name])
    else Except.error OsErr.notExist
  | Lookup.enoent => Except.error OsErr.notExist
  | Lookup.enotdir => Except.error OsErr.other
  | Lookup.enametoolong => Except.error OsErr.other
  | Lookup.einval => Except.error OsErr.other

/-- A write through a handle opened with `O_APPEND`. -/
def appendTo (fs : FS) (p : Path) (data : Str) : FS :=
  fsSet fs p (Node.file (readAll fs p ++ data))

/-! ## The program -/

/-- What the program cannot compute from the file system: the working
directory of the process, `sha256` (the digest behind `sha256.New()`, `Write`
and `Sum(nil)`) and `sha1` (the same for `sha1.New()`, the sum as a number). -/
structure Env where
  cwd : Path
  sha256 : Str → Str
  sha1 : Str → Nat

/-- A run of one command: the file system it leaves, what it printed on the
standard output, and whether it ended in `log.Fatal` or a panic. -/
structure Outcome where
  fs : FS
  out : Str
  fatal : Bool
  deriving DecidableEq, Repr

def indexPath : Str := "./vcs/index.txt".toList

def logPath : Str := "./vcs/log.txt".toList

def configPath : Str := "./vcs/config.txt".toList

/-- The directory of the commits, `"./vcs/commits/"`. -/
def commitsDir : Str := "./vcs/commits/".toList

def printHelp : Str :=
  ("These are SVCS commands:\nconfig     Get and set a username.\n" ++
   "add        Add a file to the index.\nlog        Show commit logs.\n" ++
   "commit     Save changes.\ncheckout   Restore a file.\n").toList

/-- The loop of `prepareFolders` over the three control files. -/
def createFiles (cwd : Path) : FS → List Str → Option FS
  | fs, [] => some fs
  | fs, f :: rest =>
    match osCreate fs cwd ("./vcs/".toList ++ f) with
    | Except.error _ => none
    | Except.ok (fs1, _) => createFiles cwd fs1 rest

/-- The file system `prepareFolders` leaves, and whether it returned. -/
def prepareFolders (env : Env) (fs : FS) : FS × Bool :=
  match osStat fs env.cwd "vcs".toList with
  | Except.error OsErr.notExist =>
    match osMkdirAll fs env.cwd "./vcs".toList with
    | none => (fs, false)
    | some fs1 =>
      match osMkdirAll fs1 env.cwd "./vcs/commits".toList with
      | none => (fs1, false)
      | some fs2 =>
        match createFiles env.cwd fs2 ["config.txt".toList, "index.txt".toList, "log.txt".toList] with
        | none => (fs2, false)
        | some fs3 => (fs3, true)
  | _ => (fs, true)

def handleConfig (env : Env) (args : List Str) (fs : FS) : Outcome :=
  match osReadFile fs env.cwd "./vcs/config.txt".toList with
  | Except.error OsErr.other => ⟨fs, [], true⟩
  | r =>
    let data : Str := match r with
      | Except.ok d => d
      | Except.error _ => []
    match args with
    | [] =>
      if data.length = 0 then ⟨fs, "Please, tell me who you are.\n".toList, false⟩
      else ⟨fs, "The username is ".toList ++ data ++ ".\n".toList, false⟩
    | name :: _ =>
      let fs1 := match osWriteFile fs env.cwd "./vcs/config.txt".toList name with
        | Except.ok fs1 => fs1
        | Except.error _ => fs
      ⟨fs1, "The username is ".toList ++ name ++ ".\n".toList, false⟩

/-- The lines `fmt.Println` prints for the tokens of a scanner. -/
def printLines : List Str → Str
  | [] => []
  | l :: rest => l ++ '\n' :: printLines rest

def handleAdd (env : Env) (args : List Str) (fs : FS) : Outcome :=
  match osOpenAppend true fs env.cwd indexPath with
  | Except.error _ => ⟨fs, [], true⟩
  | Except.ok (fs1, file) =>
    match args with
    | [] =>
      match scanLines (readAll fs1 file) with
      | [] => ⟨fs1, "Add a file to the index.\n".toList, false⟩
      | ls => ⟨fs1, "Tracked files:\n".toList ++ printLines ls, false⟩
    | name :: _ =>
      match osStat fs1 env.cwd name with
      | Except.error OsErr.notExist =>
        ⟨fs1, "Can't find '".toList ++ name ++ "'.\n".toList, false⟩
      | _ =>
        ⟨appendTo fs1 file (name ++ ['\n']),
          "The file '".toList ++ name ++ "' is tracked.\n".toList, false⟩

/-- The last line of `log.txt`, the empty string for a log without lines. -/
def getLastCommitInfo (env : Env) (fs : FS) : Option Str :=
  match osOpen fs env.cwd logPath with
  | Except.error _ => none
  | Except.ok f => some ((scanLines (readAll fs f)).getLastD [])

/-- The identifier of a commit made at time `now` (the text of
`time.Now().String()`). -/
def hashCommit (env : Env) (now : Str) (userName : Str) : Str :=
  hex40 (env.sha1 (now ++ userName))

def getUserName (env : Env) (fs : FS) : Option Str :=
  match osReadFile fs env.cwd configPath with
  | Except.error _ => none
  | Except.ok d => some d

def addCommitToLog (env : Env) (msg user commitHash : Str) (fs : FS) : Option FS :=
  match osOpenAppend false fs env.cwd logPath with
  | Except.error _ => none
  | Except.ok (fs1, logFile) =>
    some (appendTo fs1 logFile (commitHash ++ '|' :: user ++ '|' :: msg ++ ['\n']))

/-- The loop of `createCommit` over the tracked files. -/
def copyFiles (env : Env) (commitPath : Str) : FS → List Str → FS × Bool
  | fs, [] => (fs, true)
  | fs, f :: rest =>
    match osOpen fs env.cwd f with
    | Except.error _ => (fs, false)
    | Except.ok src =>
      match osCreate fs env.cwd (filepathJoin [commitPath, f]) with
      | Except.error _ => (fs, false)
      | Except.ok (fs1, dst) => copyFiles env commitPath (ioCopy fs1 dst src) rest

/-- The file system `createCommit` leaves, and whether it returned. -/
def createCommit (env : Env) (commitPath : Str) (files : List Str) (fs : FS) : FS × Bool :=
  match osMkdirAll fs env.cwd commitPath with
  | none => (fs, false)
  | some fs1 => copyFiles env commitPath fs1 files

def readIndexAsSlice (env : Env) (fs : FS) : Option (List Str) :=
  match osOpen fs env.cwd indexPath with
  | Except.error _ => none
  | Except.ok file => some (scanLines (readAll fs file))

/-- The inner loop of `somehtingChanged`: what `h2` has been given after the
entries of the last commit, starting from `acc`. -/
def hashEntries (env : Env) (fs : FS) (commitHash fn : Str) : List Str → Str → Option Str
  | [], acc => some acc
  | entry :: rest, acc =>
    if entry = fn then
      match osOpen fs env.cwd (filepathJoin [commitsDir, commitHash, entry]) with
      | Except.error _ => none
      | Except.ok f2 => hashEntries env fs commitHash fn rest (acc ++ readAll fs f2)
    else hashEntries env fs commitHash fn rest acc

/-- The outer loop of `somehtingChanged`; both hashes are empty at the start of
every round. -/
def changedLoop (env : Env) (fs : FS) (lastCommit : Str) : List Str → Option Bool
  | [] => some false
  | fn :: rest =>
    match osOpen fs env.cwd fn with
    | Except.error _ => none
    | Except.ok src =>
      let h1 := readAll fs src
      let commitHash := (splitOn '|' lastCommit).headD []
      match osReadDir fs env.cwd (filepathJoin [commitsDir, commitHash]) with
      | Except.error _ => none
      | Except.ok entries =>
        match hashEntries env fs commitHash fn entries [] with
        | none => none
        | some h2 =>
          if env.sha256 h1 ≠ env.sha256 h2 then some true
          else changedLoop env fs lastCommit rest

def somehtingChanged (env : Env) (fs : FS) (data : List Str) : Option Bool :=
  match getLastCommitInfo env fs with
  | none => none
  | some lastCommit =>
    if lastCommit = [] then some true
    else changedLoop env fs lastCommit data

def handleCommit (env : Env) (now : Str) (args : List Str) (fs : FS) : Outcome :=
  match args with
  | [] => ⟨fs, "Message was not passed.\n".toList, false⟩
  | msg :: _ =>
    match readIndexAsSlice env fs with
    | none => ⟨fs, [], true⟩
    | some data =>
      if data.length > 0 then
        match somehtingChanged env fs data with
        | none => ⟨fs, [], true⟩
        | some false => ⟨fs, "Nothing to commit.\n".toList, false⟩
        | some true =>
          match getUserName env fs with
          | none => ⟨fs, [], true⟩
          | some activeUser =>
            let commitHash := hashCommit env now activeUser
            let commitPath := commitsDir ++ commitHash
            match createCommit env commitPath data fs with
            | (fs1, false) => ⟨fs1, [], true⟩
            | (fs1, true) =>
              match addCommitToLog env msg activeUser commitHash fs1 with
              | none => ⟨fs1, [], true⟩
              | some fs2 => ⟨fs2, "Changes are committed.\n".toList, false⟩
      else ⟨fs, "Nothing to commit.\n".toList, false⟩

/-- The printing loop of `handleLog`, over the lines from the last to the
first: the text printed, and whether the loop ran to its end (a line with
fewer than three fields is an index out of range). -/
def printLog : List Str → Str × Bool
  | [] => ([], true)
  | l :: rest =>
    match splitOn '|' l with
    | commitHash :: author :: msg :: _ =>
      let r := printLog rest
      ("commit ".toList ++ commitHash ++ "\nAuthor: ".toList ++ author ++ '\n' :: msg
        ++ "\n\n".toList ++ r.1, r.2)
    | _ => ([], false)

def handleLog (env : Env) (fs : FS) : Outcome :=
  match osStat fs env.cwd logPath with
  | Except.error _ => ⟨fs, [], true⟩
  | Except.ok info =>
    if nodeSize info ≤ 1 then ⟨fs, "No commits yet.\n".toList, false⟩
    else
      match osOpen fs env.cwd logPath with
      | Except.error _ => ⟨fs, [], true⟩
      | Except.ok file =>
        let r := printLog (scanLines (readAll fs file)).reverse
        ⟨fs, r.1, !r.2⟩

/-- The loop of `handleCheckOut` over the entries of the commit. -/
def restoreFiles (env : Env) (folder : Str) : FS → List Str → FS × Bool
  | fs, [] => (fs, true)
  | fs, entity :: rest =>
    match osCreate fs env.cwd entity with
    | Except.error _ => (fs, false)
    | Except.ok (fs1, dst) =>
      match osOpen fs1 env.cwd (filepathJoin [folder, entity]) with
      | Except.error _ => (fs1, false)
      | Except.ok src => restoreFiles env folder (ioCopy fs1 dst src) rest

def handleCheckOut (env : Env) (args : List Str) (fs : FS) : Outcome :=
  match args with
  | [] => ⟨fs, "Commit id was not passed.".toList, false⟩
  | id :: _ =>
    let folder := filepathJoin ["./vcs/commits".toList, id]
    match osReadDir fs env.cwd folder with
    | Except.error OsErr.notExist => ⟨fs, "Commit does not exist.\n".toList, false⟩
    | Except.error OsErr.other => ⟨fs, [], true⟩
    | Except.ok entities =>
      match restoreFiles env folder fs entities with
      | (fs1, false) => ⟨fs1, [], true⟩
      | (fs1, true) => ⟨fs1, "Switched to commit ".toList ++ id ++ ['.'], false⟩

/-- One run of the program: `args` are the arguments after the program name,
`now` is what the clock reads during the run. -/
def main (env : Env) (now : Str) (args : List Str) (fs : FS) : Outcome :=
  match prepareFolders env fs with
  | (fs0, false) => ⟨fs0, [], true⟩
  | (fs0, true) =>
    match args with
    | [] => ⟨fs0, printHelp, false⟩
    | arg :: rest =>
      if arg = "--help".toList then ⟨fs0, printHelp, false⟩
      else if arg = "config".toList then handleConfig env rest fs0
      else if arg = "add".toList then handleAdd env rest fs0
      else if arg = "log".toList then handleLog env fs0
      else if arg = "commit".toList then handleCommit env now rest fs0
      else if arg = "checkout".toList then handleCheckOut env rest fs0
      else ⟨fs0, '\x27' :: arg ++ "' is not a SVCS command.\n".toList, false⟩

/-! ## Vocabulary of the statements -/

/-- A name a directory entry can have: not empty, not `.` or `..`, no slash,
no zero byte, `nameMax` bytes at most. -/
def SimpleName (s : Str) : Prop :=
  s ≠ [] ∧ s ≠ ['.'] ∧ s ≠ ['.', '.'] ∧ '/' ∉ s ∧ '\x00' ∉ s ∧ s.length ≤ nameMax

instance (s : Str) : Decidable (SimpleName s) := by
  unfold SimpleName; infer_instance

/-- An element of a path that the lookup takes as it stands: not empty, no
slash, no zero byte, `nameMax` bytes at most.  It may be `.` or `..`. -/
def PathElem (s : Str) : Prop :=
  s ≠ [] ∧ '/' ∉ s ∧ '\x00' ∉ s ∧ s.length ≤ nameMax

instance (s : Str) : Decidable (PathElem s) := by
  unfold PathElem; infer_instance

/-- A path that cannot climb out of the directory it is joined to: none of
its elements is `..`. -/
def NoDotDot (f : Str) : Prop :=
  ['.', '.'] ∉ splitOn '/' f

instance (f : Str) : Decidable (NoDotDot f) := by
  unfold NoDotDot; infer_instance

/-- The elements of a path that `filepath.Clean` keeps when none is `..`:
those that are not empty and not `.`. -/
def keptElems (f : Str) : List Str :=
  (splitOn '/' f).filter fun c => decide (c ≠ [] ∧ c ≠ ['.'])

/-- The repository directory, `vcs` in the working directory. -/
def vcsP (env : Env) : Path := env.cwd ++ ["vcs".toList]

/-- The directory of the snapshots, `vcs/commits`. -/
def commitsP (env : Env) : Path := env.cwd ++ ["vcs".toList, "commits".toList]

/-- The directory of the snapshot with identifier `h`, `vcs/commits/<h>`. -/
def snapP (env : Env) (h : Str) : Path := commitsP env ++ [h]

/-- The tracked-file index, `vcs/index.txt`. -/
def indexP (env : Env) : Path := env.cwd ++ ["vcs".toList, "index.txt".toList]

/-- The commit log, `vcs/log.txt`. -/
def logP (env : Env) : Path := env.cwd ++ ["vcs".toList, "log.txt".toList]

/-- The configured user name, `vcs/config.txt`. -/
def configP (env : Env) : Path := env.cwd ++ ["vcs".toList, "config.txt".toList]

/-- The lookup of the one name `name` in the directory `parent`. -/
def probe (fs : FS) (parent : Path) (name : Str) : Lookup :=
  match fsGet fs (parent ++ [name]) with
  | none => Lookup.absent parent name
  | some n => Lookup.found (parent ++ [name]) n

/-- Whether a lookup gave a regular file. -/
def isFile : Option Node → Bool
  | some (Node.file _) => true
  | _ => false

/-- A well-formed file system: every binding lies in a directory and has a
name a directory entry can have. -/
def WF (fs : FS) : Prop :=
  ∀ e ∈ fs, e.1 ≠ [] → fsGet fs e.1.dropLast = some Node.dir ∧ SimpleName (e.1.getLastD [])

instance (fs : FS) : Decidable (WF fs) := by
  unfold WF; infer_instance

/-- An initialised repository, as `prepareFolders` leaves it: the working
directory holds `vcs` with `commits` and the three control files. -/
structure Repo (env : Env) (fs : FS) : Prop where
  cwd_dir : fsGet fs env.cwd = some Node.dir
  vcs_dir : fsGet fs (vcsP env) = some Node.dir
  commits_dir : fsGet fs (commitsP env) = some Node.dir
  index_file : isFile (fsGet fs (indexP env)) = true
  log_file : isFile (fsGet fs (logP env)) = true
  config_file : isFile (fsGet fs (configP env)) = true

/-- One round of the loop of `createCommit` that goes through, for a tracked
file `f` of the working directory and the snapshot `h`: the stored file is
made or emptied, then given the bytes of `f`. -/
def copyOne (env : Env) (h : Str) (fs : FS) (f : Str) : FS :=
  ioCopy (fsSet fs (snapP env h ++ [f]) (Node.file [])) (snapP env h ++ [f]) (env.cwd ++ [f])

/-- One round of the loop of `handleCheckOut` that goes through, for the entry
`e` of a commit read through the handle `src`: the working file is made or
emptied, then given the bytes read. -/
def restoreOne (env : Env) (fs : FS) (e : Str) (src : Path) : FS :=
  ioCopy (fsSet fs (env.cwd ++ [e]) (Node.file [])) (env.cwd ++ [e]) src

/-- The record `addCommitToLog` writes, without its newline. -/
def logLine (commitHash user msg : Str) : Str :=
  commitHash ++ '|' :: user ++ '|' :: msg

/-- What a commit that went through has done to the file system `fs`: the
snapshot `h` is a directory holding every tracked file with the bytes it has
in the working directory, the log has one more record, and nothing else has
changed. -/
structure Committed (env : Env) (fs : FS) (h user msg : Str) (data : List Str) (fs1 : FS) :
    Prop where
  snap_dir : fsGet fs1 (snapP env h) = some Node.dir
  stored : ∀ f ∈ data,
    fsGet fs1 (snapP env h ++ [f]) = some (Node.file (readAll fs (env.cwd ++ [f])))
  logged : fsGet fs1 (logP env) =
    some (Node.file (readAll fs (logP env) ++ (logLine h user msg ++ ['\n'])))
  frame : ∀ q, q ≠ snapP env h → (∀ f ∈ data, q ≠ snapP env h ++ [f]) → q ≠ logP env →
    fsGet fs1 q = fsGet fs q
  repo : Repo env fs1

/-- The block `handleLog` prints for one record. -/
def logBlock (commitHash author msg : Str) : Str :=
  "commit ".toList ++ commitHash ++ "\nAuthor: ".toList ++ author ++ '\n' :: msg ++ "\n\n".toList

/-- The blocks of a list of commits (identifier, author, message), in the
order of the list. -/
def printBlocks : List (Str × Str × Str) → Str
  | [] => []
  | e :: rest => logBlock e.1 e.2.1 e.2.2 ++ printBlocks rest

/-- The lines of the log for a list of commits (identifier, author, message). -/
def logLines (es : List (Str × Str × Str)) : List Str :=
  es.map fun e => logLine e.1 e.2.1 e.2.2

/-- A commit (identifier, author, message) whose record can be read back from
the log: no field holds a newline or the separator `|`, the message does not
end in a carriage return, and the record fits one line of the scanner. -/
def PlainRecord (e : Str × Str × Str) : Prop :=
  '\n' ∉ e.1 ∧ '|' ∉ e.1 ∧ '\n' ∉ e.2.1 ∧ '|' ∉ e.2.1 ∧ '\n' ∉ e.2.2 ∧ '|' ∉ e.2.2 ∧
    e.2.2.getLast? ≠ some '\r' ∧ (logLine e.1 e.2.1 e.2.2).length < maxScanTokenSize

instance (e : Str × Str × Str) : Decidable (PlainRecord e) := by
  unfold PlainRecord; infer_instance

/-- A record of the log that can be told apart from its neighbours and gives
its identifier back: no field holds a newline, the identifier holds no `|`,
and the record fits one line of the scanner. -/
def LoggedRecord (e : Str × Str × Str) : Prop :=
  '\n' ∉ e.1 ∧ '|' ∉ e.1 ∧ '\n' ∉ e.2.1 ∧ '\n' ∉ e.2.2 ∧
    (logLine e.1 e.2.1 e.2.2).length < maxScanTokenSize

/-- The identifier a line of the log starts with: its first field, as
`somehtingChanged` and `handleLog` take it. -/
def lineId (l : Str) : Str := (splitOn '|' l).headD []

/-- The file system after a sequence of runs of the program, each given by the
reading of the clock and the arguments. -/
def runAll (env : Env) : FS → List (Str × List Str) → FS
  | fs, [] => fs
  | fs, r :: rest => runAll env (main env r.1 r.2 fs).fs rest

/-- What is asked of the arguments of one run in the state `fs`: an `add`
leaves an index none of whose lines, as `readIndexAsSlice` reads them, has a
`..` element; a `commit` with a message does not end in a fatal error,
message and configured user name have no newline and fit one line of the
scanner, and the identifier it draws names nothing in the commits
directory. -/
def ArgsOk (env : Env) (fs : FS) (now : Str) : List Str → Prop
  | cmd :: a :: rest =>
    (cmd = "add".toList →
      ∀ f ∈ scanLines (readAll (handleAdd env (a :: rest) fs).fs (indexP env)), NoDotDot f) ∧
    (cmd = "commit".toList →
      (handleCommit env now (a :: rest) fs).fatal = false ∧ '\n' ∉ a ∧
      '\n' ∉ readAll fs (configP env) ∧
      42 + (readAll fs (configP env)).length + a.length < maxScanTokenSize ∧
      fsGet fs (snapP env (hashCommit env now (readAll fs (configP env)))) = none)
  | _ => True

/-- `ArgsOk` for every run of a sequence, each in the state the runs before it
have left. -/
def RunsOk (env : Env) : FS → List (Str × List Str) → Prop
  | _, [] => True
  | fs, r :: rest => ArgsOk env fs r.1 r.2 ∧ RunsOk env (main env r.1 r.2 fs).fs rest

/-- A freshly initialised repository: well-formed, with an empty index, an
empty log and no entry in the commits directory. -/
structure Fresh (env : Env) (fs : FS) : Prop where
  repo : Repo env fs
  wf : WF fs
  index_empty : readAll fs (indexP env) = []
  log_empty : readAll fs (logP env) = []
  no_snapshot : listDir fs (commitsP env) = []

/-- The invariant of the repository under runs that satisfy `ArgsOk`: it is
well-formed, no tracked path has a `..` element, and the log holds one record
for each snapshot directory and no other, every identifier once. -/
structure Consistent (env : Env) (fs : FS) : Prop where
  repo : Repo env fs
  wf : WF fs
  index_plain : ∀ f ∈ scanLines (readAll fs (indexP env)), NoDotDot f
  records : ∃ es : List (Str × Str × Str),
    readAll fs (logP env) = printLines (logLines es) ∧ (∀ e ∈ es, LoggedRecord e) ∧
    (es.map fun e => e.1).Nodup ∧
    ∀ h, fsGet fs (snapP env h) = some Node.dir ↔ h ∈ es.map fun e => e.1

/-- One step in the life of a repository: a run of the program, given by the
reading of the clock and the arguments, or an edit made from outside the
program, given by the file system it leaves. -/
inductive Step where
  | run (now : Str) (args : List Str)
  | edit (fs : FS)

/-- The file system after one step. -/
def stepFS (env : Env) (fs : FS) : Step → FS
  | Step.run now args => (main env now args fs).fs
  | Step.edit fs1 => fs1

/-- The file system after a sequence of steps. -/
def history (env : Env) : FS → List Step → FS
  | fs, [] => fs
  | fs, s :: rest => history env (stepFS env fs s) rest

/-- The commit of a run that started in `fs` with the arguments `args` and
printed `out`, as identifier, author and message: there is one when the run
was `commit` with a message and printed `Changes are committed.`; its
identifier is the one drawn at the time `now` for the user name configured
in `fs`, its author that user name. -/
def commitRecord (env : Env) (fs : FS) (now : Str) (args : List Str) (out : Str) :
    List (Str × Str × Str) :=
  match args with
  | cmd :: msg :: _ =>
    if cmd = "commit".toList ∧ out = "Changes are committed.\n".toList then
      [(hashCommit env now (readAll fs (configP env)), readAll fs (configP env), msg)]
    else []
  | _ => []

/-- The commit a step makes in `fs`, if it makes one. -/
def commitOf (env : Env) (fs : FS) : Step → List (Str × Str × Str)
  | Step.run now args => commitRecord env fs now args (main env now args fs).out
  | Step.edit _ => []

/-- The commits made by a sequence of steps, the first one first. -/
def commitsOf (env : Env) : FS → List Step → List (Str × Str × Str)
  | _, [] => []
  | fs, s :: rest => commitOf env fs s ++ commitsOf env (stepFS env fs s) rest

/-- What is asked of the arguments of a run in the state `fs` for the sake of
the index: an `add` leaves an index none of whose lines, as
`readIndexAsSlice` reads them, has a `..` element. -/
def AddOk (env : Env) (fs : FS) : List Str → Prop
  | cmd :: a :: rest =>
    cmd = "add".toList →
      ∀ f ∈ scanLines (readAll (handleAdd env (a :: rest) fs).fs (indexP env)), NoDotDot f
  | _ => True

/-- What is asked of one step in the state `fs`.  A run satisfies `AddOk`,
and if it is a commit that goes through, its record can be read back from
the log.  An edit from outside leaves a well-formed file system and changes
nothing in `vcs`. -/
def StepOk (env : Env) (fs : FS) : Step → Prop
  | Step.run now args =>
    AddOk env fs args ∧
    ∀ e ∈ commitRecord env fs now args (main env now args fs).out, PlainRecord e
  | Step.edit fs1 => WF fs1 ∧ ∀ q, vcsP env <+: q → fsGet fs1 q = fsGet fs q

/-- `StepOk` for every step of a sequence, each in the state the steps before
it have left. -/
def StepsOk (env : Env) : FS → List Step → Prop
  | _, [] => True
  | fs, s :: rest => StepOk env fs s ∧ StepsOk env (stepFS env fs s) rest

/-- The invariant of the log under steps that satisfy `StepOk`: the repository
is well-formed, no tracked path has a `..` element, no snapshot has a
sub-directory, and the log holds the records of the commits `es`, in their
order, each of them readable. -/
structure Logged (env : Env) (fs : FS) (es : List (Str × Str × Str)) : Prop where
  repo : Repo env fs
  wf : WF fs
  index_plain : ∀ f ∈ scanLines (readAll fs (indexP env)), NoDotDot f
  flat : ∀ h n, fsGet fs (snapP env h ++ [n]) ≠ some Node.dir
  log : readAll fs (logP env) = printLines (logLines es)
  plain : ∀ e ∈ es, PlainRecord e

/-- The names of the directories in `vcs/commits`: the snapshots. -/
def snapshotDirs (env : Env) (fs : FS) : List Str :=
  (listDir fs (commitsP env)).filter fun n => fsGet fs (commitsP env ++ [n]) = some Node.dir

/-! ## Worked examples -/

/-- The environment of the examples: the working directory is `/w`, the
stand-in for SHA-256 is the identity (no two contents share a digest) and the
stand-in for SHA-1 reads its input as a number in base 256. -/
def demoEnv : Env :=
  ⟨["w".toList], fun s => s, fun s => s.foldl (fun a c => a * 256 + c.toNat) 0⟩

/-- A working directory `/w` with one file, `a.txt`, holding `hello`. -/
def demoTree : FS :=
  [(["w".toList], Node.dir), (["w".toList, "a.txt".toList], Node.file "hello".toList)]

/-- The repository after `add a.txt` in `demoTree`: the first run initialises
`vcs`, the index holds `a.txt`, the log is empty. -/
def demoTracked : FS :=
  (main demoEnv "t0".toList ["add".toList, "a.txt".toList] demoTree).fs

/-- The repository after `add ./a.txt` in `demoTree`: the same file, tracked
under another spelling of its path. -/
def demoDotTracked : FS :=
  (main demoEnv "t0".toList ["add".toList, "./a.txt".toList] demoTree).fs

/-- The repository after `commit first` in `demoTracked`. -/
def demoCommitted : FS :=
  (main demoEnv "t1".toList ["commit".toList, "first".toList] demoTracked).fs

/-- The identifier of the commit in `demoCommitted`. -/
def demoId : Str := hashCommit demoEnv "t1".toList []

/-- The repository `demoCommitted` after the user has rewritten `a.txt` to
hold `world`. -/
def demoEdited : FS :=
  fsSet demoCommitted ["w".toList, "a.txt".toList] (Node.file "world".toList)

/-- A working directory `/w` with `a.txt` and, in the directory `sub`, the
file `b.txt`. -/
def demoSubTree : FS :=
  [(["w".toList], Node.dir), (["w".toList, "a.txt".toList], Node.file "hello".toList),
   (["w".toList, "sub".toList], Node.dir),
   (["w".toList, "sub".toList, "b.txt".toList], Node.file "data".toList)]

/-- The repository in `demoSubTree` after `add a.txt`, `commit first`, an edit
of `a.txt` to `world`, and `add sub/b.txt`. -/
def demoSubTracked : FS :=
  (main demoEnv "t3".toList ["add".toList, "sub/b.txt".toList]
    (fsSet
      (main demoEnv "t1".toList ["commit".toList, "first".toList]
        (main demoEnv "t0".toList ["add".toList, "a.txt".toList] demoSubTree).fs).fs
      ["w".toList, "a.txt".toList] (Node.file "world".toList))).fs

/-- A working directory `/w` with `a.txt`, an empty file `b.txt` and a file
`c.txt` holding `new`. -/
def demoTree3 : FS :=
  [(["w".toList], Node.dir), (["w".toList, "a.txt".toList], Node.file "hello".toList),
   (["w".toList, "b.txt".toList], Node.file []),
   (["w".toList, "c.txt".toList], Node.file "new".toList)]

/-- The repository in `demoTree3` after `add a.txt` and `commit first`. -/
def demoCommitted3 : FS :=
  (main demoEnv "t1".toList ["commit".toList, "first".toList]
    (main demoEnv "t0".toList ["add".toList, "a.txt".toList] demoTree3).fs).fs

/-- The repository `demoCommitted3` after `add b.txt`: the empty file is
tracked and is not in the last snapshot. -/
def demoEmptyTracked : FS :=
  (main demoEnv "t2".toList ["add".toList, "b.txt".toList] demoCommitted3).fs

/-- The repository `demoCommitted3` after `add c.txt`: the file is tracked
and is not in the last snapshot. -/
def demoNewTracked : FS :=
  (main demoEnv "t2".toList ["add".toList, "c.txt".toList] demoCommitted3).fs

/-- A working directory `/w` that is empty, with the file `a.txt` holding
`v1` in its parent directory. -/
def demoParentTree : FS :=
  [(["w".toList], Node.dir), (["a.txt".toList], Node.file "v1".toList)]

/-- The repository in `demoParentTree` after `add ../a.txt` and
`commit first`. -/
def demoParentCommitted : FS :=
  (main demoEnv "t1".toList ["commit".toList, "first".toList]
    (main demoEnv "t0".toList ["add".toList, "../a.txt".toList] demoParentTree).fs).fs

/-- The repository `demoParentCommitted` after the user has rewritten the
tracked file `../a.txt` to hold `v2`. -/
def demoParentEdited : FS :=
  fsSet demoParentCommitted ["a.txt".toList] (Node.file "v2".toList)

/-- The repository the first run of the program makes in `demoTree`: the run
has no arguments, initialises `vcs` and prints the help text. -/
def demoFresh : FS :=
  (main demoEnv "t0".toList [] demoTree).fs

/-- The repository `demoCommitted` after the user has put a file `log.txt`
holding the line `x|y|z` in the root directory and has run
`add ../../log.txt`. -/
def demoLogTracked : FS :=
  (main demoEnv "t2".toList ["add".toList, "../../log.txt".toList]
    (fsSet demoCommitted ["log.txt".toList] (Node.file "x|y|z\n".toList))).fs

/-- A name of 256 bytes, one more than `nameMax`. -/
def demoLongName : Str := List.replicate 256 'n'

/-- The first steps of the example history: `add a.txt`, `config ann` and
`commit first`. -/
def demoSteps1 : List Step :=
  [Step.run "t1".toList ["add".toList, "a.txt".toList],
   Step.run "t2".toList ["config".toList, "ann".toList],
   Step.run "t3".toList ["commit".toList, "first".toList]]

/-- The example history, from `demoFresh`: after `demoSteps1` the user
rewrites `a.txt` to hold `world`, sets the user name to `bob` and runs
`commit second`. -/
def demoSteps : List Step :=
  demoSteps1 ++
  [Step.edit (fsSet (history demoEnv demoFresh demoSteps1) ["w".toList, "a.txt".toList]
      (Node.file "world".toList)),
   Step.run "t4".toList ["config".toList, "bob".toList],
   Step.run "t5".toList ["commit".toList, "second".toList]]

/-! ## Byte strings: splitting and scanning -/

theorem splitOn_ne_nil (sep : Char) (s : Str) : splitOn sep s ≠ [] := by
  cases s with
  | nil => simp [splitOn]
  | cons c cs =>
    unfold splitOn
    split
    · simp
    · split <;> simp

theorem splitOn_of_not_mem {sep : Char} {s : Str} (h : sep ∉ s) : splitOn sep s = [s] := by
  induction s with
  | nil => rfl
  | cons c cs ih =>
    have hc : c ≠ sep := fun e => h (by simp [e])
    have hs : sep ∉ cs := fun e => h (by simp [e])
    simp [splitOn, hc, ih hs]

theorem splitOn_append_sep {sep : Char} {a : Str} (b : Str) (h : sep ∉ a) :
    splitOn sep (a ++ sep :: b) = a :: splitOn sep b := by
  induction a with
  | nil => simp [splitOn]
  | cons c cs ih =>
    have hc : c ≠ sep := fun e => h (by simp [e])
    have hs : sep ∉ cs := fun e => h (by simp [e])
    simp [splitOn, hc, ih hs]

theorem mem_of_mem_splitOn {sep : Char} {s t : Str} (h : t ∈ splitOn sep s) :
    ∀ c ∈ t, c ∈ s := by
  induction s generalizing t with
  | nil => simp [splitOn] at h; simp [h]
  | cons c cs ih =>
    unfold splitOn at h
    split at h
    · rcases List.mem_cons.1 h with h | h
      · simp [h]
      · intro x hx; exact List.mem_cons_of_mem _ (ih h x hx)
    · split at h
      · rename_i e; exact absurd e (splitOn_ne_nil _ _)
      · rename_i l ls e
        rcases List.mem_cons.1 h with h | h
        · subst h
          intro x hx
          rcases List.mem_cons.1 hx with hx | hx
          · simp [hx]
          · exact List.mem_cons_of_mem _ (ih (by rw [e]; simp) x hx)
        · intro x hx
          exact List.mem_cons_of_mem _ (ih (by rw [e]; simp [h]) x hx)

theorem sep_not_mem_of_mem_splitOn {sep : Char} {s t : Str} (h : t ∈ splitOn sep s) :
    sep ∉ t := by
  induction s generalizing t with
  | nil => simp [splitOn] at h; simp [h]
  | cons c cs ih =>
    unfold splitOn at h
    split at h
    · rcases List.mem_cons.1 h with h | h
      · simp [h]
      · exact ih h
    · rename_i hc
      split at h
      · rename_i e; exact absurd e (splitOn_ne_nil _ _)
      · rename_i l ls e
        rcases List.mem_cons.1 h with h | h
        · subst h
          have : sep ∉ l := ih (by rw [e]; simp)
          intro hx
          rcases List.mem_cons.1 hx with hx | hx
          · exact hc hx.symm
          · exact this hx
        · exact ih (by rw [e]; simp [h])

theorem dropCR_subset {l : Str} : ∀ c ∈ dropCR l, c ∈ l := by
  intro c hc
  unfold dropCR at hc
  split at hc
  · exact List.mem_of_mem_dropLast hc
  · exact hc

theorem mem_scanTokens {ps : List Str} {t : Str} (h : t ∈ scanTokens ps) :
    ∃ p ∈ ps, t = dropCR p := by
  induction ps with
  | nil => simp [scanTokens] at h
  | cons l rest ih =>
    cases rest with
    | nil =>
      simp only [scanTokens] at h
      split at h
      · simp at h
      · split at h
        · simp at h; exact ⟨l, by simp, h⟩
        · simp at h
    | cons m rest =>
      simp only [scanTokens] at h
      split at h
      · rcases List.mem_cons.1 h with h | h
        · exact ⟨l, by simp, h⟩
        · obtain ⟨p, hp, e⟩ := ih h
          exact ⟨p, List.mem_cons_of_mem _ hp, e⟩
      · simp at h

/-- Every byte of a scanned line is a byte of the file. -/
theorem mem_of_mem_scanLines {d t : Str} (h : t ∈ scanLines d) : ∀ c ∈ t, c ∈ d := by
  obtain ⟨p, hp, e⟩ := mem_scanTokens h
  intro c hc
  subst e
  exact mem_of_mem_splitOn hp c (dropCR_subset c hc)

theorem newline_not_mem_of_mem_scanLines {d t : Str} (h : t ∈ scanLines d) : '\n' ∉ t := by
  obtain ⟨p, hp, e⟩ := mem_scanTokens h
  subst e
  exact fun hc => sep_not_mem_of_mem_splitOn hp (dropCR_subset _ hc)

theorem splitOn_printLines (ls : List Str) (h : ∀ l ∈ ls, '\n' ∉ l) :
    splitOn '\n' (printLines ls) = ls ++ [[]] := by
  induction ls with
  | nil => rfl
  | cons l rest ih =>
    have h1 : '\n' ∉ l := h l (by simp)
    have h2 : ∀ l ∈ rest, '\n' ∉ l := fun x hx => h x (by simp [hx])
    simp [printLines, splitOn_append_sep _ h1, ih h2]

theorem scanTokens_terminated (ls : List Str) (h : ∀ l ∈ ls, l.length < maxScanTokenSize) :
    scanTokens (ls ++ [[]]) = ls.map dropCR := by
  induction ls with
  | nil => simp [scanTokens]
  | cons l rest ih =>
    have h1 : l.length < maxScanTokenSize := h l (by simp)
    have h2 : ∀ l ∈ rest, l.length < maxScanTokenSize := fun x hx => h x (by simp [hx])
    cases rest with
    | nil => simp [scanTokens, h1]
    | cons m rest =>
      have := ih h2
      simp only [List.cons_append, List.map] at this ⊢
      simp [scanTokens, h1, this]

/-- A file of terminated lines, none too long for the scanner, scans to its
lines. -/
theorem scanLines_printLines (ls : List Str)
    (h : ∀ l ∈ ls, '\n' ∉ l ∧ l.length < maxScanTokenSize) :
    scanLines (printLines ls) = ls.map dropCR := by
  unfold scanLines
  rw [splitOn_printLines ls (fun l hl => (h l hl).1),
    scanTokens_terminated ls (fun l hl => (h l hl).2)]

theorem printLines_append (a b : List Str) :
    printLines (a ++ b) = printLines a ++ printLines b := by
  induction a with
  | nil => rfl
  | cons l rest ih => simp [printLines, ih]

/-! ## Paths: joining, cleaning, the names the kernel walks -/

theorem joinWith_ne_nil {sep : Char} {c : Str} {cs : List Str} (h : c ≠ []) :
    joinWith sep (c :: cs) ≠ [] := by
  cases cs with
  | nil => simpa [joinWith] using h
  | cons d ds => simp [joinWith, h]

theorem head?_joinWith {sep : Char} {c : Str} {cs : List Str} (h : c ≠ []) :
    (joinWith sep (c :: cs)).head? = c.head? := by
  cases c with
  | nil => exact absurd rfl h
  | cons x xs => cases cs <;> simp [joinWith]

theorem splitOn_joinWith {sep : Char} (cs : List Str) (hne : cs ≠ [])
    (h : ∀ c ∈ cs, sep ∉ c) : splitOn sep (joinWith sep cs) = cs := by
  induction cs with
  | nil => exact absurd rfl hne
  | cons c rest ih =>
    cases rest with
    | nil => simpa [joinWith] using splitOn_of_not_mem (h c (by simp))
    | cons d ds =>
      have h1 : sep ∉ c := h c (by simp)
      have := ih (by simp) (fun x hx => h x (List.mem_cons_of_mem _ hx))
      simp only [joinWith] at this ⊢
      rw [splitOn_append_sep _ h1, this]

theorem getLast?_cons_of_ne_nil {α : Type} (a : α) {l : List α} (h : l ≠ []) :
    (a :: l).getLast? = l.getLast? := by
  cases l with
  | nil => exact absurd rfl h
  | cons b t => simp [List.getLast?_cons_cons]

theorem getLast?_append_of_ne {α : Type} (a : List α) {l : List α} (h : l ≠ []) :
    (a ++ l).getLast? = l.getLast? := by
  induction a with
  | nil => rfl
  | cons x xs ih =>
    rw [List.cons_append, getLast?_cons_of_ne_nil _ (by simp [h]), ih]

theorem getLast?_joinWith_ne {sep : Char} (cs : List Str)
    (h : ∀ c ∈ cs, c ≠ [] ∧ sep ∉ c) : (joinWith sep cs).getLast? ≠ some sep := by
  induction cs with
  | nil => simp [joinWith]
  | cons c rest ih =>
    cases rest with
    | nil =>
      intro e
      exact (h c (by simp)).2 (List.mem_of_getLast?_eq_some (by simpa [joinWith] using e))
    | cons d ds =>
      have := ih (fun x hx => h x (List.mem_cons_of_mem _ hx))
      have hj : joinWith sep (d :: ds) ≠ [] := joinWith_ne_nil (h d (by simp)).1
      simp only [joinWith] at this ⊢
      rw [getLast?_append_of_ne _ (by simp), getLast?_cons_of_ne_nil _ hj]
      exact this

/-- A path written as names joined by slashes is walked name by name. -/
theorem pathComps_joinWith (cs : List Str) (hne : cs ≠ [])
    (h : ∀ c ∈ cs, c ≠ [] ∧ '/' ∉ c) : pathComps (joinWith '/' cs) = cs := by
  unfold pathComps
  simp only
  rw [if_neg (getLast?_joinWith_ne cs h), splitOn_joinWith cs hne (fun c hc => (h c hc).2)]
  exact List.filter_eq_self.2 (fun c hc => by simpa using (h c hc).1)

theorem nul_not_mem_joinWith (sep : Char) (hsep : sep ≠ '\x00') (cs : List Str)
    (h : ∀ c ∈ cs, '\x00' ∉ c) : '\x00' ∉ joinWith sep cs := by
  induction cs with
  | nil => simp [joinWith]
  | cons c rest ih =>
    cases rest with
    | nil => simpa [joinWith] using h c (by simp)
    | cons d ds =>
      have := ih (fun x hx => h x (List.mem_cons_of_mem _ hx))
      simp only [joinWith, List.mem_append, List.mem_cons, not_or] at this ⊢
      exact ⟨h c (by simp), Ne.symm hsep, this⟩

theorem length_joinWith_le (sep : Char) (cs : List Str) (h : ∀ c ∈ cs, c.length ≤ nameMax) :
    (joinWith sep cs).length ≤ cs.length * (nameMax + 1) := by
  induction cs with
  | nil => simp [joinWith]
  | cons c rest ih =>
    have hc := h c (by simp)
    cases rest with
    | nil => simp only [joinWith, List.length_cons, List.length_nil]; omega
    | cons d ds =>
      have := ih (fun x hx => h x (List.mem_cons_of_mem _ hx))
      simp only [joinWith, List.length_append, List.length_cons] at this ⊢
      have e : (ds.length + 1 + 1) * (nameMax + 1) =
          (ds.length + 1) * (nameMax + 1) + (nameMax + 1) := by ring
      omega

theorem mem_joinWith (sep : Char) {cs : List Str} {c : Str} (hc : c ∈ cs) {x : Char}
    (hx : x ∈ c) : x ∈ joinWith sep cs := by
  induction cs with
  | nil => exact absurd hc (List.not_mem_nil _)
  | cons d rest ih =>
    cases rest with
    | nil =>
      rw [List.mem_singleton.1 hc] at hx
      simpa [joinWith] using hx
    | cons e es =>
      simp only [joinWith, List.mem_append, List.mem_cons]
      rcases List.mem_cons.1 hc with rfl | hc
      · exact Or.inl hx
      · exact Or.inr (Or.inr (ih hc))

/-- A path written as names joined by slashes, with no zero byte and shorter
than `pathMax`, is walked name by name. -/
theorem resolve_joinWith_of (fs : FS) (cwd : Path) (cs : List Str) (hne : cs ≠ [])
    (h : ∀ c ∈ cs, c ≠ [] ∧ '/' ∉ c) (hz : '\x00' ∉ joinWith '/' cs)
    (hl : ¬ pathMax ≤ (joinWith '/' cs).length) :
    resolve fs cwd (joinWith '/' cs) = walk fs cwd cs := by
  cases cs with
  | nil => exact absurd rfl hne
  | cons c rest =>
    have hc := h c (by simp)
    have h1 : joinWith '/' (c :: rest) ≠ [] := joinWith_ne_nil hc.1
    have h2 : (joinWith '/' (c :: rest)).head? ≠ some '/' := by
      rw [head?_joinWith hc.1]
      intro e
      exact hc.2 (List.mem_of_mem_head? e)
    unfold resolve
    rw [if_neg hz, if_neg h1, if_neg hl, if_neg h2, pathComps_joinWith _ hne h]

/-- A short list of path elements, joined by slashes, is a path that reaches
the kernel and is walked element by element. -/
theorem resolve_joinWith (fs : FS) (cwd : Path) (cs : List Str) (hne : cs ≠ [])
    (h : ∀ c ∈ cs, PathElem c) (hlen : cs.length ≤ 8) :
    resolve fs cwd (joinWith '/' cs) = walk fs cwd cs := by
  apply resolve_joinWith_of fs cwd cs hne (fun c hc => ⟨(h c hc).1, (h c hc).2.1⟩)
  · exact nul_not_mem_joinWith '/' (by decide) _ (fun x hx => (h x hx).2.2.1)
  · have := length_joinWith_le '/' cs (fun x hx => (h x hx).2.2.2)
    have h8 : cs.length * (nameMax + 1) ≤ 8 * (nameMax + 1) := Nat.mul_le_mul_right _ hlen
    simp only [nameMax] at this h8
    simp only [pathMax]
    omega

theorem resolve_name (fs : FS) (cwd : Path) {f : Str} (hf : PathElem f) :
    resolve fs cwd f = walk fs cwd [f] := by
  have := resolve_joinWith fs cwd [f] (by simp) (by simpa using hf) (by simp)
  simpa [joinWith] using this

theorem pathElems1 {a : Str} (ha : PathElem a) : ∀ c ∈ [a], PathElem c := by
  intro c hc
  rw [List.mem_singleton.1 hc]; exact ha

theorem pathElems2 {a b : Str} (ha : PathElem a) (hb : PathElem b) :
    ∀ c ∈ [a, b], PathElem c := by
  intro c hc
  rcases List.mem_cons.1 hc with rfl | hc
  · exact ha
  · exact pathElems1 hb c hc

theorem pathElems3 {a b d : Str} (ha : PathElem a) (hb : PathElem b) (hd : PathElem d) :
    ∀ c ∈ [a, b, d], PathElem c := by
  intro c hc
  rcases List.mem_cons.1 hc with rfl | hc
  · exact ha
  · exact pathElems2 hb hd c hc

theorem pathElems4 {a b d e : Str} (ha : PathElem a) (hb : PathElem b) (hd : PathElem d)
    (he : PathElem e) : ∀ c ∈ [a, b, d, e], PathElem c := by
  intro c hc
  rcases List.mem_cons.1 hc with rfl | hc
  · exact ha
  · exact pathElems3 hb hd he c hc

/-- The cleaned form of a relative path given by its elements. -/
theorem filepathClean_joinWith (cs : List Str) (hne : cs ≠ [])
    (h : ∀ c ∈ cs, '/' ∉ c) (h0 : cs.head? ≠ some []) :
    filepathClean (joinWith '/' cs) =
      (if joinWith '/' (cs.foldl (cleanStep false) []).reverse = [] then ['.']
       else joinWith '/' (cs.foldl (cleanStep false) []).reverse) := by
  cases cs with
  | nil => exact absurd rfl hne
  | cons c rest =>
    have hc : c ≠ [] := by simpa using h0
    have h1 : joinWith '/' (c :: rest) ≠ [] := joinWith_ne_nil hc
    have h2 : (joinWith '/' (c :: rest)).head? ≠ some '/' := by
      rw [head?_joinWith hc]
      intro e
      exact h c (by simp) (List.mem_of_mem_head? e)
    unfold filepathClean
    simp only [if_neg h1, h2, decide_False, splitOn_joinWith _ hne h]
    simp

/-! ## The file system: bindings, directory listings, walks -/

theorem fsGet_nil (fs : FS) : fsGet fs [] = some Node.dir := by
  simp [fsGet]

theorem fsGet_fsSet (fs : FS) {p : Path} (n : Node) (q : Path) (hp : p ≠ []) :
    fsGet (fsSet fs p n) q = if p = q then some n else fsGet fs q := by
  unfold fsGet fsSet
  by_cases hq : q = []
  · subst hq; simp [hp]
  · simp [hq, fsFind]

theorem fsGet_fsSet_self (fs : FS) {p : Path} (n : Node) (hp : p ≠ []) :
    fsGet (fsSet fs p n) p = some n := by
  simp [fsGet_fsSet fs n p hp]

theorem fsGet_fsSet_of_ne (fs : FS) {p q : Path} (n : Node) (hp : p ≠ []) (h : p ≠ q) :
    fsGet (fsSet fs p n) q = fsGet fs q := by
  simp [fsGet_fsSet fs n q hp, h]

theorem fsFind_ne_none_iff (fs : FS) (p : Path) :
    fsFind fs p ≠ none ↔ ∃ n, (p, n) ∈ fs := by
  induction fs with
  | nil => simp [fsFind]
  | cons e rest ih =>
    obtain ⟨q, m⟩ := e
    unfold fsFind
    by_cases h : q = p
    · subst h; simp
    · simp only [if_neg h, ih, List.mem_cons, Prod.mk.injEq]
      constructor
      · rintro ⟨n, hn⟩; exact ⟨n, Or.inr hn⟩
      · rintro ⟨n, hn | hn⟩
        · exact absurd hn.1.symm h
        · exact ⟨n, hn⟩

theorem fsGet_snoc_ne_none_iff (fs : FS) (d : Path) (n : Str) :
    fsGet fs (d ++ [n]) ≠ none ↔ ∃ m, (d ++ [n], m) ∈ fs := by
  unfold fsGet
  simp only [List.append_eq_nil, List.cons_ne_self, and_false, if_false]
  exact fsFind_ne_none_iff fs _

theorem childName_eq_some (d : Path) (e : Path × Node) (n : Str) :
    childName d e = some n ↔ e.1 = d ++ [n] := by
  unfold childName
  constructor
  · intro h
    split at h
    · rename_i hc
      obtain ⟨ys, hys⟩ := List.getLast?_eq_some_iff.1 h
      rw [hys, List.dropLast_concat] at hc
      rw [hys, hc.2]
    · simp at h
  · intro h
    rw [h]
    simp

/-- The names `os.ReadDir` lists are the names bound in the directory. -/
theorem mem_listDir (fs : FS) (d : Path) (n : Str) :
    n ∈ listDir fs d ↔ fsGet fs (d ++ [n]) ≠ none := by
  unfold listDir
  rw [(List.perm_insertionSort _ _).mem_iff, List.mem_dedup, List.mem_filterMap,
    fsGet_snoc_ne_none_iff]
  constructor
  · rintro ⟨e, he, hc⟩
    obtain ⟨p, m⟩ := e
    have := (childName_eq_some d (p, m) n).1 hc
    simp only at this
    subst this
    exact ⟨m, he⟩
  · rintro ⟨m, hm⟩
    exact ⟨(d ++ [n], m), hm, (childName_eq_some d _ n).2 rfl⟩

theorem nodup_listDir (fs : FS) (d : Path) : (listDir fs d).Nodup := by
  unfold listDir
  exact (List.perm_insertionSort _ _).nodup_iff.2 (List.nodup_dedup _)

theorem readAll_of_file {fs : FS} {p : Path} {d : Str} (h : fsGet fs p = some (Node.file d)) :
    readAll fs p = d := by
  simp [readAll, h]

theorem fsGet_of_isFile {fs : FS} {p : Path} (h : isFile (fsGet fs p) = true) :
    fsGet fs p = some (Node.file (readAll fs p)) := by
  unfold readAll
  cases hg : fsGet fs p with
  | none => simp [hg, isFile] at h
  | some n =>
    cases n with
    | file d => rfl
    | dir => simp [hg, isFile] at h

theorem isFile_iff {o : Option Node} : isFile o = true ↔ ∃ d, o = some (Node.file d) := by
  cases o with
  | none => simp [isFile]
  | some n => cases n <;> simp [isFile]

theorem walk_nil (fs : FS) (cur : Path) : walk fs cur [] = Lookup.found cur Node.dir := rfl

theorem walk_dot (fs : FS) (cur : Path) (rest : List Str) :
    walk fs cur (['.'] :: rest) = walk fs cur rest := by
  simp [walk]

theorem walk_dir {fs : FS} {cur : Path} {c : Str} (rest : List Str)
    (hc : SimpleName c) (hd : fsGet fs (cur ++ [c]) = some Node.dir) :
    walk fs cur (c :: rest) = walk fs (cur ++ [c]) rest := by
  have h3 : ¬ nameMax < c.length := Nat.not_lt.2 hc.2.2.2.2.2
  simp [walk, hc.2.1, hc.2.2.1, h3, hd]

theorem walk_last {fs : FS} {cur : Path} {c : Str} (hc : SimpleName c) :
    walk fs cur [c] = probe fs cur c := by
  have h3 : ¬ nameMax < c.length := Nat.not_lt.2 hc.2.2.2.2.2
  unfold walk probe
  simp only [if_neg hc.2.1, if_neg hc.2.2.1, if_neg h3]
  cases fsGet fs (cur ++ [c]) with
  | none => rfl
  | some n => cases n <;> simp [walk]

/-- A name of more than `nameMax` bytes is refused wherever it stands. -/
theorem walk_long {fs : FS} {cur : Path} {c : Str} (rest : List Str)
    (h1 : c ≠ ['.']) (h2 : c ≠ ['.', '.']) (h3 : nameMax < c.length) :
    walk fs cur (c :: rest) = Lookup.enametoolong := by
  simp [walk, h1, h2, h3]

theorem probe_of_some {fs : FS} {parent : Path} {name : Str} {n : Node}
    (h : fsGet fs (parent ++ [name]) = some n) :
    probe fs parent name = Lookup.found (parent ++ [name]) n := by
  simp [probe, h]

theorem probe_of_none {fs : FS} {parent : Path} {name : Str}
    (h : fsGet fs (parent ++ [name]) = none) :
    probe fs parent name = Lookup.absent parent name := by
  simp [probe, h]

theorem SimpleName.ne_dot {c : Str} (h : SimpleName c) : c ≠ ['.'] := h.2.1

theorem SimpleName.ne_dotdot {c : Str} (h : SimpleName c) : c ≠ ['.', '.'] := h.2.2.1

theorem SimpleName.ne_nil {c : Str} (h : SimpleName c) : c ≠ [] := h.1

theorem SimpleName.no_slash {c : Str} (h : SimpleName c) : '/' ∉ c := h.2.2.2.1

theorem SimpleName.no_nul {c : Str} (h : SimpleName c) : '\x00' ∉ c := h.2.2.2.2.1

theorem SimpleName.length_le {c : Str} (h : SimpleName c) : c.length ≤ nameMax := h.2.2.2.2.2

theorem SimpleName.pathElem {c : Str} (h : SimpleName c) : PathElem c :=
  ⟨h.1, h.2.2.2.1, h.2.2.2.2.1, h.2.2.2.2.2⟩

/-- A plain name is looked up in the working directory. -/
theorem resolve_simple (fs : FS) (cwd : Path) {f : Str} (hf : SimpleName f) :
    resolve fs cwd f = probe fs cwd f := by
  rw [resolve_name fs cwd hf.pathElem, walk_last hf]

/-! ## The paths of the repository -/

theorem join_commit_file {h f : Str} (hh : SimpleName h) (hf : SimpleName f) :
    filepathJoin [commitsDir ++ h, f] =
      joinWith '/' ["vcs".toList, "commits".toList, h, f] := by
  have e : joinWith '/' [commitsDir ++ h, f] =
      joinWith '/' [['.'], "vcs".toList, "commits".toList, h, f] := rfl
  have hne : commitsDir ++ h ≠ [] := by simp [commitsDir]
  unfold filepathJoin
  rw [if_neg hne, e, filepathClean_joinWith _ (by simp)
    (by simp [hh.no_slash, hh.ne_nil, hf.no_slash, hf.ne_nil]) (by simp)]
  simp [List.foldl, cleanStep, hh.ne_nil, hh.ne_dot, hh.ne_dotdot, hf.ne_nil, hf.ne_dot,
    hf.ne_dotdot, joinWith]

theorem join_commit_file3 {h f : Str} (hh : SimpleName h) (hf : SimpleName f) :
    filepathJoin [commitsDir, h, f] =
      joinWith '/' ["vcs".toList, "commits".toList, h, f] := by
  have e : joinWith '/' [commitsDir, h, f] =
      joinWith '/' [['.'], "vcs".toList, "commits".toList, [], h, f] := rfl
  have hne : commitsDir ≠ [] := by decide
  unfold filepathJoin
  rw [if_neg hne, e, filepathClean_joinWith _ (by simp)
    (by simp [hh.no_slash, hh.ne_nil, hf.no_slash, hf.ne_nil]) (by simp)]
  simp [List.foldl, cleanStep, hh.ne_nil, hh.ne_dot, hh.ne_dotdot, hf.ne_nil, hf.ne_dot,
    hf.ne_dotdot, joinWith]

theorem join_commit_dir {h : Str} (hh : SimpleName h) :
    filepathJoin [commitsDir, h] = joinWith '/' ["vcs".toList, "commits".toList, h] := by
  have e : joinWith '/' [commitsDir, h] =
      joinWith '/' [['.'], "vcs".toList, "commits".toList, [], h] := rfl
  have hne : commitsDir ≠ [] := by decide
  unfold filepathJoin
  rw [if_neg hne, e, filepathClean_joinWith _ (by simp)
    (by simp [hh.no_slash, hh.ne_nil]) (by simp)]
  simp [List.foldl, cleanStep, hh.ne_nil, hh.ne_dot, hh.ne_dotdot, joinWith]

theorem join_checkout_dir {id : Str} (hid : SimpleName id) :
    filepathJoin ["./vcs/commits".toList, id] =
      joinWith '/' ["vcs".toList, "commits".toList, id] := by
  have e : joinWith '/' ["./vcs/commits".toList, id] =
      joinWith '/' [['.'], "vcs".toList, "commits".toList, id] := rfl
  have hne : "./vcs/commits".toList ≠ [] := by decide
  unfold filepathJoin
  rw [if_neg hne, e, filepathClean_joinWith _ (by simp)
    (by simp [hid.no_slash, hid.ne_nil]) (by simp)]
  simp [List.foldl, cleanStep, hid.ne_nil, hid.ne_dot, hid.ne_dotdot, joinWith]

theorem join_folder_entity {h e : Str} (hh : SimpleName h) (he : SimpleName e) :
    filepathJoin [joinWith '/' ["vcs".toList, "commits".toList, h], e] =
      joinWith '/' ["vcs".toList, "commits".toList, h, e] := by
  have e1 : joinWith '/' [joinWith '/' ["vcs".toList, "commits".toList, h], e] =
      joinWith '/' ["vcs".toList, "commits".toList, h, e] := by
    simp [joinWith]
  have hne : joinWith '/' ["vcs".toList, "commits".toList, h] ≠ [] :=
    joinWith_ne_nil (by decide)
  unfold filepathJoin
  rw [if_neg hne, e1, filepathClean_joinWith _ (by simp)
    (by simp [hh.no_slash, hh.ne_nil, he.no_slash, he.ne_nil]) (by simp)]
  simp [List.foldl, cleanStep, hh.ne_nil, hh.ne_dot, hh.ne_dotdot, he.ne_nil, he.ne_dot,
    he.ne_dotdot, joinWith]

/-- A control file of the repository, named by its path from the working
directory. -/
theorem resolve_control {env : Env} {fs : FS} (hr : Repo env fs) (s name : Str)
    (hz : '\x00' ∉ s) (hs : s ≠ []) (hl : ¬ pathMax ≤ s.length) (hh : s.head? ≠ some '/')
    (hc : pathComps s = [['.'], "vcs".toList, name]) (hn : SimpleName name) :
    resolve fs env.cwd s = probe fs (vcsP env) name := by
  unfold resolve
  rw [if_neg hz, if_neg hs, if_neg hl, if_neg hh, hc, walk_dot,
    walk_dir _ (by decide) (by simpa [vcsP] using hr.vcs_dir),
    walk_last hn]
  rfl

theorem resolve_index {env : Env} {fs : FS} (hr : Repo env fs) :
    resolve fs env.cwd indexPath =
      Lookup.found (indexP env) (Node.file (readAll fs (indexP env))) := by
  rw [resolve_control hr indexPath "index.txt".toList (by decide) (by decide) (by decide)
    (by decide) (by decide) (by decide)]
  have e : vcsP env ++ ["index.txt".toList] = indexP env := by simp [vcsP, indexP]
  rw [probe_of_some (by rw [e]; exact fsGet_of_isFile hr.index_file), e]

theorem resolve_log {env : Env} {fs : FS} (hr : Repo env fs) :
    resolve fs env.cwd logPath =
      Lookup.found (logP env) (Node.file (readAll fs (logP env))) := by
  rw [resolve_control hr logPath "log.txt".toList (by decide) (by decide) (by decide)
    (by decide) (by decide) (by decide)]
  have e : vcsP env ++ ["log.txt".toList] = logP env := by simp [vcsP, logP]
  rw [probe_of_some (by rw [e]; exact fsGet_of_isFile hr.log_file), e]

theorem resolve_config {env : Env} {fs : FS} (hr : Repo env fs) :
    resolve fs env.cwd configPath =
      Lookup.found (configP env) (Node.file (readAll fs (configP env))) := by
  rw [resolve_control hr configPath "config.txt".toList (by decide) (by decide) (by decide)
    (by decide) (by decide) (by decide)]
  have e : vcsP env ++ ["config.txt".toList] = configP env := by simp [vcsP, configP]
  rw [probe_of_some (by rw [e]; exact fsGet_of_isFile hr.config_file), e]

/-- The directory of a snapshot, named as the source names it. -/
theorem resolve_snapshot_dir {env : Env} {fs : FS} (hr : Repo env fs) {h : Str}
    (hh : SimpleName h) :
    resolve fs env.cwd (joinWith '/' ["vcs".toList, "commits".toList, h]) =
      probe fs (commitsP env) h := by
  rw [resolve_joinWith _ _ _ (by simp)
    (pathElems3 (by decide) (by decide) hh.pathElem) (by simp),
    walk_dir _ (by decide) (by simpa [vcsP] using hr.vcs_dir),
    walk_dir _ (by decide) (by simpa [commitsP] using hr.commits_dir),
    walk_last hh]
  simp only [commitsP, List.append_assoc, List.cons_append, List.nil_append]

/-- A file of a snapshot, named as the source names it. -/
theorem resolve_snapshot_file {env : Env} {fs : FS} (hr : Repo env fs) {h f : Str}
    (hh : SimpleName h) (hf : SimpleName f)
    (hd : fsGet fs (snapP env h) = some Node.dir) :
    resolve fs env.cwd (joinWith '/' ["vcs".toList, "commits".toList, h, f]) =
      probe fs (snapP env h) f := by
  rw [resolve_joinWith _ _ _ (by simp)
    (pathElems4 (by decide) (by decide) hh.pathElem hf.pathElem) (by simp),
    walk_dir _ (by decide) (by simpa [vcsP] using hr.vcs_dir),
    walk_dir _ (by decide) (by simpa [commitsP] using hr.commits_dir),
    walk_dir _ hh (by simpa [commitsP, snapP] using hd),
    walk_last hf]
  simp only [commitsP, snapP, List.append_assoc, List.cons_append, List.nil_append]

theorem resolve_commits {env : Env} {fs : FS} (hr : Repo env fs) :
    resolve fs env.cwd (joinWith '/' ["vcs".toList, "commits".toList]) =
      Lookup.found (commitsP env) Node.dir := by
  rw [resolve_joinWith _ _ _ (by simp) (pathElems2 (by decide) (by decide)) (by simp),
    walk_dir _ (by decide) (by simpa [vcsP] using hr.vcs_dir),
    walk_last (by decide)]
  have hc : fsGet fs (env.cwd ++ ["vcs".toList] ++ ["commits".toList]) = some Node.dir := by
    simpa [commitsP] using hr.commits_dir
  rw [probe_of_some hc]
  simp [commitsP]

theorem join_commit_dot {h : Str} (hh : SimpleName h) :
    filepathJoin [commitsDir ++ h, ['.']] =
      joinWith '/' ["vcs".toList, "commits".toList, h] := by
  have e : joinWith '/' [commitsDir ++ h, ['.']] =
      joinWith '/' [['.'], "vcs".toList, "commits".toList, h, ['.']] := rfl
  have hne : commitsDir ++ h ≠ [] := by simp [commitsDir]
  unfold filepathJoin
  rw [if_neg hne, e, filepathClean_joinWith _ (by simp) (by simp [hh.no_slash]) (by simp)]
  simp [List.foldl, cleanStep, hh.ne_nil, hh.ne_dot, hh.ne_dotdot, joinWith]

theorem join_commit_dotdot {h : Str} (hh : SimpleName h) :
    filepathJoin [commitsDir ++ h, ['.', '.']] =
      joinWith '/' ["vcs".toList, "commits".toList] := by
  have e : joinWith '/' [commitsDir ++ h, ['.', '.']] =
      joinWith '/' [['.'], "vcs".toList, "commits".toList, h, ['.', '.']] := rfl
  have hne : commitsDir ++ h ≠ [] := by simp [commitsDir]
  unfold filepathJoin
  rw [if_neg hne, e, filepathClean_joinWith _ (by simp) (by simp [hh.no_slash]) (by simp)]
  simp [List.foldl, cleanStep, hh.ne_nil, hh.ne_dot, hh.ne_dotdot, joinWith]

/-! ## Commit identifiers -/

theorem hexDigit_mem (n : Nat) : hexDigit n ∈ "0123456789abcdef".toList := by
  have h : ∀ m : Fin 16, hexDigit m.val ∈ "0123456789abcdef".toList := by decide
  have e : hexDigit n = hexDigit (n % 16) := by simp [hexDigit]
  rw [e]
  exact h ⟨n % 16, Nat.mod_lt _ (by decide)⟩

theorem mem_hex40 {n : Nat} {c : Char} (h : c ∈ hex40 n) : c ∈ "0123456789abcdef".toList := by
  unfold hex40 at h
  obtain ⟨i, _, rfl⟩ := List.mem_map.1 h
  exact hexDigit_mem _

theorem length_hex40 (n : Nat) : (hex40 n).length = 40 := by
  simp [hex40]

theorem not_mem_hex40 (n : Nat) {c : Char} (hc : c ∉ "0123456789abcdef".toList) :
    c ∉ hex40 n :=
  fun h => hc (mem_hex40 h)

/-- A commit identifier is a name a directory entry can have. -/
theorem simpleName_hex40 (n : Nat) : SimpleName (hex40 n) := by
  refine ⟨?_, ?_, ?_, not_mem_hex40 n (by decide), not_mem_hex40 n (by decide),
    by rw [length_hex40]; decide⟩
  · intro e; have := length_hex40 n; rw [e] at this; simp at this
  · intro e; have := length_hex40 n; rw [e] at this; simp at this
  · intro e; have := length_hex40 n; rw [e] at this; simp at this

theorem simpleName_hashCommit (env : Env) (now user : Str) :
    SimpleName (hashCommit env now user) :=
  simpleName_hex40 _

/-! ## The calls of the source on the paths of the repository -/

theorem osOpen_simple (fs : FS) (cwd : Path) {f : Str} (hf : SimpleName f) :
    osOpen fs cwd f =
      if fsGet fs (cwd ++ [f]) = none then Except.error OsErr.notExist
      else Except.ok (cwd ++ [f]) := by
  unfold osOpen
  rw [resolve_simple fs cwd hf]
  unfold probe
  cases fsGet fs (cwd ++ [f]) <;> simp

theorem readIndexAsSlice_repo {env : Env} {fs : FS} (hr : Repo env fs) :
    readIndexAsSlice env fs = some (scanLines (readAll fs (indexP env))) := by
  simp [readIndexAsSlice, osOpen, resolve_index hr]

theorem getLastCommitInfo_repo {env : Env} {fs : FS} (hr : Repo env fs) :
    getLastCommitInfo env fs = some ((scanLines (readAll fs (logP env))).getLastD []) := by
  simp [getLastCommitInfo, osOpen, resolve_log hr]

theorem getUserName_repo {env : Env} {fs : FS} (hr : Repo env fs) :
    getUserName env fs = some (readAll fs (configP env)) := by
  simp [getUserName, osReadFile, resolve_config hr]

theorem addCommitToLog_repo {env : Env} {fs : FS} (hr : Repo env fs) (msg user h : Str) :
    addCommitToLog env msg user h fs =
      some (fsSet fs (logP env)
        (Node.file (readAll fs (logP env) ++ (h ++ '|' :: user ++ '|' :: msg ++ ['\n'])))) := by
  simp [addCommitToLog, osOpenAppend, resolve_log hr, appendTo]

theorem pathComps_commitPath {h : Str} (hh : SimpleName h) :
    pathComps (commitsDir ++ h) = [['.'], "vcs".toList, "commits".toList, h] := by
  have e : commitsDir ++ h = joinWith '/' [['.'], "vcs".toList, "commits".toList, h] := rfl
  rw [e]
  exact pathComps_joinWith _ (by simp) (by simp [hh.no_slash, hh.ne_nil])

theorem nul_not_mem_commitPath {h : Str} (hh : SimpleName h) : '\x00' ∉ commitsDir ++ h := by
  simp only [List.mem_append, not_or]
  exact ⟨by decide, hh.no_nul⟩

theorem length_commitPath {h : Str} (hh : SimpleName h) : ¬ pathMax ≤ (commitsDir ++ h).length := by
  have := hh.length_le
  have e : commitsDir.length = 14 := by decide
  simp only [List.length_append, e, pathMax, nameMax] at this ⊢
  omega

/-- `os.MkdirAll` on the path of a snapshot: the one directory is made if it
is missing. -/
theorem osMkdirAll_snapshot {env : Env} {fs : FS} (hr : Repo env fs) {h : Str}
    (hh : SimpleName h) :
    osMkdirAll fs env.cwd (commitsDir ++ h) =
      if fsGet fs (snapP env h) = none then some (fsSet fs (snapP env h) Node.dir)
      else if fsGet fs (snapP env h) = some Node.dir then some fs
      else none := by
  have hne : commitsDir ++ h ≠ [] := by simp [commitsDir]
  have hhd : (commitsDir ++ h).head? ≠ some '/' := by simp [commitsDir]
  have hv : fsGet fs (env.cwd ++ ["vcs".toList]) = some Node.dir := hr.vcs_dir
  have hc : fsGet fs (env.cwd ++ ["vcs".toList] ++ ["commits".toList]) = some Node.dir := by
    simpa [commitsP] using hr.commits_dir
  have e : env.cwd ++ ["vcs".toList] ++ ["commits".toList] ++ [h] = snapP env h := by
    simp [snapP, commitsP]
  have hlen : ¬ nameMax < h.length := Nat.not_lt.2 hh.length_le
  unfold osMkdirAll
  rw [if_neg (nul_not_mem_commitPath hh), if_neg hne, if_neg (length_commitPath hh), if_neg hhd,
    pathComps_commitPath hh]
  simp only [mkdirWalk, if_true, hv, hc, hh.ne_dot, hh.ne_dotdot, if_false, hlen,
    (by decide : ¬ nameMax < "vcs".toList.length),
    (by decide : ¬ nameMax < "commits".toList.length),
    (by decide : "vcs".toList ≠ ['.']), (by decide : "vcs".toList ≠ ['.', '.']),
    (by decide : "commits".toList ≠ ['.']), (by decide : "commits".toList ≠ ['.', '.']), e]
  cases hg : fsGet fs (snapP env h) with
  | none => simp
  | some n => cases n <;> simp

theorem simpleName_cases {f : Str} (hf : '/' ∉ f) :
    f = [] ∨ f = ['.'] ∨ f = ['.', '.'] ∨ SimpleName f ∨
      (f ≠ [] ∧ f ≠ ['.'] ∧ f ≠ ['.', '.'] ∧ ('\x00' ∈ f ∨ nameMax < f.length)) := by
  by_cases h1 : f = []
  · exact Or.inl h1
  by_cases h2 : f = ['.']
  · exact Or.inr (Or.inl h2)
  by_cases h3 : f = ['.', '.']
  · exact Or.inr (Or.inr (Or.inl h3))
  by_cases h4 : '\x00' ∈ f
  · exact Or.inr (Or.inr (Or.inr (Or.inr ⟨h1, h2, h3, Or.inl h4⟩)))
  by_cases h5 : nameMax < f.length
  · exact Or.inr (Or.inr (Or.inr (Or.inr ⟨h1, h2, h3, Or.inr h5⟩)))
  · exact Or.inr (Or.inr (Or.inr (Or.inl ⟨h1, h2, h3, hf, h4, Nat.not_lt.1 h5⟩)))

/-- A name without a slash that holds a zero byte or has more than `nameMax`
bytes is refused by the lookup, with an error that is not `ENOENT`. -/
theorem resolve_refused (fs : FS) (cwd : Path) {f : Str} (hf : '/' ∉ f) (h1 : f ≠ [])
    (h2 : f ≠ ['.']) (h3 : f ≠ ['.', '.']) (h : '\x00' ∈ f ∨ nameMax < f.length) :
    resolve fs cwd f = Lookup.einval ∨ resolve fs cwd f = Lookup.enametoolong := by
  unfold resolve
  by_cases hz : '\x00' ∈ f
  · exact Or.inl (by rw [if_pos hz])
  · have hl : nameMax < f.length := h.resolve_left hz
    rw [if_neg hz, if_neg h1]
    by_cases hp : pathMax ≤ f.length
    · exact Or.inr (by rw [if_pos hp])
    · have hc : pathComps f = [f] := by
        have := pathComps_joinWith [f] (by simp) (by simpa using ⟨h1, hf⟩)
        simpa [joinWith] using this
      rw [if_neg hp, hc, walk_long _ h2 h3 hl]
      exact Or.inr rfl

theorem osOpen_refused (fs : FS) (cwd : Path) {f : Str} (hf : '/' ∉ f) (h1 : f ≠ [])
    (h2 : f ≠ ['.']) (h3 : f ≠ ['.', '.']) (h : '\x00' ∈ f ∨ nameMax < f.length) :
    osOpen fs cwd f = Except.error OsErr.other := by
  unfold osOpen
  rcases resolve_refused fs cwd hf h1 h2 h3 h with e | e <;> rw [e]

theorem not_simpleName_of_refused {f : Str} (h : '\x00' ∈ f ∨ nameMax < f.length) :
    ¬ SimpleName f := by
  intro hs
  rcases h with h | h
  · exact hs.no_nul h
  · exact absurd hs.length_le (Nat.not_le.2 h)

/-- One round of the loop of `createCommit`, for a tracked path without a
slash: it goes through exactly for a plain name that exists in the working
directory and is not a directory of the snapshot. -/
theorem copyFiles_cons {env : Env} {fs : FS} (hr : Repo env fs) {h : Str}
    (hh : SimpleName h) (hd : fsGet fs (snapP env h) = some Node.dir)
    {f : Str} (hf : '/' ∉ f) (rest : List Str) :
    copyFiles env (commitsDir ++ h) fs (f :: rest) =
      if SimpleName f ∧ fsGet fs (env.cwd ++ [f]) ≠ none ∧
          fsGet fs (snapP env h ++ [f]) ≠ some Node.dir
      then copyFiles env (commitsDir ++ h) (copyOne env h fs f) rest
      else (fs, false) := by
  rcases simpleName_cases hf with rfl | rfl | rfl | hs | ⟨h1, h2, h3, hbad⟩
  rotate_right
  · rw [copyFiles, osOpen_refused fs env.cwd hf h1 h2 h3 hbad,
      if_neg (fun hx => not_simpleName_of_refused hbad hx.1)]
  · have : ¬ SimpleName ([] : Str) := by decide
    simp [copyFiles, osOpen, resolve, this]
  · have : ¬ SimpleName ['.'] := by decide
    have ho : osOpen fs env.cwd ['.'] = Except.ok env.cwd := by
      simp [osOpen, resolve, pathComps, splitOn, walk, pathMax]
    have hc : osCreate fs env.cwd (filepathJoin [commitsDir ++ h, ['.']]) =
        Except.error OsErr.other := by
      unfold osCreate
      rw [join_commit_dot hh, resolve_snapshot_dir hr hh,
        probe_of_some (by simpa [snapP] using hd)]
    simp only [copyFiles, ho, hc, this, false_and, if_false]
  · have : ¬ SimpleName ['.', '.'] := by decide
    have ho : osOpen fs env.cwd ['.', '.'] = Except.ok env.cwd.dropLast := by
      simp [osOpen, resolve, pathComps, splitOn, walk, pathMax]
    have hc : osCreate fs env.cwd (filepathJoin [commitsDir ++ h, ['.', '.']]) =
        Except.error OsErr.other := by
      unfold osCreate
      rw [join_commit_dotdot hh, resolve_commits hr]
    simp only [copyFiles, ho, hc, this, false_and, if_false]
  · rw [copyFiles, osOpen_simple fs env.cwd hs]
    by_cases hg : fsGet fs (env.cwd ++ [f]) = none
    · simp [hg]
    · simp only [if_neg hg]
      unfold osCreate
      rw [join_commit_file hh hs, resolve_snapshot_file hr hh hs hd]
      unfold probe
      cases hn : fsGet fs (snapP env h ++ [f]) with
      | none => simp [hs, hg, copyOne]
      | some n =>
        cases n with
        | file d => simp [hs, hg, copyOne]
        | dir => simp [hs, hg]

/-! ## The loop of `createCommit` -/

theorem snapP_snoc_ne_nil (env : Env) (h f : Str) : snapP env h ++ [f] ≠ [] := by simp

theorem snapP_snoc_ne_cwd_snoc (env : Env) (h f g : Str) :
    snapP env h ++ [f] ≠ env.cwd ++ [g] := by
  simp [snapP, commitsP]

theorem fsGet_copyOne (env : Env) (h : Str) (fs : FS) (f : Str) (q : Path) :
    fsGet (copyOne env h fs f) q =
      if snapP env h ++ [f] = q then some (Node.file (readAll fs (env.cwd ++ [f])))
      else fsGet fs q := by
  unfold copyOne ioCopy
  rw [fsGet_fsSet _ _ _ (snapP_snoc_ne_nil env h f)]
  by_cases e : snapP env h ++ [f] = q
  · simp only [if_pos e]
    unfold readAll
    rw [fsGet_fsSet_of_ne _ _ (snapP_snoc_ne_nil env h f) (snapP_snoc_ne_cwd_snoc env h f f)]
  · simp only [if_neg e]
    exact fsGet_fsSet_of_ne _ _ (snapP_snoc_ne_nil env h f) e

theorem fsGet_copyOne_of_ne (env : Env) (h : Str) (fs : FS) (f : Str) {q : Path}
    (hq : snapP env h ++ [f] ≠ q) : fsGet (copyOne env h fs f) q = fsGet fs q := by
  rw [fsGet_copyOne, if_neg hq]

theorem readAll_copyOne_cwd (env : Env) (h : Str) (fs : FS) (f g : Str) :
    readAll (copyOne env h fs f) (env.cwd ++ [g]) = readAll fs (env.cwd ++ [g]) := by
  unfold readAll
  rw [fsGet_copyOne_of_ne env h fs f (snapP_snoc_ne_cwd_snoc env h f g)]

theorem repo_copyOne {env : Env} {fs : FS} (hr : Repo env fs) (h f : Str) :
    Repo env (copyOne env h fs f) := by
  refine ⟨?_, ?_, ?_, ?_, ?_, ?_⟩
  · rw [fsGet_copyOne_of_ne _ _ _ _ (by simp [snapP, commitsP])]; exact hr.cwd_dir
  · rw [fsGet_copyOne_of_ne _ _ _ _ (by simp [snapP, commitsP, vcsP])]; exact hr.vcs_dir
  · rw [fsGet_copyOne_of_ne _ _ _ _ (by simp [snapP, commitsP])]; exact hr.commits_dir
  · rw [fsGet_copyOne_of_ne _ _ _ _ (by simp [snapP, commitsP, indexP])]; exact hr.index_file
  · rw [fsGet_copyOne_of_ne _ _ _ _ (by simp [snapP, commitsP, logP])]; exact hr.log_file
  · rw [fsGet_copyOne_of_ne _ _ _ _ (by simp [snapP, commitsP, configP])]; exact hr.config_file

theorem snapDir_copyOne {env : Env} {fs : FS} {h : Str} (f : Str)
    (hd : fsGet fs (snapP env h) = some Node.dir) :
    fsGet (copyOne env h fs f) (snapP env h) = some Node.dir := by
  rw [fsGet_copyOne_of_ne _ _ _ _ (by simp)]; exact hd

/-- What the rounds of `createCommit` that went through have written: every
file copied is in the snapshot with the bytes it has in the working
directory. -/
theorem fsGet_foldl_copyOne_mem (env : Env) (h : Str) (done : List Str) (fs : FS) {f : Str}
    (hf : f ∈ done) :
    fsGet (done.foldl (copyOne env h) fs) (snapP env h ++ [f]) =
      some (Node.file (readAll fs (env.cwd ++ [f]))) ∧
    ∀ q, (∀ g ∈ done, q ≠ snapP env h ++ [g]) →
      fsGet (done.foldl (copyOne env h) fs) q = fsGet fs q := by
  suffices H : ∀ (done : List Str) (fs : FS),
      (∀ q, (∀ g ∈ done, q ≠ snapP env h ++ [g]) →
        fsGet (done.foldl (copyOne env h) fs) q = fsGet fs q) ∧
      (∀ f ∈ done, fsGet (done.foldl (copyOne env h) fs) (snapP env h ++ [f]) =
        some (Node.file (readAll fs (env.cwd ++ [f])))) from
    ⟨(H done fs).2 f hf, (H done fs).1⟩
  intro done
  induction done with
  | nil => intro fs; simp
  | cons g rest ih =>
    intro fs
    obtain ⟨ih1, ih2⟩ := ih (copyOne env h fs g)
    simp only [List.foldl]
    constructor
    · intro q hq
      rw [ih1 q (fun x hx => hq x (List.mem_cons_of_mem _ hx)),
        fsGet_copyOne_of_ne _ _ _ _ (fun e => hq g (by simp) e.symm)]
    · intro f hf
      by_cases hfr : f ∈ rest
      · rw [ih2 f hfr, readAll_copyOne_cwd]
      · have hfg : f = g := by
          rcases List.mem_cons.1 hf with e | e
          · exact e
          · exact absurd e hfr
        subst hfg
        rw [ih1 _ (fun x hx e => hfr (by
          have := List.append_cancel_left e
          simp at this
          rw [this]; exact hx)), fsGet_copyOne, if_pos rfl]

theorem fsGet_foldl_copyOne_of_ne (env : Env) (h : Str) (done : List Str) (fs : FS) (q : Path)
    (hq : ∀ g ∈ done, q ≠ snapP env h ++ [g]) :
    fsGet (done.foldl (copyOne env h) fs) q = fsGet fs q := by
  cases done with
  | nil => rfl
  | cons g rest => exact (fsGet_foldl_copyOne_mem env h (g :: rest) fs (List.mem_cons_self _ _)).2 q hq

/-- The test one round of `createCommit` makes, read on the file system the
loop started from. -/
theorem copy_cond_copyOne (env : Env) (h : Str) (fs : FS) (f g : Str)
    (hf : fsGet fs (snapP env h ++ [f]) ≠ some Node.dir) :
    (SimpleName g ∧ fsGet (copyOne env h fs f) (env.cwd ++ [g]) ≠ none ∧
      fsGet (copyOne env h fs f) (snapP env h ++ [g]) ≠ some Node.dir) ↔
    (SimpleName g ∧ fsGet fs (env.cwd ++ [g]) ≠ none ∧
      fsGet fs (snapP env h ++ [g]) ≠ some Node.dir) := by
  rw [fsGet_copyOne_of_ne env h fs f (snapP_snoc_ne_cwd_snoc env h f g), fsGet_copyOne]
  by_cases e : f = g
  · subst e; simp [hf]
  · have : snapP env h ++ [f] ≠ snapP env h ++ [g] := by simpa using e
    rw [if_neg this]

/-- The loop of `createCommit` over tracked paths without a slash: it copies
the files of a first part `done` of the list, and stops, reporting failure, at
the first path that is not a plain name of an existing file, or whose name in
the snapshot is a directory. -/
theorem copyFiles_eq_foldl {env : Env} {h : Str} (hh : SimpleName h) (data : List Str)
    (hdata : ∀ f ∈ data, '/' ∉ f) (fs : FS) (hr : Repo env fs)
    (hd : fsGet fs (snapP env h) = some Node.dir) :
    ∃ done rest, data = done ++ rest ∧
      copyFiles env (commitsDir ++ h) fs data =
        (done.foldl (copyOne env h) fs, decide (rest = [])) ∧
      (∀ f ∈ done, SimpleName f ∧ fsGet fs (env.cwd ++ [f]) ≠ none ∧
        fsGet fs (snapP env h ++ [f]) ≠ some Node.dir) ∧
      (∀ g, rest.head? = some g → ¬ (SimpleName g ∧ fsGet fs (env.cwd ++ [g]) ≠ none ∧
        fsGet fs (snapP env h ++ [g]) ≠ some Node.dir)) := by
  induction data generalizing fs with
  | nil => exact ⟨[], [], rfl, by simp [copyFiles], by simp, by simp⟩
  | cons f rest ih =>
    have hf : '/' ∉ f := hdata f (by simp)
    rw [copyFiles_cons hr hh hd hf]
    by_cases hc : SimpleName f ∧ fsGet fs (env.cwd ++ [f]) ≠ none ∧
        fsGet fs (snapP env h ++ [f]) ≠ some Node.dir
    · rw [if_pos hc]
      obtain ⟨done, rest', e, hcopy, hdone, hrest⟩ :=
        ih (fun x hx => hdata x (List.mem_cons_of_mem _ hx)) (copyOne env h fs f)
          (repo_copyOne hr h f) (snapDir_copyOne f hd)
      refine ⟨f :: done, rest', by simp [e], by simpa using hcopy, ?_, ?_⟩
      · intro g hg
        rcases List.mem_cons.1 hg with e | hg
        · subst e; exact hc
        · exact (copy_cond_copyOne env h fs f g hc.2.2).1 (hdone g hg)
      · intro g hg hcond
        exact hrest g hg ((copy_cond_copyOne env h fs f g hc.2.2).2 hcond)
    · rw [if_neg hc]
      exact ⟨[], f :: rest, rfl, by simp, by simp, by
        intro g hg
        simp at hg
        subst hg
        exact hc⟩

/-! ## The change detector -/

theorem hashEntries_of_not_mem (env : Env) (fs : FS) (h fn : Str) (entries : List Str)
    (acc : Str) (hn : fn ∉ entries) :
    hashEntries env fs h fn entries acc = some acc := by
  induction entries generalizing acc with
  | nil => rfl
  | cons e rest ih =>
    have h1 : e ≠ fn := fun x => hn (by simp [x])
    have h2 : fn ∉ rest := fun x => hn (by simp [x])
    simp [hashEntries, h1, ih acc h2]

theorem osOpen_snapshot_file {env : Env} {fs : FS} (hr : Repo env fs) {h f : Str}
    (hh : SimpleName h) (hf : SimpleName f)
    (hd : fsGet fs (snapP env h) = some Node.dir) :
    osOpen fs env.cwd (filepathJoin [commitsDir, h, f]) =
      if fsGet fs (snapP env h ++ [f]) = none then Except.error OsErr.notExist
      else Except.ok (snapP env h ++ [f]) := by
  unfold osOpen
  rw [join_commit_file3 hh hf, resolve_snapshot_file hr hh hf hd]
  unfold probe
  cases fsGet fs (snapP env h ++ [f]) <;> simp

/-- What `h2` is given in one round of `somehtingChanged`: the bytes of the
file of that name in the last snapshot, nothing when there is none. -/
theorem hashEntries_nodup {env : Env} {fs : FS} (hr : Repo env fs) {h fn : Str}
    (hh : SimpleName h) (hfn : SimpleName fn)
    (hd : fsGet fs (snapP env h) = some Node.dir) (entries : List Str)
    (hnd : entries.Nodup) (hex : fn ∈ entries → fsGet fs (snapP env h ++ [fn]) ≠ none)
    (acc : Str) :
    hashEntries env fs h fn entries acc =
      some (acc ++ if fn ∈ entries then readAll fs (snapP env h ++ [fn]) else []) := by
  induction entries generalizing acc with
  | nil => simp [hashEntries]
  | cons e rest ih =>
    have hnd' := List.nodup_cons.1 hnd
    by_cases he : e = fn
    · subst he
      have hx := hex (by simp)
      simp only [hashEntries, if_true, osOpen_snapshot_file hr hh hfn hd, if_neg hx]
      rw [hashEntries_of_not_mem _ _ _ _ _ _ hnd'.1]
      simp
    · have hmem : fn ∈ e :: rest ↔ fn ∈ rest := by
        simp [List.mem_cons, Ne.symm he]
      simp only [hashEntries, if_neg he]
      rw [ih hnd'.2 (fun x => hex (hmem.2 x))]
      simp only [hmem]

theorem osReadDir_snapshot {env : Env} {fs : FS} (hr : Repo env fs) {h : Str}
    (hh : SimpleName h) (hd : fsGet fs (snapP env h) = some Node.dir) :
    osReadDir fs env.cwd (filepathJoin [commitsDir, h]) =
      Except.ok (listDir fs (snapP env h)) := by
  unfold osReadDir
  rw [join_commit_dir hh, resolve_snapshot_dir hr hh, probe_of_some (by simpa [snapP] using hd)]
  rfl

theorem readAll_of_none {fs : FS} {p : Path} (h : fsGet fs p = none) : readAll fs p = [] := by
  simp [readAll, h]

/-- One round of `somehtingChanged` for a tracked plain name that exists: the
digest of its bytes is compared with the digest of the bytes stored under
that name in the last snapshot. -/
theorem changedLoop_cons {env : Env} {fs : FS} (hr : Repo env fs) {last h fn : Str}
    (hl : (splitOn '|' last).headD [] = h) (hh : SimpleName h)
    (hd : fsGet fs (snapP env h) = some Node.dir) (hfn : SimpleName fn)
    (hex : fsGet fs (env.cwd ++ [fn]) ≠ none) (rest : List Str) :
    changedLoop env fs last (fn :: rest) =
      if env.sha256 (readAll fs (env.cwd ++ [fn])) ≠
          env.sha256 (readAll fs (snapP env h ++ [fn]))
      then some true else changedLoop env fs last rest := by
  rw [changedLoop, osOpen_simple fs env.cwd hfn, if_neg hex]
  simp only [hl]
  rw [osReadDir_snapshot hr hh hd]
  simp only
  rw [hashEntries_nodup hr hh hfn hd _ (nodup_listDir _ _)
    (fun x => (mem_listDir _ _ _).1 x)]
  simp only [List.nil_append]
  by_cases hm : fn ∈ listDir fs (snapP env h)
  · simp only [if_pos hm]
  · have : fsGet fs (snapP env h ++ [fn]) = none := by
      by_contra hc
      exact hm ((mem_listDir _ _ _).2 hc)
    simp only [if_neg hm, readAll_of_none this]

/-- The change detector over tracked plain names that exist: it answers, and
says whether some tracked file has another digest than its stored copy. -/
theorem changedLoop_eq_any {env : Env} {fs : FS} (hr : Repo env fs) {last h : Str}
    (hl : (splitOn '|' last).headD [] = h) (hh : SimpleName h)
    (hd : fsGet fs (snapP env h) = some Node.dir) (data : List Str)
    (hdata : ∀ f ∈ data, SimpleName f ∧ fsGet fs (env.cwd ++ [f]) ≠ none) :
    changedLoop env fs last data =
      some (data.any fun fn => decide (env.sha256 (readAll fs (env.cwd ++ [fn])) ≠
        env.sha256 (readAll fs (snapP env h ++ [fn])))) := by
  induction data with
  | nil => rfl
  | cons fn rest ih =>
    have h1 := hdata fn (by simp)
    rw [changedLoop_cons hr hl hh hd h1.1 h1.2,
      ih (fun f hf => hdata f (List.mem_cons_of_mem _ hf))]
    by_cases hc : env.sha256 (readAll fs (env.cwd ++ [fn])) =
        env.sha256 (readAll fs (snapP env h ++ [fn]))
    · simp [hc]
    · simp [hc]

/-! ## A commit, step by step -/

theorem repo_fsSet {env : Env} {fs : FS} (hr : Repo env fs) {p : Path} (n : Node)
    (h0 : p ≠ []) (h1 : p ≠ env.cwd) (h2 : p ≠ vcsP env) (h3 : p ≠ commitsP env)
    (h4 : p ≠ indexP env) (h5 : p ≠ logP env) (h6 : p ≠ configP env) :
    Repo env (fsSet fs p n) := by
  refine ⟨?_, ?_, ?_, ?_, ?_, ?_⟩
  · rw [fsGet_fsSet_of_ne _ _ h0 h1]; exact hr.cwd_dir
  · rw [fsGet_fsSet_of_ne _ _ h0 h2]; exact hr.vcs_dir
  · rw [fsGet_fsSet_of_ne _ _ h0 h3]; exact hr.commits_dir
  · rw [fsGet_fsSet_of_ne _ _ h0 h4]; exact hr.index_file
  · rw [fsGet_fsSet_of_ne _ _ h0 h5]; exact hr.log_file
  · rw [fsGet_fsSet_of_ne _ _ h0 h6]; exact hr.config_file

theorem repo_fsSet_snap {env : Env} {fs : FS} (hr : Repo env fs) (h : Str) (n : Node) :
    Repo env (fsSet fs (snapP env h) n) :=
  repo_fsSet hr n (by simp [snapP]) (by simp [snapP, commitsP]) (by simp [snapP, commitsP, vcsP])
    (by simp [snapP]) (by simp [snapP, commitsP, indexP]) (by simp [snapP, commitsP, logP])
    (by simp [snapP, commitsP, configP])

theorem logP_ne_nil (env : Env) : logP env ≠ [] := by simp [logP]

theorem repo_fsSet_log {env : Env} {fs : FS} (hr : Repo env fs) (d : Str) :
    Repo env (fsSet fs (logP env) (Node.file d)) := by
  refine ⟨?_, ?_, ?_, ?_, ?_, ?_⟩
  · rw [fsGet_fsSet_of_ne _ _ (logP_ne_nil env) (by simp [logP])]; exact hr.cwd_dir
  · rw [fsGet_fsSet_of_ne _ _ (logP_ne_nil env) (by simp [logP, vcsP])]; exact hr.vcs_dir
  · rw [fsGet_fsSet_of_ne _ _ (logP_ne_nil env) (by simp [logP, commitsP])]
    exact hr.commits_dir
  · rw [fsGet_fsSet_of_ne _ _ (logP_ne_nil env) (by simp [logP, indexP])]
    exact hr.index_file
  · rw [fsGet_fsSet_self _ _ (logP_ne_nil env)]; rfl
  · rw [fsGet_fsSet_of_ne _ _ (logP_ne_nil env) (by simp [logP, configP])]
    exact hr.config_file

theorem repo_foldl_copyOne {env : Env} (h : Str) (done : List Str) {fs : FS}
    (hr : Repo env fs) : Repo env (done.foldl (copyOne env h) fs) := by
  induction done generalizing fs with
  | nil => exact hr
  | cons f rest ih => exact ih (repo_copyOne hr h f)

/-- The directory step of `createCommit`: unless a regular file has the name
of the snapshot, the directory exists afterwards and nothing else changed. -/
theorem mkdir_snapshot {env : Env} {fs : FS} (hr : Repo env fs) {h : Str}
    (hh : SimpleName h) :
    (isFile (fsGet fs (snapP env h)) = true ∧ osMkdirAll fs env.cwd (commitsDir ++ h) = none) ∨
    ∃ fsA, osMkdirAll fs env.cwd (commitsDir ++ h) = some fsA ∧ Repo env fsA ∧
      fsGet fsA (snapP env h) = some Node.dir ∧
      (∀ q, q ≠ snapP env h → fsGet fsA q = fsGet fs q) ∧
      (fsGet fs (snapP env h) = some Node.dir → fsA = fs) := by
  rw [osMkdirAll_snapshot hr hh]
  cases hg : fsGet fs (snapP env h) with
  | none =>
    refine Or.inr ⟨fsSet fs (snapP env h) Node.dir, by simp, repo_fsSet_snap hr h _,
      fsGet_fsSet_self _ _ (by simp [snapP]), ?_, by simp⟩
    intro q hq
    exact fsGet_fsSet_of_ne _ _ (by simp [snapP]) (Ne.symm hq)
  | some n =>
    cases n with
    | file d => exact Or.inl ⟨rfl, by simp⟩
    | dir => exact Or.inr ⟨fs, by simp, hr, hg, fun _ _ => rfl, fun _ => rfl⟩

theorem readAll_congr {fs fs1 : FS} {p : Path} (h : fsGet fs1 p = fsGet fs p) :
    readAll fs1 p = readAll fs p := by
  simp [readAll, h]

theorem logLine_newline (h user msg : Str) :
    h ++ '|' :: user ++ '|' :: msg ++ ['\n'] = logLine h user msg ++ ['\n'] := by
  simp [logLine]

/-- The state a commit leaves when every round of its loop went through. -/
theorem committed_of_copied {env : Env} {fs fsA : FS} {h : Str}
    (user msg : Str) (data : List Str) (hrA : Repo env fsA)
    (hdir : fsGet fsA (snapP env h) = some Node.dir)
    (hframe : ∀ q, q ≠ snapP env h → fsGet fsA q = fsGet fs q) :
    Committed env fs h user msg data
      (fsSet (data.foldl (copyOne env h) fsA) (logP env)
        (Node.file (readAll (data.foldl (copyOne env h) fsA) (logP env) ++
          (h ++ '|' :: user ++ '|' :: msg ++ ['\n'])))) := by
  have hlogne : ∀ f, logP env ≠ snapP env h ++ [f] := by
    intro f; simp [logP, snapP, commitsP]
  have hlogsnap : logP env ≠ snapP env h := by simp [logP, snapP, commitsP]
  have hlog : readAll (data.foldl (copyOne env h) fsA) (logP env) = readAll fs (logP env) := by
    apply readAll_congr
    rw [fsGet_foldl_copyOne_of_ne env h data fsA _ (fun g _ => hlogne g), hframe _ hlogsnap]
  refine ⟨?_, ?_, ?_, ?_, ?_⟩
  · rw [fsGet_fsSet_of_ne _ _ (logP_ne_nil env) hlogsnap,
      fsGet_foldl_copyOne_of_ne env h data fsA _ (fun g _ => by simp), hdir]
  · intro f hf
    rw [fsGet_fsSet_of_ne _ _ (logP_ne_nil env) (hlogne f),
      (fsGet_foldl_copyOne_mem env h data fsA hf).1]
    congr 2
    exact readAll_congr (hframe _ (by simp [snapP, commitsP]))
  · rw [fsGet_fsSet_self _ _ (logP_ne_nil env), hlog, logLine_newline]
  · intro q h1 h2 h3
    rw [fsGet_fsSet_of_ne _ _ (logP_ne_nil env) (Ne.symm h3),
      fsGet_foldl_copyOne_of_ne env h data fsA _ h2, hframe _ h1]
  · exact repo_fsSet_log (repo_foldl_copyOne h data hrA) _

/-- The three ways a commit with a message can end in a repository whose
tracked paths have no slash: nothing to commit, a fatal error that has touched
nothing but the new snapshot, or a commit that went through. -/
theorem handleCommit_cases {env : Env} {fs : FS} (hr : Repo env fs) (now msg : Str)
    (rest : List Str) (hdata : ∀ f ∈ scanLines (readAll fs (indexP env)), '/' ∉ f) :
    (handleCommit env now (msg :: rest) fs = ⟨fs, "Nothing to commit.\n".toList, false⟩ ∧
      (scanLines (readAll fs (indexP env)) = [] ∨
        somehtingChanged env fs (scanLines (readAll fs (indexP env))) = some false)) ∨
    ((handleCommit env now (msg :: rest) fs).fatal = true ∧
      (handleCommit env now (msg :: rest) fs).out = [] ∧
      (∀ q, q ≠ snapP env (hashCommit env now (readAll fs (configP env))) →
        (∀ f, q ≠ snapP env (hashCommit env now (readAll fs (configP env))) ++ [f]) →
        fsGet (handleCommit env now (msg :: rest) fs).fs q = fsGet fs q) ∧
      (somehtingChanged env fs (scanLines (readAll fs (indexP env))) = none ∨
        isFile (fsGet fs (snapP env (hashCommit env now (readAll fs (configP env))))) = true ∨
        ∃ g ∈ scanLines (readAll fs (indexP env)),
          ¬ (SimpleName g ∧ fsGet fs (env.cwd ++ [g]) ≠ none ∧
            fsGet fs (snapP env (hashCommit env now (readAll fs (configP env))) ++ [g]) ≠
              some Node.dir))) ∨
    ((handleCommit env now (msg :: rest) fs).fatal = false ∧
      (handleCommit env now (msg :: rest) fs).out = "Changes are committed.\n".toList ∧
      scanLines (readAll fs (indexP env)) ≠ [] ∧
      somehtingChanged env fs (scanLines (readAll fs (indexP env))) = some true ∧
      isFile (fsGet fs (snapP env (hashCommit env now (readAll fs (configP env))))) = false ∧
      (∀ f ∈ scanLines (readAll fs (indexP env)),
        SimpleName f ∧ fsGet fs (env.cwd ++ [f]) ≠ none ∧
          fsGet fs (snapP env (hashCommit env now (readAll fs (configP env))) ++ [f]) ≠
            some Node.dir) ∧
      Committed env fs (hashCommit env now (readAll fs (configP env)))
        (readAll fs (configP env)) msg (scanLines (readAll fs (indexP env)))
        (handleCommit env now (msg :: rest) fs).fs) := by
  generalize hD : scanLines (readAll fs (indexP env)) = data at hdata ⊢
  generalize hU : readAll fs (configP env) = user
  have hH : SimpleName (hashCommit env now user) := simpleName_hashCommit env now user
  generalize hHe : hashCommit env now user = H at hH ⊢
  generalize ho : handleCommit env now (msg :: rest) fs = o
  simp only [handleCommit, readIndexAsSlice_repo hr, getUserName_repo hr, hD, hU, hHe] at ho
  by_cases hlen : data.length > 0
  swap
  · rw [if_neg hlen] at ho
    subst ho
    exact Or.inl ⟨rfl, Or.inl (by simpa using hlen)⟩
  have hne : data ≠ [] := by
    intro e; simp [e] at hlen
  rw [if_pos hlen] at ho
  cases hsc : somehtingChanged env fs data with
  | none =>
    simp only [hsc] at ho
    subst ho
    exact Or.inr (Or.inl ⟨rfl, rfl, fun _ _ _ => rfl, Or.inl rfl⟩)
  | some b =>
    cases b with
    | false =>
      simp only [hsc] at ho
      subst ho
      exact Or.inl ⟨rfl, Or.inr rfl⟩
    | true =>
      simp only [hsc] at ho
      unfold createCommit at ho
      rcases mkdir_snapshot hr hH with ⟨hfile, hmk⟩ | ⟨fsA, hmk, hrA, hdirA, hframeA, -⟩
      · simp only [hmk] at ho
        subst ho
        exact Or.inr (Or.inl ⟨rfl, rfl, fun _ _ _ => rfl, Or.inr (Or.inl hfile)⟩)
      · simp only [hmk] at ho
        obtain ⟨done, rest', hsplit, hcopy, hdone, hrest⟩ :=
          copyFiles_eq_foldl hH data hdata fsA hrA hdirA
        rw [hcopy] at ho
        by_cases hr' : rest' = []
        · subst hr'
          simp only [List.append_nil] at hsplit
          subst hsplit
          simp only [decide_True,
            addCommitToLog_repo (repo_foldl_copyOne H data hrA)] at ho
          subst ho
          refine Or.inr (Or.inr ⟨rfl, rfl, hne, rfl, ?_, ?_, ?_⟩)
          · cases hg : fsGet fs (snapP env H) with
            | none => rfl
            | some n =>
              cases n with
              | dir => rfl
              | file d =>
                have := hframeA
                rw [osMkdirAll_snapshot hr hH, hg] at hmk
                simp at hmk
          · intro f hf
            have := hdone f hf
            rw [hframeA _ (by simp [snapP, commitsP]), hframeA _ (by simp)] at this
            exact this
          · exact committed_of_copied user msg data hrA hdirA hframeA
        · simp only [hr', decide_False] at ho
          subst ho
          refine Or.inr (Or.inl ⟨rfl, rfl, ?_, Or.inr (Or.inr ?_)⟩)
          · intro q h1 h2
            simp only
            rw [fsGet_foldl_copyOne_of_ne env H done fsA q (fun g _ => h2 g), hframeA q h1]
          · cases rest' with
            | nil => exact absurd rfl hr'
            | cons g gs =>
              refine ⟨g, by rw [hsplit]; simp, ?_⟩
              have := hrest g rfl
              rw [hframeA _ (by simp [snapP, commitsP]), hframeA _ (by simp)] at this
              exact this

/-! ## The last record of the log -/

theorem dropCR_record (h r : Str) : ∃ r1, dropCR (h ++ '|' :: r) = h ++ '|' :: r1 := by
  unfold dropCR
  split
  · rename_i hl
    cases r with
    | nil =>
      rw [getLast?_append_of_ne _ (by simp)] at hl
      simp at hl
    | cons c cs =>
      refine ⟨(c :: cs).dropLast, ?_⟩
      rw [List.dropLast_append_of_ne_nil _ (by simp), List.dropLast_cons_of_ne_nil (by simp)]
  · exact ⟨r, rfl⟩

theorem head_split_record {h : Str} (r : Str) (hh : '|' ∉ h) :
    (splitOn '|' (dropCR (h ++ '|' :: r))).headD [] = h := by
  obtain ⟨r1, e⟩ := dropCR_record h r
  rw [e, splitOn_append_sep _ hh]
  rfl

theorem dropCR_record_ne_nil (h r : Str) : dropCR (h ++ '|' :: r) ≠ [] := by
  obtain ⟨r1, e⟩ := dropCR_record h r
  rw [e]; simp

theorem getLastD_map_concat {α β : Type} (f : α → β) (l : List α) (a : α) (d : β) :
    ((l ++ [a]).map f).getLastD d = f a := by
  simp [List.getLastD_eq_getLast?]

theorem printLines_concat (ls : List Str) (l : Str) :
    printLines ls ++ (l ++ ['\n']) = printLines (ls ++ [l]) := by
  rw [printLines_append]
  simp [printLines]

/-- The lines the scanner reads from a well-formed log after one more record
was appended. -/
theorem scanLines_log_append {ls : List Str} {l : Str}
    (hls : ∀ x ∈ ls, '\n' ∉ x ∧ x.length < maxScanTokenSize)
    (hl : '\n' ∉ l ∧ l.length < maxScanTokenSize) :
    scanLines (printLines ls ++ (l ++ ['\n'])) = ls.map dropCR ++ [dropCR l] := by
  rw [printLines_concat, scanLines_printLines]
  · simp
  · intro x hx
    rcases List.mem_append.1 hx with hx | hx
    · exact hls x hx
    · simp at hx; subst hx; exact hl

theorem newline_not_mem_hashCommit (env : Env) (now user : Str) :
    '\n' ∉ hashCommit env now user :=
  not_mem_hex40 _ (by decide)

theorem bar_not_mem_hashCommit (env : Env) (now user : Str) :
    '|' ∉ hashCommit env now user :=
  not_mem_hex40 _ (by decide)

theorem length_hashCommit (env : Env) (now user : Str) :
    (hashCommit env now user).length = 40 :=
  length_hex40 _

/-- The record of a commit is a line the scanner reads whole, when user name
and message have no newline and are not too long. -/
theorem logLine_ok (env : Env) (now user msg : Str) (hu : '\n' ∉ user) (hm : '\n' ∉ msg)
    (hlen : 42 + user.length + msg.length < maxScanTokenSize) :
    '\n' ∉ logLine (hashCommit env now user) user msg ∧
      (logLine (hashCommit env now user) user msg).length < maxScanTokenSize := by
  constructor
  · simp [logLine, newline_not_mem_hashCommit, hu, hm]
  · simp only [logLine, List.length_append, List.length_cons, length_hashCommit]
    omega

theorem handleCommit_nothing {env : Env} {fs : FS} (hr : Repo env fs) (now msg : Str)
    (rest : List Str)
    (h : scanLines (readAll fs (indexP env)) = [] ∨
      somehtingChanged env fs (scanLines (readAll fs (indexP env))) = some false) :
    handleCommit env now (msg :: rest) fs = ⟨fs, "Nothing to commit.\n".toList, false⟩ := by
  simp only [handleCommit, readIndexAsSlice_repo hr]
  rcases h with h | h
  · simp [h]
  · simp only [h]
    split <;> rfl

/-- Straight after a commit that went through, the change detector finds
every tracked file equal to its stored copy. -/
theorem somehtingChanged_after_commit {env : Env} {fs fs1 : FS} {now msg : Str}
    {data ls : List Str}
    (hlog : readAll fs (logP env) = printLines ls)
    (hls : ∀ l ∈ ls, '\n' ∉ l ∧ l.length < maxScanTokenSize)
    (hmsg : '\n' ∉ msg) (huser : '\n' ∉ readAll fs (configP env))
    (hlen : 42 + (readAll fs (configP env)).length + msg.length < maxScanTokenSize)
    (hdata : ∀ f ∈ data, SimpleName f ∧ fsGet fs (env.cwd ++ [f]) ≠ none)
    (hc : Committed env fs (hashCommit env now (readAll fs (configP env)))
      (readAll fs (configP env)) msg data fs1) :
    somehtingChanged env fs1 data = some false := by
  have hH := simpleName_hashCommit env now (readAll fs (configP env))
  have hline := logLine_ok env now _ msg huser hmsg hlen
  have hlog1 : readAll fs1 (logP env) =
      printLines ls ++ (logLine (hashCommit env now (readAll fs (configP env)))
        (readAll fs (configP env)) msg ++ ['\n']) := by
    rw [readAll_of_file hc.logged, hlog]
  unfold somehtingChanged
  rw [getLastCommitInfo_repo hc.repo, hlog1, scanLines_log_append hls hline]
  have hlast : (List.map dropCR ls ++
      [dropCR (logLine (hashCommit env now (readAll fs (configP env)))
        (readAll fs (configP env)) msg)]).getLastD [] =
      dropCR (logLine (hashCommit env now (readAll fs (configP env)))
        (readAll fs (configP env)) msg) := by
    simp [List.getLastD_eq_getLast?]
  simp only [hlast]
  rw [if_neg (by unfold logLine; exact dropCR_record_ne_nil _ _)]
  have hcwd : ∀ f ∈ data, fsGet fs1 (env.cwd ++ [f]) = fsGet fs (env.cwd ++ [f]) := by
    intro f _
    exact hc.frame _ (by simp [snapP, commitsP]) (fun g _ => by simp [snapP, commitsP])
      (by simp [logP])
  rw [changedLoop_eq_any hc.repo
    (by unfold logLine; exact head_split_record _ (bar_not_mem_hashCommit env now _))
    hH hc.snap_dir data
    (fun f hf => ⟨(hdata f hf).1, by rw [hcwd f hf]; exact (hdata f hf).2⟩)]
  congr 1
  rw [List.any_eq_false]
  intro f hf
  have e1 : readAll fs1 (env.cwd ++ [f]) = readAll fs (env.cwd ++ [f]) :=
    readAll_congr (hcwd f hf)
  have e2 : readAll fs1 (snapP env (hashCommit env now (readAll fs (configP env))) ++ [f]) =
      readAll fs (env.cwd ++ [f]) := readAll_of_file (hc.stored f hf)
  simp [e1, e2]

/-! ## C1: committing twice -/

/-- C1, as amended.  In a repository whose log is a sequence of whole lines
and whose tracked paths have no slash, with a user name and a message without
a newline and short enough for one scanner line: if a commit does not end in
a fatal error, a second commit straight after it, whatever its message and
its time, reports `Nothing to commit.` and leaves the whole file system, log
and snapshots included, as the first commit left it. -/
theorem C1_second_commit_nothing (env : Env) (fs : FS) (now1 now2 msg1 msg2 : Str)
    (rest1 rest2 : List Str) (ls : List Str) (hr : Repo env fs)
    (hlog : readAll fs (logP env) = printLines ls)
    (hls : ∀ l ∈ ls, '\n' ∉ l ∧ l.length < maxScanTokenSize)
    (hidx : ∀ f ∈ scanLines (readAll fs (indexP env)), '/' ∉ f)
    (hmsg : '\n' ∉ msg1) (huser : '\n' ∉ readAll fs (configP env))
    (hlen : 42 + (readAll fs (configP env)).length + msg1.length < maxScanTokenSize)
    (hok : (handleCommit env now1 (msg1 :: rest1) fs).fatal = false) :
    handleCommit env now2 (msg2 :: rest2) (handleCommit env now1 (msg1 :: rest1) fs).fs =
      ⟨(handleCommit env now1 (msg1 :: rest1) fs).fs, "Nothing to commit.\n".toList, false⟩ := by
  rcases handleCommit_cases hr now1 msg1 rest1 hidx with
    ⟨h1, h2⟩ | ⟨h1, -, -, -⟩ | ⟨-, -, -, -, -, hdata, hc⟩
  · rw [h1]
    exact handleCommit_nothing hr now2 msg2 rest2 h2
  · rw [h1] at hok
    exact absurd hok (by simp)
  · have hidx1 : readAll (handleCommit env now1 (msg1 :: rest1) fs).fs (indexP env) =
        readAll fs (indexP env) := by
      apply readAll_congr
      exact hc.frame _ (by simp [snapP, commitsP, indexP])
        (fun g _ => by simp [snapP, commitsP, indexP]) (by simp [logP, indexP])
    apply handleCommit_nothing hc.repo
    rw [hidx1]
    exact Or.inr (somehtingChanged_after_commit hlog hls hmsg huser hlen
      (fun f hf => ⟨(hdata f hf).1, (hdata f hf).2.1⟩) hc)

set_option maxRecDepth 100000 in
/-- The witness of C1 in the claim: the index holds `a.txt`, `a.txt` holds
`hello`; `commit first` commits and `commit second` finds nothing to commit. -/
theorem C1_second_commit_nothing_witness :
    (handleCommit demoEnv "t1".toList ["first".toList] demoTracked).out =
        "Changes are committed.\n".toList ∧
      handleCommit demoEnv "t2".toList ["second".toList]
          (handleCommit demoEnv "t1".toList ["first".toList] demoTracked).fs =
        ⟨(handleCommit demoEnv "t1".toList ["first".toList] demoTracked).fs,
          "Nothing to commit.\n".toList, false⟩ :=
  ⟨by decide!,
    C1_second_commit_nothing demoEnv demoTracked "t1".toList "t2".toList "first".toList
      "second".toList [] [] []
      ⟨by decide!, by decide!, by decide!, by decide!, by decide!, by decide!⟩
      (by decide!) (by decide!) (by decide!) (by decide!) (by decide!) (by decide!) (by decide!)⟩

set_option maxRecDepth 100000 in
/-- C1 as stated fails: with `a.txt` tracked as `./a.txt` and no change at all
between the two calls, the second commit commits again; the log and the
snapshot store both grow to two entries. -/
theorem C1_counterexample_dot_path :
    (handleCommit demoEnv "t1".toList ["first".toList] demoDotTracked).out =
        "Changes are committed.\n".toList ∧
      (handleCommit demoEnv "t2".toList ["second".toList]
          (handleCommit demoEnv "t1".toList ["first".toList] demoDotTracked).fs).out =
        "Changes are committed.\n".toList ∧
      (scanLines (readAll (handleCommit demoEnv "t2".toList ["second".toList]
          (handleCommit demoEnv "t1".toList ["first".toList] demoDotTracked).fs).fs
          (logP demoEnv))).length = 2 ∧
      (snapshotDirs demoEnv (handleCommit demoEnv "t2".toList ["second".toList]
          (handleCommit demoEnv "t1".toList ["first".toList] demoDotTracked).fs).fs).length = 2 := by
  decide!

/-! ## C4: a changed file forces a commit -/

theorem wf_child_none {fs : FS} (hwf : WF fs) {p : Path} (hp : fsGet fs p = none) (n : Str) :
    fsGet fs (p ++ [n]) = none := by
  by_contra hc
  obtain ⟨m, hm⟩ := (fsGet_snoc_ne_none_iff fs p n).1 hc
  have := (hwf _ hm (by simp)).1
  simp only [List.dropLast_concat] at this
  rw [hp] at this
  exact absurd this (by simp)

/-- C4, as amended.  In a well-formed repository whose log is a sequence of
whole lines, the last of them naming an existing snapshot, and whose tracked
paths are plain names of regular files of the working directory: if the
digest of the bytes of some tracked file differs from the digest of the bytes
stored under its name in that snapshot (of no bytes, if the snapshot has no
such file), as it does for different bytes unless SHA-256 collides, then a
commit whose identifier is new, with a user name and a message without a
newline and short enough for one scanner line, reports
`Changes are committed.`, stores every tracked file with its current bytes in
the new snapshot, changes nothing else but the log, and the log grows by
exactly the one record of identifier, user name and message. -/
theorem C4_changed_file_is_committed (env : Env) (fs : FS) (now msg : Str) (rest : List Str)
    (ls : List Str) (last h0 : Str) (data : List Str)
    (hr : Repo env fs) (hwf : WF fs)
    (hlog : readAll fs (logP env) = printLines (ls ++ [last]))
    (hls : ∀ l ∈ ls ++ [last], '\n' ∉ l ∧ l.length < maxScanTokenSize)
    (hlast : (splitOn '|' (dropCR last)).headD [] = h0) (hh0 : SimpleName h0)
    (hsnap0 : fsGet fs (snapP env h0) = some Node.dir)
    (hidx : scanLines (readAll fs (indexP env)) = data)
    (hdata : ∀ f ∈ data, SimpleName f ∧ isFile (fsGet fs (env.cwd ++ [f])) = true)
    (hchg : ∃ f ∈ data, env.sha256 (readAll fs (env.cwd ++ [f])) ≠
      env.sha256 (readAll fs (snapP env h0 ++ [f])))
    (hmsg : '\n' ∉ msg) (huser : '\n' ∉ readAll fs (configP env))
    (hlen : 42 + (readAll fs (configP env)).length + msg.length < maxScanTokenSize)
    (hfresh : fsGet fs (snapP env (hashCommit env now (readAll fs (configP env)))) = none) :
    (handleCommit env now (msg :: rest) fs).out = "Changes are committed.\n".toList ∧
      (handleCommit env now (msg :: rest) fs).fatal = false ∧
      Committed env fs (hashCommit env now (readAll fs (configP env)))
        (readAll fs (configP env)) msg data (handleCommit env now (msg :: rest) fs).fs ∧
      scanLines (readAll (handleCommit env now (msg :: rest) fs).fs (logP env)) =
        scanLines (readAll fs (logP env)) ++
          [dropCR (logLine (hashCommit env now (readAll fs (configP env)))
            (readAll fs (configP env)) msg)] := by
  have hex : ∀ f ∈ data, SimpleName f ∧ fsGet fs (env.cwd ++ [f]) ≠ none := by
    intro f hf
    obtain ⟨h1, h2⟩ := hdata f hf
    obtain ⟨d, hd⟩ := isFile_iff.1 h2
    exact ⟨h1, by rw [hd]; simp⟩
  have hlastne : dropCR last ≠ [] := by
    intro e
    rw [e] at hlast
    exact hh0.ne_nil (by rw [← hlast]; rfl)
  have hsc : somehtingChanged env fs data = some true := by
    unfold somehtingChanged
    rw [getLastCommitInfo_repo hr, hlog, scanLines_printLines _ hls, getLastD_map_concat]
    simp only
    rw [if_neg hlastne, changedLoop_eq_any hr hlast hh0 hsnap0 data hex]
    congr 1
    rw [List.any_eq_true]
    obtain ⟨f, hf, hne⟩ := hchg
    exact ⟨f, hf, by simpa using hne⟩
  have hslash : ∀ f ∈ scanLines (readAll fs (indexP env)), '/' ∉ f := by
    rw [hidx]; exact fun f hf => (hdata f hf).1.no_slash
  rcases handleCommit_cases hr now msg rest hslash with
    ⟨-, h2⟩ | ⟨-, -, -, h4⟩ | ⟨h1, h2, -, -, -, -, hc⟩
  · rw [hidx] at h2
    rcases h2 with h2 | h2
    · obtain ⟨f, hf, -⟩ := hchg
      rw [h2] at hf
      exact absurd hf (by simp)
    · rw [hsc] at h2
      exact absurd h2 (by simp)
  · rw [hidx] at h4
    rcases h4 with h4 | h4 | ⟨g, hg, h4⟩
    · rw [hsc] at h4
      exact absurd h4 (by simp)
    · rw [hfresh] at h4
      exact absurd h4 (by simp [isFile])
    · exact absurd ⟨(hex g hg).1, (hex g hg).2, by rw [wf_child_none hwf hfresh]; simp⟩ h4
  · rw [hidx] at hc
    refine ⟨h2, h1, hc, ?_⟩
    rw [readAll_of_file hc.logged, hlog, scanLines_log_append hls
      (logLine_ok env now _ msg huser hmsg hlen), scanLines_printLines _ hls]

set_option maxRecDepth 100000 in
/-- The witness of C4 in the claim: `a.txt` committed with `hello`, edited to
`world`, committed again; the log has two entries. -/
theorem C4_changed_file_is_committed_witness :
    (handleCommit demoEnv "t2".toList ["second".toList] demoEdited).out =
        "Changes are committed.\n".toList ∧
      (scanLines (readAll (handleCommit demoEnv "t2".toList ["second".toList] demoEdited).fs
        (logP demoEnv))).length = 2 := by
  have h := C4_changed_file_is_committed demoEnv demoEdited "t2".toList "second".toList []
    [] (logLine demoId [] "first".toList) demoId ["a.txt".toList]
    ⟨by decide!, by decide!, by decide!, by decide!, by decide!, by decide!⟩
    (by decide!) (by decide!) (by decide!) (by decide!) (by decide!)
    (by decide!) (by decide!) (by decide!) ⟨"a.txt".toList, by decide!, by decide!⟩
    (by decide!) (by decide!) (by decide!) (by decide!)
  exact ⟨h.1, by rw [h.2.2.2]; decide!⟩

set_option maxRecDepth 100000 in
/-- C4 as stated fails: with `sub/b.txt` tracked next to the changed `a.txt`,
the commit ends in a fatal error after it has made a directory for the
snapshot.  Nothing is reported, the log keeps its one line, and the commit
store holds a second directory. -/
theorem C4_counterexample_subdirectory :
    scanLines (readAll demoSubTracked (indexP demoEnv)) =
        ["a.txt".toList, "sub/b.txt".toList] ∧
      readAll demoSubTracked ["w".toList, "a.txt".toList] ≠
        readAll demoSubTracked (snapP demoEnv demoId ++ ["a.txt".toList]) ∧
      (handleCommit demoEnv "t4".toList ["second".toList] demoSubTracked).fatal = true ∧
      (handleCommit demoEnv "t4".toList ["second".toList] demoSubTracked).out = [] ∧
      (scanLines (readAll (handleCommit demoEnv "t4".toList ["second".toList]
        demoSubTracked).fs (logP demoEnv))).length = 1 ∧
      (snapshotDirs demoEnv (handleCommit demoEnv "t4".toList ["second".toList]
        demoSubTracked).fs).length = 2 := by
  decide!

/-! ## C5: the message of a commit -/

theorem addCommitToLog_isSome_congr (env : Env) (msg1 msg2 user h : Str) (fs : FS) :
    (addCommitToLog env msg1 user h fs).isSome = (addCommitToLog env msg2 user h fs).isSome := by
  unfold addCommitToLog
  split <;> rfl

/-- C5, as amended.  A commit is turned away only when no message argument is
given at all: it then prints `Message was not passed.` and changes nothing.
The content of a message that is given is never looked at: the commit with
the empty string for a message prints the same, and ends in a fatal error or
not, as the commit with any other message in the same state. -/
theorem C5_only_missing_message_rejected (env : Env) (now : Str) (fs : FS) :
    handleCommit env now [] fs = ⟨fs, "Message was not passed.\n".toList, false⟩ ∧
      ∀ (msg : Str) (rest : List Str),
        (handleCommit env now ([] :: rest) fs).out = (handleCommit env now (msg :: rest) fs).out ∧
        (handleCommit env now ([] :: rest) fs).fatal =
          (handleCommit env now (msg :: rest) fs).fatal := by
  refine ⟨rfl, fun msg rest => ?_⟩
  have key := addCommitToLog_isSome_congr env [] msg
  simp only [handleCommit]
  cases readIndexAsSlice env fs with
  | none => exact ⟨rfl, rfl⟩
  | some data =>
    simp only
    split
    · cases somehtingChanged env fs data with
      | none => exact ⟨rfl, rfl⟩
      | some b =>
        cases b with
        | false => exact ⟨rfl, rfl⟩
        | true =>
          simp only
          cases getUserName env fs with
          | none => exact ⟨rfl, rfl⟩
          | some user =>
            simp only
            rcases hcc : createCommit env (commitsDir ++ hashCommit env now user) data fs with
              ⟨fs1, ok⟩
            cases ok with
            | false => exact ⟨rfl, rfl⟩
            | true =>
              simp only
              have k := key user (hashCommit env now user) fs1
              cases h1 : addCommitToLog env [] user (hashCommit env now user) fs1 with
              | none =>
                cases h2 : addCommitToLog env msg user (hashCommit env now user) fs1 with
                | none => exact ⟨rfl, rfl⟩
                | some x => rw [h1, h2] at k; exact absurd k (by simp)
              | some y =>
                cases h2 : addCommitToLog env msg user (hashCommit env now user) fs1 with
                | none => rw [h1, h2] at k; exact absurd k (by simp)
                | some x => exact ⟨rfl, rfl⟩
    · exact ⟨rfl, rfl⟩

set_option maxRecDepth 100000 in
/-- C5 as stated fails: `commit ""` with `a.txt` tracked and never committed
is no error; it commits, and the log gets a record with an empty message. -/
theorem C5_counterexample_empty_message :
    (handleCommit demoEnv "t1".toList [[]] demoTracked).out =
        "Changes are committed.\n".toList ∧
      (handleCommit demoEnv "t1".toList [[]] demoTracked).fatal = false ∧
      readAll (handleCommit demoEnv "t1".toList [[]] demoTracked).fs (logP demoEnv) =
        demoId ++ "||\n".toList ∧
      snapshotDirs demoEnv (handleCommit demoEnv "t1".toList [[]] demoTracked).fs = [demoId] := by
  decide!

/-! ## C6: checkout of an identifier without a snapshot -/

/-- C6, as amended.  In a repository, for every identifier that is a plain
name (not empty, not `.` or `..`, no slash, no zero byte, 255 bytes at most)
and names nothing in the commits directory, checkout reports
`Commit does not exist.` and leaves the file system as it is. -/
theorem C6_checkout_unknown_name (env : Env) (fs : FS) (id : Str) (rest : List Str)
    (hr : Repo env fs) (hid : SimpleName id) (hno : fsGet fs (snapP env id) = none) :
    handleCheckOut env (id :: rest) fs = ⟨fs, "Commit does not exist.\n".toList, false⟩ := by
  have h : osReadDir fs env.cwd (filepathJoin ["./vcs/commits".toList, id]) =
      Except.error OsErr.notExist := by
    unfold osReadDir
    rw [join_checkout_dir hid, resolve_snapshot_dir hr hid,
      probe_of_none (by simpa [snapP] using hno)]
  simp only [handleCheckOut, h]

set_option maxRecDepth 100000 in
/-- A witness of C6: in the repository with one commit, an identifier that was
never given out. -/
theorem C6_checkout_unknown_name_witness :
    handleCheckOut demoEnv ["0123".toList] demoCommitted =
      ⟨demoCommitted, "Commit does not exist.\n".toList, false⟩ :=
  C6_checkout_unknown_name demoEnv demoCommitted "0123".toList []
    ⟨by decide!, by decide!, by decide!, by decide!, by decide!, by decide!⟩
    (by decide!) (by decide!)

set_option maxRecDepth 100000 in
/-- C6 as stated fails for the two identifiers it names, in the repository
with one commit.  No snapshot was written for the empty string or for `..`,
yet checkout of the empty string reads the commits directory itself, reports a
switch and leaves an empty file named like the commit in the working
directory; checkout of `..` reads `vcs`, reports a switch and copies
`config.txt`, `index.txt` and `log.txt` into the working directory. -/
theorem C6_counterexample_empty_and_dotdot :
    snapshotDirs demoEnv demoCommitted = [demoId] ∧
      (handleCheckOut demoEnv [[]] demoCommitted).out = "Switched to commit .".toList ∧
      fsGet demoCommitted ["w".toList, demoId] = none ∧
      fsGet (handleCheckOut demoEnv [[]] demoCommitted).fs ["w".toList, demoId] =
        some (Node.file []) ∧
      (handleCheckOut demoEnv ["..".toList] demoCommitted).out =
        "Switched to commit ...".toList ∧
      fsGet demoCommitted ["w".toList, "index.txt".toList] = none ∧
      fsGet (handleCheckOut demoEnv ["..".toList] demoCommitted).fs
        ["w".toList, "index.txt".toList] = some (Node.file "a.txt\n".toList) := by
  decide!

/-! ## C10: tracking a path -/

theorem indexP_ne_nil (env : Env) : indexP env ≠ [] := by simp [indexP]

/-- C10, as amended.  In a repository, for every path whose lookup fails
because a name on it is missing (`os.Stat` gives a not-exist error: the path
is empty, or a name of at most 255 bytes is missing in an existing
directory), add reports that it cannot find the path and changes nothing,
the index included; so it is for every plain name of at most 255 bytes that
names nothing in the working directory.  For every path `os.Stat` finds, add
reports it as tracked, appends the path and a newline to the index, whose
earlier bytes stay as they are, and changes no other file. -/
theorem C10_add_missing_or_found (env : Env) (fs : FS) (path : Str) (rest : List Str)
    (hr : Repo env fs) :
    (osStat fs env.cwd path = Except.error OsErr.notExist →
      handleAdd env (path :: rest) fs =
        ⟨fs, "Can't find '".toList ++ path ++ "'.\n".toList, false⟩) ∧
    (SimpleName path → fsGet fs (env.cwd ++ [path]) = none →
      handleAdd env (path :: rest) fs =
        ⟨fs, "Can't find '".toList ++ path ++ "'.\n".toList, false⟩) ∧
    (∀ n, osStat fs env.cwd path = Except.ok n →
      (handleAdd env (path :: rest) fs).out =
        "The file '".toList ++ path ++ "' is tracked.\n".toList ∧
      (handleAdd env (path :: rest) fs).fatal = false ∧
      readAll (handleAdd env (path :: rest) fs).fs (indexP env) =
        readAll fs (indexP env) ++ (path ++ ['\n']) ∧
      ∀ q, q ≠ indexP env → fsGet (handleAdd env (path :: rest) fs).fs q = fsGet fs q) := by
  have ho : osOpenAppend true fs env.cwd indexPath = Except.ok (fs, indexP env) := by
    simp [osOpenAppend, resolve_index hr]
  have h1 : osStat fs env.cwd path = Except.error OsErr.notExist →
      handleAdd env (path :: rest) fs =
        ⟨fs, "Can't find '".toList ++ path ++ "'.\n".toList, false⟩ := by
    intro h
    simp only [handleAdd, ho, h]
  refine ⟨h1, ?_, ?_⟩
  · intro hn hnone
    apply h1
    unfold osStat
    rw [resolve_simple fs env.cwd hn, probe_of_none hnone]
  · intro n h
    simp only [handleAdd, ho, h, appendTo]
    refine ⟨trivial, trivial, ?_, ?_⟩
    · exact readAll_of_file (fsGet_fsSet_self _ _ (indexP_ne_nil env))
    · intro q hq
      exact fsGet_fsSet_of_ne _ _ (indexP_ne_nil env) (Ne.symm hq)

set_option maxRecDepth 100000 in
/-- A witness of C10: in the repository of the examples `nope.txt` is missing
and `a.txt` exists. -/
theorem C10_add_missing_or_found_witness :
    handleAdd demoEnv ["nope.txt".toList] demoTracked =
        ⟨demoTracked, "Can't find 'nope.txt'.\n".toList, false⟩ ∧
      readAll (handleAdd demoEnv ["a.txt".toList] demoTracked).fs (indexP demoEnv) =
        "a.txt\na.txt\n".toList :=
  ⟨(C10_add_missing_or_found demoEnv demoTracked "nope.txt".toList []
      ⟨by decide!, by decide!, by decide!, by decide!, by decide!, by decide!⟩).2.1
      (by decide!) (by decide!),
    by decide!⟩

set_option maxRecDepth 100000 in
/-- C10 as stated fails: `a.txt` is a regular file, so nothing exists at
`a.txt/b`; the lookup fails with another error than not-exist, and add
appends the path to the index and reports it as tracked. -/
theorem C10_counterexample_path_through_file :
    fsGet demoTracked ["w".toList, "a.txt".toList, "b".toList] = none ∧
      osStat demoTracked demoEnv.cwd "a.txt/b".toList = Except.error OsErr.other ∧
      (handleAdd demoEnv ["a.txt/b".toList] demoTracked).out =
        "The file 'a.txt/b' is tracked.\n".toList ∧
      readAll demoTracked (indexP demoEnv) = "a.txt\n".toList ∧
      readAll (handleAdd demoEnv ["a.txt/b".toList] demoTracked).fs (indexP demoEnv) =
        "a.txt\na.txt/b\n".toList := by
  decide!

/-! ## C3: a tracked file that is not in the last snapshot -/

theorem hashEntries_isSome (env : Env) (fs : FS) (h fn : Str) (entries : List Str) (acc : Str)
    (hopen : ∀ e ∈ entries, e = fn →
      ∃ s, osOpen fs env.cwd (filepathJoin [commitsDir, h, e]) = Except.ok s) :
    ∃ h2, hashEntries env fs h fn entries acc = some h2 := by
  induction entries generalizing acc with
  | nil => exact ⟨acc, rfl⟩
  | cons e rest ih =>
    have ih' := fun a => ih a (fun x hx => hopen x (List.mem_cons_of_mem _ hx))
    unfold hashEntries
    by_cases he : e = fn
    · obtain ⟨s, hs⟩ := hopen e (by simp) he
      simp only [if_pos he, hs]
      exact ih' _
    · simp only [if_neg he]
      exact ih' _

/-- The rounds of the change detector up to a tracked file that has bytes and
no copy in the last snapshot: one of them answers `true`. -/
theorem changedLoop_of_new_file (env : Env) (fs : FS) (last : Str) (entries : List Str)
    (p : Str) (src : Path)
    (hdir : osReadDir fs env.cwd (filepathJoin [commitsDir, (splitOn '|' last).headD []]) =
      Except.ok entries)
    (hpe : p ∉ entries) (hsrc : osOpen fs env.cwd p = Except.ok src)
    (hdigest : env.sha256 (readAll fs src) ≠ env.sha256 []) (data : List Str)
    (hopen : ∀ f ∈ data, ∃ s, osOpen fs env.cwd f = Except.ok s)
    (hstored : ∀ f ∈ data, f ∈ entries →
      ∃ s, osOpen fs env.cwd
        (filepathJoin [commitsDir, (splitOn '|' last).headD [], f]) = Except.ok s)
    (hp : p ∈ data) :
    changedLoop env fs last data = some true := by
  induction data with
  | nil => simp at hp
  | cons fn rest ih =>
    obtain ⟨s, hs⟩ := hopen fn (by simp)
    obtain ⟨h2, hh2⟩ := hashEntries_isSome env fs ((splitOn '|' last).headD []) fn entries []
      (fun e he efn => by subst efn; exact hstored e (by simp) he)
    unfold changedLoop
    simp only [hs, hdir, hh2]
    by_cases hd : env.sha256 (readAll fs s) = env.sha256 h2
    · simp only [ne_eq, hd, not_true_eq_false, if_false]
      apply ih (fun f hf => hopen f (List.mem_cons_of_mem _ hf))
        (fun f hf => hstored f (List.mem_cons_of_mem _ hf))
      rcases List.mem_cons.1 hp with e | e
      · exfalso
        subst e
        rw [hashEntries_of_not_mem _ _ _ _ _ _ hpe] at hh2
        rw [hsrc] at hs
        have e1 : src = s := by injection hs
        have e2 : h2 = [] := by injection hh2 with e; exact e.symm
        subst e1 e2
        exact hdigest hd
      · exact e
    · simp [hd]

/-- C3, as amended.  When the log has a last line, the directory of the
snapshot it names can be read and lists no entry named like the tracked path
`p`, and every tracked path and every stored copy of one can be opened: if
the digest of the bytes of `p` is not the digest of no bytes at all (so for
every `p` with at least one byte, unless SHA-256 collides), the change
detector returns true, and a commit does not report `Nothing to commit.`.
An empty `p` is not covered: both digests are then the digest of no bytes. -/
theorem C3_new_file_with_bytes_is_change (env : Env) (fs : FS) (data : List Str) (p last : Str)
    (entries : List Str) (src : Path)
    (hlast : getLastCommitInfo env fs = some last)
    (hdir : osReadDir fs env.cwd (filepathJoin [commitsDir, (splitOn '|' last).headD []]) =
      Except.ok entries)
    (hopen : ∀ f ∈ data, ∃ s, osOpen fs env.cwd f = Except.ok s)
    (hstored : ∀ f ∈ data, f ∈ entries →
      ∃ s, osOpen fs env.cwd
        (filepathJoin [commitsDir, (splitOn '|' last).headD [], f]) = Except.ok s)
    (hp : p ∈ data) (hpe : p ∉ entries) (hsrc : osOpen fs env.cwd p = Except.ok src)
    (hdigest : env.sha256 (readAll fs src) ≠ env.sha256 []) :
    somehtingChanged env fs data = some true ∧
      ∀ (now msg : Str) (rest : List Str), readIndexAsSlice env fs = some data →
        (handleCommit env now (msg :: rest) fs).out ≠ "Nothing to commit.\n".toList := by
  have hsc : somehtingChanged env fs data = some true := by
    unfold somehtingChanged
    simp only [hlast]
    split
    · rfl
    · exact changedLoop_of_new_file env fs last entries p src hdir hpe hsrc hdigest data
        hopen hstored hp
  refine ⟨hsc, fun now msg rest hidx => ?_⟩
  have hlen : data.length > 0 := List.length_pos_of_mem hp
  simp only [handleCommit, hidx, hlen, if_true, hsc]
  cases getUserName env fs with
  | none => simp
  | some user =>
    simp only
    rcases createCommit env (commitsDir ++ hashCommit env now user) data fs with ⟨fs1, ok⟩
    cases ok with
    | false => simp
    | true =>
      simp only
      cases addCommitToLog env msg user (hashCommit env now user) fs1 with
      | none => simp
      | some fs2 =>
        show "Changes are committed.\n".toList ≠ "Nothing to commit.\n".toList
        decide

set_option maxRecDepth 100000 in
/-- A witness of C3: after a commit of `a.txt`, the file `c.txt` holding
`new` is tracked; the change detector returns true. -/
theorem C3_new_file_with_bytes_is_change_witness :
    somehtingChanged demoEnv demoNewTracked ["a.txt".toList, "c.txt".toList] = some true :=
  (C3_new_file_with_bytes_is_change demoEnv demoNewTracked ["a.txt".toList, "c.txt".toList]
    "c.txt".toList (logLine demoId [] "first".toList) ["a.txt".toList]
    ["w".toList, "c.txt".toList] (by decide!) (by decide!)
    (by
      intro f hf
      simp only [List.mem_cons, List.mem_singleton, List.not_mem_nil, or_false] at hf
      rcases hf with rfl | rfl
      · exact ⟨["w".toList, "a.txt".toList], by decide!⟩
      · exact ⟨["w".toList, "c.txt".toList], by decide!⟩)
    (by
      intro f _ hf
      simp only [List.mem_singleton] at hf
      subst hf
      exact ⟨snapP demoEnv demoId ++ ["a.txt".toList], by decide!⟩)
    (by decide!) (by decide!) (by decide!) (by decide!)).1

set_option maxRecDepth 100000 in
/-- C3 as stated fails for an empty file: after a commit of `a.txt`, the
empty file `b.txt` is tracked and the last snapshot has no entry of its name;
whatever the digest function, the change detector returns false, so a commit
reports `Nothing to commit.`. -/
theorem C3_counterexample_empty_file :
    scanLines (readAll demoEmptyTracked (indexP demoEnv)) =
        ["a.txt".toList, "b.txt".toList] ∧
      osReadDir demoEmptyTracked demoEnv.cwd (filepathJoin [commitsDir, demoId]) =
        Except.ok ["a.txt".toList] ∧
      fsGet demoEmptyTracked ["w".toList, "b.txt".toList] = some (Node.file []) ∧
      (∀ sha256 : Str → Str,
        somehtingChanged ⟨demoEnv.cwd, sha256, demoEnv.sha1⟩ demoEmptyTracked
          ["a.txt".toList, "b.txt".toList] = some false) ∧
      (handleCommit demoEnv "t3".toList ["second".toList] demoEmptyTracked).out =
        "Nothing to commit.\n".toList := by
  refine ⟨by decide!, by decide!, by decide!, ?_, by decide!⟩
  intro sha256
  have hr0 : Repo demoEnv demoEmptyTracked :=
    ⟨by decide!, by decide!, by decide!, by decide!, by decide!, by decide!⟩
  have hr : Repo ⟨demoEnv.cwd, sha256, demoEnv.sha1⟩ demoEmptyTracked :=
    ⟨hr0.1, hr0.2, hr0.3, hr0.4, hr0.5, hr0.6⟩
  have hlog : (scanLines (readAll demoEmptyTracked (logP demoEnv))).getLastD [] =
      logLine demoId [] "first".toList := by decide!
  have hsnap : fsGet demoEmptyTracked (snapP demoEnv demoId) = some Node.dir := by decide!
  have ha : readAll demoEmptyTracked (demoEnv.cwd ++ ["a.txt".toList]) =
      readAll demoEmptyTracked (snapP demoEnv demoId ++ ["a.txt".toList]) := by decide!
  have hb : readAll demoEmptyTracked (demoEnv.cwd ++ ["b.txt".toList]) =
      readAll demoEmptyTracked (snapP demoEnv demoId ++ ["b.txt".toList]) := by decide!
  have hex : ∀ f ∈ ["a.txt".toList, "b.txt".toList],
      SimpleName f ∧ fsGet demoEmptyTracked (demoEnv.cwd ++ [f]) ≠ none := by decide!
  unfold somehtingChanged
  rw [getLastCommitInfo_repo hr]
  have e1 : (scanLines (readAll demoEmptyTracked
      (logP ⟨demoEnv.cwd, sha256, demoEnv.sha1⟩))).getLastD [] =
      logLine demoId [] "first".toList := hlog
  simp only [e1]
  rw [if_neg (by decide!), changedLoop_eq_any hr (h := demoId) (by decide!) (by decide!) hsnap
    _ hex]
  have ha' : readAll demoEmptyTracked ((⟨demoEnv.cwd, sha256, demoEnv.sha1⟩ : Env).cwd ++
      ["a.txt".toList]) = readAll demoEmptyTracked
      (snapP ⟨demoEnv.cwd, sha256, demoEnv.sha1⟩ demoId ++ ["a.txt".toList]) := ha
  have hb' : readAll demoEmptyTracked ((⟨demoEnv.cwd, sha256, demoEnv.sha1⟩ : Env).cwd ++
      ["b.txt".toList]) = readAll demoEmptyTracked
      (snapP ⟨demoEnv.cwd, sha256, demoEnv.sha1⟩ demoId ++ ["b.txt".toList]) := hb
  simp only [List.any_cons, List.any_nil, ha', hb']
  simp

/-! ## The log view -/

theorem splitOn_record {h a m : Str} (hh : '|' ∉ h) (ha : '|' ∉ a) (hm : '|' ∉ m) :
    splitOn '|' (logLine h a m) = [h, a, m] := by
  unfold logLine
  simp only [List.append_assoc, List.cons_append]
  rw [splitOn_append_sep _ hh, splitOn_append_sep _ ha, splitOn_of_not_mem hm]

theorem getLast?_logLine (h a m : Str) :
    (logLine h a m).getLast? = if m = [] then some '|' else m.getLast? := by
  unfold logLine
  rw [getLast?_append_of_ne _ (by simp)]
  cases m with
  | nil => simp
  | cons c cs => rw [getLast?_cons_of_ne_nil _ (by simp)]; simp

theorem dropCR_logLine {e : Str × Str × Str} (he : PlainRecord e) :
    dropCR (logLine e.1 e.2.1 e.2.2) = logLine e.1 e.2.1 e.2.2 := by
  unfold dropCR
  rw [getLast?_logLine, if_neg]
  split
  · simp
  · exact he.2.2.2.2.2.2.1

theorem newline_not_mem_logLine {e : Str × Str × Str} (he : PlainRecord e) :
    '\n' ∉ logLine e.1 e.2.1 e.2.2 := by
  simp [logLine, he.1, he.2.2.1, he.2.2.2.2.1]

theorem scanLines_logLines (es : List (Str × Str × Str)) (hes : ∀ e ∈ es, PlainRecord e) :
    scanLines (printLines (logLines es)) = logLines es := by
  rw [scanLines_printLines]
  · unfold logLines
    rw [List.map_map]
    apply List.map_congr_left
    intro e he
    exact dropCR_logLine (hes e he)
  · intro l hl
    obtain ⟨e, he, rfl⟩ := List.mem_map.1 hl
    exact ⟨newline_not_mem_logLine (hes e he), (hes e he).2.2.2.2.2.2.2⟩

theorem printLog_logLines (es : List (Str × Str × Str)) (hes : ∀ e ∈ es, PlainRecord e) :
    printLog (logLines es) = (printBlocks es, true) := by
  induction es with
  | nil => rfl
  | cons e rest ih =>
    have he := hes e (by simp)
    have ih' := ih (fun x hx => hes x (List.mem_cons_of_mem _ hx))
    simp only [logLines, List.map] at ih' ⊢
    simp only [printLog, splitOn_record he.2.1 he.2.2.2.1 he.2.2.2.2.2.1, ih', printBlocks,
      logBlock]

theorem logLines_reverse (es : List (Str × Str × Str)) :
    (logLines es).reverse = logLines es.reverse := by
  simp [logLines]

theorem length_printLines_logLines {es : List (Str × Str × Str)} (h : es ≠ []) :
    1 < (printLines (logLines es)).length := by
  cases es with
  | nil => exact absurd rfl h
  | cons e rest =>
    simp only [logLines, List.map, printLines, logLine, List.length_append, List.length_cons]
    omega

/-- The log command in a repository whose log holds the records `es`, each of
them readable: `No commits yet.` when there is none, otherwise one block for
each record, the last one first. -/
theorem handleLog_records {env : Env} {fs : FS} (es : List (Str × Str × Str))
    (hr : Repo env fs) (hlog : readAll fs (logP env) = printLines (logLines es))
    (hes : ∀ e ∈ es, PlainRecord e) :
    handleLog env fs =
      ⟨fs, if es = [] then "No commits yet.\n".toList else printBlocks es.reverse, false⟩ := by
  have hstat : osStat fs env.cwd logPath =
      Except.ok (Node.file (printLines (logLines es))) := by
    simp [osStat, resolve_log hr, hlog]
  have hopen : osOpen fs env.cwd logPath = Except.ok (logP env) := by
    simp [osOpen, resolve_log hr]
  simp only [handleLog, hstat, nodeSize, hopen, hlog]
  by_cases h : es = []
  · subst h
    simp [logLines, printLines]
  · rw [if_neg (by have := length_printLines_logLines h; omega), if_neg h,
      scanLines_logLines es hes, logLines_reverse,
      printLog_logLines es.reverse (fun e he => hes e (List.mem_reverse.1 he))]
    rfl

/-! ## C2: commit, then checkout -/

theorem cwd_snoc_ne_nil (env : Env) (e : Str) : env.cwd ++ [e] ≠ [] := by simp

theorem fsGet_restoreOne (env : Env) (fs : FS) (e : Str) (src q : Path)
    (hsrc : src ≠ env.cwd ++ [e]) :
    fsGet (restoreOne env fs e src) q =
      if env.cwd ++ [e] = q then some (Node.file (readAll fs src)) else fsGet fs q := by
  unfold restoreOne ioCopy
  rw [fsGet_fsSet _ _ _ (cwd_snoc_ne_nil env e)]
  by_cases h : env.cwd ++ [e] = q
  · simp only [if_pos h]
    unfold readAll
    rw [fsGet_fsSet_of_ne _ _ (cwd_snoc_ne_nil env e) (Ne.symm hsrc)]
  · simp only [if_neg h]
    exact fsGet_fsSet_of_ne _ _ (cwd_snoc_ne_nil env e) h

theorem repo_fsSet_work {env : Env} {fs : FS} (hr : Repo env fs) (e : Str) (d : Str)
    (hnd : fsGet fs (env.cwd ++ [e]) ≠ some Node.dir) :
    Repo env (fsSet fs (env.cwd ++ [e]) (Node.file d)) := by
  apply repo_fsSet hr _ (cwd_snoc_ne_nil env e) (by simp)
  · intro h; rw [h] at hnd; exact hnd hr.vcs_dir
  · simp [commitsP]
  · simp [indexP]
  · simp [logP]
  · simp [configP]

/-- One round of the loop of `handleCheckOut` for an entry of the snapshot `h`
whose name is not a directory of the working directory. -/
theorem restoreFiles_cons {env : Env} {fs : FS} (hr : Repo env fs) {h e : Str}
    (hh : SimpleName h) (hd : fsGet fs (snapP env h) = some Node.dir) (he : SimpleName e)
    (hnd : fsGet fs (env.cwd ++ [e]) ≠ some Node.dir)
    (hex : fsGet fs (snapP env h ++ [e]) ≠ none) (rest : List Str) :
    restoreFiles env (joinWith '/' ["vcs".toList, "commits".toList, h]) fs (e :: rest) =
      restoreFiles env (joinWith '/' ["vcs".toList, "commits".toList, h])
        (restoreOne env fs e (snapP env h ++ [e])) rest := by
  have hc : osCreate fs env.cwd e =
      Except.ok (fsSet fs (env.cwd ++ [e]) (Node.file []), env.cwd ++ [e]) := by
    unfold osCreate
    rw [resolve_simple fs env.cwd he]
    unfold probe
    cases hg : fsGet fs (env.cwd ++ [e]) with
    | none => rfl
    | some n =>
      cases n with
      | file d => rfl
      | dir => exact absurd hg hnd
  have hr1 := repo_fsSet_work hr e [] hnd
  have hd1 : fsGet (fsSet fs (env.cwd ++ [e]) (Node.file [])) (snapP env h) = some Node.dir := by
    rw [fsGet_fsSet_of_ne _ _ (cwd_snoc_ne_nil env e) (by simp [snapP, commitsP])]; exact hd
  have hex1 : fsGet (fsSet fs (env.cwd ++ [e]) (Node.file [])) (snapP env h ++ [e]) ≠ none := by
    rw [fsGet_fsSet_of_ne _ _ (cwd_snoc_ne_nil env e) (by simp [snapP, commitsP])]; exact hex
  have ho : osOpen (fsSet fs (env.cwd ++ [e]) (Node.file [])) env.cwd
      (filepathJoin [joinWith '/' ["vcs".toList, "commits".toList, h], e]) =
      Except.ok (snapP env h ++ [e]) := by
    unfold osOpen
    rw [join_folder_entity hh he, resolve_snapshot_file hr1 hh he hd1]
    unfold probe
    cases hg : fsGet (fsSet fs (env.cwd ++ [e]) (Node.file [])) (snapP env h ++ [e]) with
    | none => exact absurd hg hex1
    | some n => rfl
  rw [restoreFiles]
  simp only [hc, ho]
  rfl

/-- The loop of `handleCheckOut` over entries of the snapshot `h`, none of
them a directory of the working directory: it runs to its end, every entry is
a file of the working directory with the stored bytes, and nothing else has
changed. -/
theorem restoreFiles_snapshot {env : Env} {h : Str} (hh : SimpleName h) (entries : List Str)
    (fs : FS) (hr : Repo env fs) (hd : fsGet fs (snapP env h) = some Node.dir)
    (hent : ∀ e ∈ entries, SimpleName e ∧ fsGet fs (env.cwd ++ [e]) ≠ some Node.dir ∧
      fsGet fs (snapP env h ++ [e]) ≠ none) :
    ∃ fs1, restoreFiles env (joinWith '/' ["vcs".toList, "commits".toList, h]) fs entries =
        (fs1, true) ∧
      (∀ e ∈ entries,
        fsGet fs1 (env.cwd ++ [e]) = some (Node.file (readAll fs (snapP env h ++ [e])))) ∧
      (∀ q, (∀ e ∈ entries, q ≠ env.cwd ++ [e]) → fsGet fs1 q = fsGet fs q) := by
  induction entries generalizing fs with
  | nil => exact ⟨fs, rfl, by simp, fun _ _ => rfl⟩
  | cons e rest ih =>
    obtain ⟨he, hnd, hex⟩ := hent e (by simp)
    have hne : snapP env h ++ [e] ≠ env.cwd ++ [e] := by simp [snapP, commitsP]
    have hget : ∀ q, fsGet (restoreOne env fs e (snapP env h ++ [e])) q =
        if env.cwd ++ [e] = q then some (Node.file (readAll fs (snapP env h ++ [e])))
        else fsGet fs q := fun q => fsGet_restoreOne env fs e _ q hne
    have hsame : ∀ q, env.cwd ++ [e] ≠ q →
        fsGet (restoreOne env fs e (snapP env h ++ [e])) q = fsGet fs q := by
      intro q hq; rw [hget, if_neg hq]
    have hr1 : Repo env (restoreOne env fs e (snapP env h ++ [e])) :=
      repo_fsSet_work (repo_fsSet_work hr e [] hnd) e _
        (by rw [fsGet_fsSet_self _ _ (cwd_snoc_ne_nil env e)]; simp)
    obtain ⟨fs1, hres, hcont, hframe⟩ := ih (restoreOne env fs e (snapP env h ++ [e])) hr1
      (by rw [hsame _ (by simp [snapP, commitsP])]; exact hd)
      (by
        intro x hx
        obtain ⟨h1, h2, h3⟩ := hent x (List.mem_cons_of_mem _ hx)
        refine ⟨h1, ?_, ?_⟩
        · rw [hget]
          split
          · simp
          · exact h2
        · rw [hsame _ (by simp [snapP, commitsP])]; exact h3)
    refine ⟨fs1, ?_, ?_, ?_⟩
    · rw [restoreFiles_cons hr hh hd he hnd hex, hres]
    · intro x hx
      have hrd : readAll (restoreOne env fs e (snapP env h ++ [e])) (snapP env h ++ [x]) =
          readAll fs (snapP env h ++ [x]) :=
        readAll_congr (hsame _ (by simp [snapP, commitsP]))
      by_cases hxr : x ∈ rest
      · rw [hcont x hxr, hrd]
      · have hxe : x = e := by
          rcases List.mem_cons.1 hx with e1 | e1
          · exact e1
          · exact absurd e1 hxr
        subst hxe
        rw [hframe _ (fun y hy e1 => hxr (by
          have := List.append_cancel_left e1
          simp at this
          rw [this]; exact hy)), hget, if_pos rfl]
    · intro q hq
      rw [hframe q (fun y hy => hq y (List.mem_cons_of_mem _ hy)),
        hsame q (fun e1 => hq e (by simp) e1.symm)]

/-- C2, as amended.  In a well-formed repository whose tracked paths are
plain names of regular files of the working directory, let a commit with a
new identifier report `Changes are committed.`.  Take any later state that is
still a repository, in which the snapshot of that commit is as the commit
left it and no tracked name has become a directory.  Then checkout of the
identifier runs to its end, reports the switch, and every tracked path holds
again the bytes it had when the commit was made. -/
theorem C2_checkout_restores_commit (env : Env) (fs fs2 : FS) (now msg : Str)
    (rest rest2 : List Str) (data : List Str) (hr : Repo env fs) (hwf : WF fs)
    (hidx : scanLines (readAll fs (indexP env)) = data)
    (hdata : ∀ f ∈ data, SimpleName f ∧ isFile (fsGet fs (env.cwd ++ [f])) = true)
    (hfresh : fsGet fs (snapP env (hashCommit env now (readAll fs (configP env)))) = none)
    (hcommit : (handleCommit env now (msg :: rest) fs).out = "Changes are committed.\n".toList)
    (hr2 : Repo env fs2)
    (hkeep : ∀ q, fsGet fs2 (snapP env (hashCommit env now (readAll fs (configP env))) ++ q) =
      fsGet (handleCommit env now (msg :: rest) fs).fs
        (snapP env (hashCommit env now (readAll fs (configP env))) ++ q))
    (hfiles : ∀ f ∈ data, fsGet fs2 (env.cwd ++ [f]) ≠ some Node.dir) :
    (handleCheckOut env (hashCommit env now (readAll fs (configP env)) :: rest2) fs2).fatal =
        false ∧
      (handleCheckOut env (hashCommit env now (readAll fs (configP env)) :: rest2) fs2).out =
        "Switched to commit ".toList ++ hashCommit env now (readAll fs (configP env)) ++ ['.'] ∧
      ∀ f ∈ data,
        fsGet (handleCheckOut env (hashCommit env now (readAll fs (configP env)) :: rest2)
          fs2).fs (env.cwd ++ [f]) = fsGet fs (env.cwd ++ [f]) := by
  have hH := simpleName_hashCommit env now (readAll fs (configP env))
  generalize hHe : hashCommit env now (readAll fs (configP env)) = H at *
  have hslash : ∀ f ∈ scanLines (readAll fs (indexP env)), '/' ∉ f := by
    rw [hidx]; exact fun f hf => (hdata f hf).1.no_slash
  rcases handleCommit_cases hr now msg rest hslash with
    ⟨h1, -⟩ | ⟨-, h1, -⟩ | ⟨-, -, -, -, -, -, hc⟩
  · rw [h1] at hcommit
    have : ("Nothing to commit.\n".toList : Str) ≠ "Changes are committed.\n".toList := by
      decide
    exact absurd hcommit this
  · rw [h1] at hcommit
    have : ([] : Str) ≠ "Changes are committed.\n".toList := by decide
    exact absurd hcommit this
  rw [hidx, hHe] at hc
  have hsnap2 : fsGet fs2 (snapP env H) = some Node.dir := by
    have := hkeep []
    simp only [List.append_nil] at this
    rw [this]; exact hc.snap_dir
  have hstored2 : ∀ f ∈ data, fsGet fs2 (snapP env H ++ [f]) =
      some (Node.file (readAll fs (env.cwd ++ [f]))) := by
    intro f hf
    rw [hkeep [f]]; exact hc.stored f hf
  have hent : ∀ e ∈ listDir fs2 (snapP env H), e ∈ data := by
    intro e he
    by_contra hne
    have h1 := (mem_listDir fs2 (snapP env H) e).1 he
    rw [hkeep [e], hc.frame _ (by simp) (fun f hf => by
      intro e1
      have := List.append_cancel_left e1
      simp at this
      exact hne (this ▸ hf)) (by simp [snapP, commitsP, logP])] at h1
    exact h1 (wf_child_none hwf hfresh e)
  have hdir : osReadDir fs2 env.cwd (joinWith '/' ["vcs".toList, "commits".toList, H]) =
      Except.ok (listDir fs2 (snapP env H)) := by
    unfold osReadDir
    rw [resolve_snapshot_dir hr2 hH, probe_of_some (by simpa [snapP] using hsnap2)]
    rfl
  obtain ⟨fs3, hres, hcont, -⟩ := restoreFiles_snapshot hH (listDir fs2 (snapP env H)) fs2 hr2
    hsnap2 (fun e he => ⟨(hdata e (hent e he)).1, hfiles e (hent e he), by
      rw [hstored2 e (hent e he)]; simp⟩)
  simp only [handleCheckOut, join_checkout_dir hH, hdir, hres]
  refine ⟨trivial, trivial, ?_⟩
  intro f hf
  have hmem : f ∈ listDir fs2 (snapP env H) :=
    (mem_listDir fs2 (snapP env H) f).2 (by rw [hstored2 f hf]; simp)
  rw [hcont f hmem, readAll_of_file (hstored2 f hf), ← fsGet_of_isFile (hdata f hf).2]

set_option maxRecDepth 100000 in
/-- A witness of C2: `a.txt` is committed holding `hello` and then rewritten
to `world`; checkout of the commit brings `hello` back. -/
theorem C2_checkout_restores_commit_witness :
    fsGet demoEdited ["w".toList, "a.txt".toList] = some (Node.file "world".toList) ∧
      fsGet (handleCheckOut demoEnv [demoId] demoEdited).fs ["w".toList, "a.txt".toList] =
        some (Node.file "hello".toList) :=
  ⟨by decide!,
    (C2_checkout_restores_commit demoEnv demoTracked demoEdited "t1".toList "first".toList []
      [] ["a.txt".toList]
      ⟨by decide!, by decide!, by decide!, by decide!, by decide!, by decide!⟩
      (by decide!) (by decide!) (by decide!) (by decide!) (by decide!)
      ⟨by decide!, by decide!, by decide!, by decide!, by decide!, by decide!⟩
      (fun q => fsGet_fsSet_of_ne _ _ (by decide) (by
        intro e
        have := congrArg List.length e
        simp [snapP, commitsP] at this
        omega))
      (by decide!)).2.2 "a.txt".toList (by decide)⟩

set_option maxRecDepth 100000 in
/-- C2 as stated fails for a tracked file of the parent directory: `../a.txt`
holding `v1` is committed, its copy lands in the commits directory beside the
snapshot, which stays empty; after the file is rewritten to `v2`, checkout of
the commit reports the switch and the file still holds `v2`. -/
theorem C2_counterexample_parent_path :
    scanLines (readAll demoParentCommitted (indexP demoEnv)) = ["../a.txt".toList] ∧
      scanLines (readAll demoParentCommitted (logP demoEnv)) =
        [logLine demoId [] "first".toList] ∧
      listDir demoParentCommitted (snapP demoEnv demoId) = [] ∧
      fsGet demoParentCommitted (commitsP demoEnv ++ ["a.txt".toList]) =
        some (Node.file "v1".toList) ∧
      (handleCheckOut demoEnv [demoId] demoParentEdited).out =
        "Switched to commit ".toList ++ demoId ++ ['.'] ∧
      fsGet (handleCheckOut demoEnv [demoId] demoParentEdited).fs ["a.txt".toList] =
        some (Node.file "v2".toList) := by
  decide!

/-! ## Well-formed file systems and the writes of the program -/

theorem getLastD_snoc {α : Type} (l : List α) (a d : α) : (l ++ [a]).getLastD d = a := by
  simp [List.getLastD_eq_getLast?]

/-- Writing a regular file where no directory is keeps the file system
well-formed. -/
theorem wf_fsSet_file {fs : FS} (hwf : WF fs) (parent : Path) (name d : Str)
    (hp : fsGet fs parent = some Node.dir) (hn : SimpleName name)
    (hnd : fsGet fs (parent ++ [name]) ≠ some Node.dir) :
    WF (fsSet fs (parent ++ [name]) (Node.file d)) := by
  have hne : parent ++ [name] ≠ [] := by simp
  have hpar : parent ++ [name] ≠ parent := by simp
  intro e he hene
  rcases List.mem_cons.1 he with e1 | e1
  · subst e1
    simp only [List.dropLast_concat, getLastD_snoc]
    exact ⟨by rw [fsGet_fsSet_of_ne _ _ hne hpar]; exact hp, hn⟩
  · obtain ⟨h1, h2⟩ := hwf e e1 hene
    refine ⟨?_, h2⟩
    rw [fsGet_fsSet_of_ne _ _ hne]
    · exact h1
    · intro e2
      rw [← e2] at h1
      exact hnd h1

/-- Making a directory keeps the file system well-formed. -/
theorem wf_fsSet_dir {fs : FS} (hwf : WF fs) (parent : Path) (name : Str)
    (hp : fsGet fs parent = some Node.dir) (hn : SimpleName name) :
    WF (fsSet fs (parent ++ [name]) Node.dir) := by
  have hne : parent ++ [name] ≠ [] := by simp
  have hpar : parent ++ [name] ≠ parent := by simp
  intro e he hene
  rcases List.mem_cons.1 he with e1 | e1
  · subst e1
    simp only [List.dropLast_concat, getLastD_snoc]
    exact ⟨by rw [fsGet_fsSet_of_ne _ _ hne hpar]; exact hp, hn⟩
  · obtain ⟨h1, h2⟩ := hwf e e1 hene
    refine ⟨?_, h2⟩
    rw [fsGet_fsSet _ _ _ hne]
    split
    · rfl
    · exact h1

/-- The names `os.ReadDir` lists in a well-formed file system are plain. -/
theorem simpleName_of_mem_listDir {fs : FS} (hwf : WF fs) {d : Path} {n : Str}
    (h : n ∈ listDir fs d) : SimpleName n := by
  obtain ⟨m, hm⟩ := (fsGet_snoc_ne_none_iff fs d n).1 ((mem_listDir fs d n).1 h)
  have := (hwf _ hm (by simp)).2
  simpa [getLastD_snoc] using this

theorem wf_copyOne {env : Env} {fs : FS} (hwf : WF fs) {h f : Str}
    (hd : fsGet fs (snapP env h) = some Node.dir) (hf : SimpleName f)
    (hnd : fsGet fs (snapP env h ++ [f]) ≠ some Node.dir) : WF (copyOne env h fs f) := by
  unfold copyOne ioCopy
  apply wf_fsSet_file (wf_fsSet_file hwf _ _ _ hd hf hnd) _ _ _
  · rw [fsGet_fsSet_of_ne _ _ (by simp) (by simp)]; exact hd
  · exact hf
  · rw [fsGet_fsSet_self _ _ (by simp)]; simp

theorem wf_foldl_copyOne {env : Env} {h : Str} (done : List Str) (fs : FS) (hwf : WF fs)
    (hd : fsGet fs (snapP env h) = some Node.dir)
    (hdone : ∀ f ∈ done, SimpleName f ∧ fsGet fs (snapP env h ++ [f]) ≠ some Node.dir) :
    WF (done.foldl (copyOne env h) fs) := by
  induction done generalizing fs with
  | nil => exact hwf
  | cons f rest ih =>
    obtain ⟨h1, h2⟩ := hdone f (by simp)
    apply ih _ (wf_copyOne hwf hd h1 h2) (snapDir_copyOne f hd)
    intro g hg
    obtain ⟨h3, h4⟩ := hdone g (List.mem_cons_of_mem _ hg)
    refine ⟨h3, ?_⟩
    rw [fsGet_copyOne]
    split
    · simp
    · exact h4

/-- The loop of `handleCheckOut`, whatever directory it reads from: it writes
regular files of the working directory under the names of the entries, and
nothing else, also when it ends in a fatal error. -/
theorem restoreFiles_work (env : Env) (folder : Str) (entries : List Str)
    (hent : ∀ e ∈ entries, SimpleName e) (fs : FS) (hr : Repo env fs) (hwf : WF fs) :
    Repo env (restoreFiles env folder fs entries).1 ∧
      WF (restoreFiles env folder fs entries).1 ∧
      ∀ q, (∀ e, q ≠ env.cwd ++ [e]) →
        fsGet (restoreFiles env folder fs entries).1 q = fsGet fs q := by
  induction entries generalizing fs with
  | nil => exact ⟨hr, hwf, fun _ _ => rfl⟩
  | cons e rest ih =>
    have he := hent e (by simp)
    have hent' : ∀ x ∈ rest, SimpleName x := fun x hx => hent x (List.mem_cons_of_mem _ hx)
    rw [restoreFiles]
    by_cases hnd : fsGet fs (env.cwd ++ [e]) = some Node.dir
    · have hc : osCreate fs env.cwd e = Except.error OsErr.other := by
        unfold osCreate
        rw [resolve_simple fs env.cwd he, probe_of_some hnd]
      simp only [hc]
      exact ⟨hr, hwf, by intros; trivial⟩
    · have hc : osCreate fs env.cwd e =
          Except.ok (fsSet fs (env.cwd ++ [e]) (Node.file []), env.cwd ++ [e]) := by
        unfold osCreate
        rw [resolve_simple fs env.cwd he]
        unfold probe
        cases hg : fsGet fs (env.cwd ++ [e]) with
        | none => rfl
        | some n =>
          cases n with
          | file d => rfl
          | dir => exact absurd hg hnd
      have hr1 := repo_fsSet_work hr e [] hnd
      have hwf1 := wf_fsSet_file hwf env.cwd e [] hr.cwd_dir he hnd
      have hf1 : ∀ q, (∀ x, q ≠ env.cwd ++ [x]) →
          fsGet (fsSet fs (env.cwd ++ [e]) (Node.file [])) q = fsGet fs q :=
        fun q hq => fsGet_fsSet_of_ne _ _ (cwd_snoc_ne_nil env e) (Ne.symm (hq e))
      simp only [hc]
      cases ho : osOpen (fsSet fs (env.cwd ++ [e]) (Node.file [])) env.cwd
          (filepathJoin [folder, e]) with
      | error err => exact ⟨hr1, hwf1, hf1⟩
      | ok src =>
        simp only
        have hnd1 : fsGet (fsSet fs (env.cwd ++ [e]) (Node.file [])) (env.cwd ++ [e]) ≠
            some Node.dir := by
          rw [fsGet_fsSet_self _ _ (cwd_snoc_ne_nil env e)]; simp
        have hr2 : Repo env (ioCopy (fsSet fs (env.cwd ++ [e]) (Node.file []))
            (env.cwd ++ [e]) src) := repo_fsSet_work hr1 e _ hnd1
        have hwf2 : WF (ioCopy (fsSet fs (env.cwd ++ [e]) (Node.file []))
            (env.cwd ++ [e]) src) := wf_fsSet_file hwf1 env.cwd e _ hr1.cwd_dir he hnd1
        obtain ⟨i1, i2, i3⟩ := ih hent' _ hr2 hwf2
        refine ⟨i1, i2, fun q hq => ?_⟩
        rw [i3 q hq]
        unfold ioCopy
        rw [fsGet_fsSet_of_ne _ _ (cwd_snoc_ne_nil env e) (Ne.symm (hq e)), hf1 q hq]

/-! ## What one run of the program can change -/

/-- Well-formedness read off the lookups: whatever exists lies in a directory
and has a plain name. -/
theorem wf_iff (fs : FS) :
    WF fs ↔ ∀ (p : Path) (n : Str), fsGet fs (p ++ [n]) ≠ none →
      fsGet fs p = some Node.dir ∧ SimpleName n := by
  constructor
  · intro hwf p n h
    obtain ⟨m, hm⟩ := (fsGet_snoc_ne_none_iff fs p n).1 h
    have := hwf _ hm (by simp)
    simpa [getLastD_snoc] using this
  · intro h e he hene
    obtain ⟨q, m⟩ := e
    obtain ⟨p, n, rfl⟩ : ∃ p n, q = p ++ [n] :=
      ⟨q.dropLast, q.getLast hene, (List.dropLast_append_getLast hene).symm⟩
    have := h p n ((fsGet_snoc_ne_none_iff fs p n).2 ⟨m, he⟩)
    simpa [getLastD_snoc] using this

theorem prepareFolders_repo {env : Env} {fs : FS} (hr : Repo env fs) :
    prepareFolders env fs = (fs, true) := by
  have hs : osStat fs env.cwd "vcs".toList = Except.ok Node.dir := by
    unfold osStat
    rw [resolve_simple fs env.cwd (by decide), probe_of_some hr.vcs_dir]
  unfold prepareFolders
  rw [hs]

/-- A run of the program in a repository is the run of one command, or
prints a text and changes nothing. -/
theorem main_cases {env : Env} {fs : FS} (hr : Repo env fs) (now : Str) (args : List Str)
    (P : Outcome → Prop) (hprint : ∀ out, P ⟨fs, out, false⟩)
    (hconfig : ∀ rest, args = "config".toList :: rest → P (handleConfig env rest fs))
    (hadd : ∀ rest, args = "add".toList :: rest → P (handleAdd env rest fs))
    (hlog : ∀ rest, args = "log".toList :: rest → P (handleLog env fs))
    (hcommit : ∀ rest, args = "commit".toList :: rest → P (handleCommit env now rest fs))
    (hcheckout : ∀ rest, args = "checkout".toList :: rest → P (handleCheckOut env rest fs)) :
    P (main env now args fs) := by
  unfold main
  rw [prepareFolders_repo hr]
  cases args with
  | nil => exact hprint _
  | cons arg rest =>
    simp only
    split
    · exact hprint _
    · split
      · rename_i h; subst h; exact hconfig rest rfl
      · split
        · rename_i h; subst h; exact hadd rest rfl
        · split
          · rename_i h; subst h; exact hlog rest rfl
          · split
            · rename_i h; subst h; exact hcommit rest rfl
            · split
              · rename_i h; subst h; exact hcheckout rest rfl
              · exact hprint _

/-- In a repository, `commit` on the command line is `handleCommit`. -/
theorem main_commit {env : Env} {fs : FS} (hr : Repo env fs) (now : Str) (args : List Str) :
    main env now ("commit".toList :: args) fs = handleCommit env now args fs := by
  unfold main
  rw [prepareFolders_repo hr]
  simp only
  rw [if_neg (by decide), if_neg (by decide), if_neg (by decide), if_neg (by decide),
    if_pos trivial]

/-- In a repository, `checkout` on the command line is `handleCheckOut`. -/
theorem main_checkout {env : Env} {fs : FS} (hr : Repo env fs) (now : Str) (args : List Str) :
    main env now ("checkout".toList :: args) fs = handleCheckOut env args fs := by
  unfold main
  rw [prepareFolders_repo hr]
  simp only
  rw [if_neg (by decide), if_neg (by decide), if_neg (by decide), if_neg (by decide),
    if_neg (by decide), if_pos trivial]

/-- In a repository, `add` on the command line is `handleAdd`. -/
theorem main_add {env : Env} {fs : FS} (hr : Repo env fs) (now : Str) (args : List Str) :
    main env now ("add".toList :: args) fs = handleAdd env args fs := by
  unfold main
  rw [prepareFolders_repo hr]
  simp only
  rw [if_neg (by decide), if_neg (by decide), if_pos trivial]

/-- In a repository, `log` on the command line is `handleLog`. -/
theorem main_log {env : Env} {fs : FS} (hr : Repo env fs) (now : Str) (args : List Str) :
    main env now ("log".toList :: args) fs = handleLog env fs := by
  unfold main
  rw [prepareFolders_repo hr]
  simp only
  rw [if_neg (by decide), if_neg (by decide), if_neg (by decide), if_pos trivial]

theorem configP_ne_nil (env : Env) : configP env ≠ [] := by simp [configP]

theorem repo_fsSet_config {env : Env} {fs : FS} (hr : Repo env fs) (d : Str) :
    Repo env (fsSet fs (configP env) (Node.file d)) := by
  refine ⟨?_, ?_, ?_, ?_, ?_, ?_⟩
  · rw [fsGet_fsSet_of_ne _ _ (configP_ne_nil env) (by simp [configP])]; exact hr.cwd_dir
  · rw [fsGet_fsSet_of_ne _ _ (configP_ne_nil env) (by simp [configP, vcsP])]; exact hr.vcs_dir
  · rw [fsGet_fsSet_of_ne _ _ (configP_ne_nil env) (by simp [configP, commitsP])]
    exact hr.commits_dir
  · rw [fsGet_fsSet_of_ne _ _ (configP_ne_nil env) (by simp [configP, indexP])]
    exact hr.index_file
  · rw [fsGet_fsSet_of_ne _ _ (configP_ne_nil env) (by simp [configP, logP])]
    exact hr.log_file
  · rw [fsGet_fsSet_self _ _ (configP_ne_nil env)]; rfl

theorem repo_fsSet_index {env : Env} {fs : FS} (hr : Repo env fs) (d : Str) :
    Repo env (fsSet fs (indexP env) (Node.file d)) := by
  refine ⟨?_, ?_, ?_, ?_, ?_, ?_⟩
  · rw [fsGet_fsSet_of_ne _ _ (indexP_ne_nil env) (by simp [indexP])]; exact hr.cwd_dir
  · rw [fsGet_fsSet_of_ne _ _ (indexP_ne_nil env) (by simp [indexP, vcsP])]; exact hr.vcs_dir
  · rw [fsGet_fsSet_of_ne _ _ (indexP_ne_nil env) (by simp [indexP, commitsP])]
    exact hr.commits_dir
  · rw [fsGet_fsSet_self _ _ (indexP_ne_nil env)]; rfl
  · rw [fsGet_fsSet_of_ne _ _ (indexP_ne_nil env) (by simp [indexP, logP])]
    exact hr.log_file
  · rw [fsGet_fsSet_of_ne _ _ (indexP_ne_nil env) (by simp [indexP, configP])]
    exact hr.config_file

/-- `config` changes the configuration file at most. -/
theorem handleConfig_effect {env : Env} {fs : FS} (hr : Repo env fs) (hwf : WF fs)
    (args : List Str) :
    Repo env (handleConfig env args fs).fs ∧ WF (handleConfig env args fs).fs ∧
      ∀ q, q ≠ configP env → fsGet (handleConfig env args fs).fs q = fsGet fs q := by
  have hrd : osReadFile fs env.cwd "./vcs/config.txt".toList =
      Except.ok (readAll fs (configP env)) := by
    have := resolve_config hr
    unfold configPath at this
    unfold osReadFile
    rw [this]
  have hcfg : fsGet fs (vcsP env ++ ["config.txt".toList]) ≠ some Node.dir := by
    have := fsGet_of_isFile hr.config_file
    simp only [configP] at this
    simp only [vcsP, List.append_assoc, List.cons_append, List.nil_append, this]
    simp
  have e : vcsP env ++ ["config.txt".toList] = configP env := by simp [vcsP, configP]
  unfold handleConfig
  rw [hrd]
  cases args with
  | nil =>
    simp only
    split <;> exact ⟨hr, hwf, fun _ _ => rfl⟩
  | cons name rest =>
    have hw : osWriteFile fs env.cwd "./vcs/config.txt".toList name =
        Except.ok (fsSet (fsSet fs (configP env) (Node.file [])) (configP env)
          (Node.file name)) := by
      have := resolve_config hr
      unfold configPath at this
      unfold osWriteFile osCreate
      rw [this]
    simp only [hw]
    refine ⟨?_, ?_, ?_⟩
    · exact repo_fsSet_config (repo_fsSet_config hr []) name
    · rw [← e]
      apply wf_fsSet_file (wf_fsSet_file hwf _ _ _ hr.vcs_dir (by decide) hcfg) _ _ _
      · rw [fsGet_fsSet_of_ne _ _ (by simp) (by simp)]; exact hr.vcs_dir
      · decide
      · rw [fsGet_fsSet_self _ _ (by simp)]; simp
    · intro q hq
      rw [fsGet_fsSet_of_ne _ _ (configP_ne_nil env) (Ne.symm hq),
        fsGet_fsSet_of_ne _ _ (configP_ne_nil env) (Ne.symm hq)]

/-- `add` changes the index at most, and only by appending its argument and
a newline. -/
theorem handleAdd_effect {env : Env} {fs : FS} (hr : Repo env fs) (hwf : WF fs)
    (args : List Str) :
    Repo env (handleAdd env args fs).fs ∧ WF (handleAdd env args fs).fs ∧
      (∀ q, q ≠ indexP env → fsGet (handleAdd env args fs).fs q = fsGet fs q) ∧
      (readAll (handleAdd env args fs).fs (indexP env) = readAll fs (indexP env) ∨
        ∃ p rest, args = p :: rest ∧
          readAll (handleAdd env args fs).fs (indexP env) =
            readAll fs (indexP env) ++ (p ++ ['\n'])) := by
  have ho : osOpenAppend true fs env.cwd indexPath = Except.ok (fs, indexP env) := by
    simp [osOpenAppend, resolve_index hr]
  have hidx : fsGet fs (vcsP env ++ ["index.txt".toList]) ≠ some Node.dir := by
    have := fsGet_of_isFile hr.index_file
    simp only [indexP] at this
    simp only [vcsP, List.append_assoc, List.cons_append, List.nil_append, this]
    simp
  have e : vcsP env ++ ["index.txt".toList] = indexP env := by simp [vcsP, indexP]
  unfold handleAdd
  rw [ho]
  cases args with
  | nil =>
    simp only
    split <;> exact ⟨hr, hwf, fun _ _ => rfl, Or.inl rfl⟩
  | cons p rest =>
    simp only
    have hyes : Repo env (appendTo fs (indexP env) (p ++ ['\n'])) ∧
        WF (appendTo fs (indexP env) (p ++ ['\n'])) ∧
        (∀ q, q ≠ indexP env →
          fsGet (appendTo fs (indexP env) (p ++ ['\n'])) q = fsGet fs q) ∧
        (readAll (appendTo fs (indexP env) (p ++ ['\n'])) (indexP env) =
            readAll fs (indexP env) ∨
          ∃ p1 rest1, p :: rest = p1 :: rest1 ∧
            readAll (appendTo fs (indexP env) (p ++ ['\n'])) (indexP env) =
              readAll fs (indexP env) ++ (p1 ++ ['\n'])) := by
      unfold appendTo
      refine ⟨repo_fsSet_index hr _, ?_, ?_, Or.inr ⟨p, rest, rfl, ?_⟩⟩
      · rw [← e]
        exact wf_fsSet_file hwf _ _ _ hr.vcs_dir (by decide) hidx
      · intro q hq
        exact fsGet_fsSet_of_ne _ _ (indexP_ne_nil env) (Ne.symm hq)
      · exact readAll_of_file (fsGet_fsSet_self _ _ (indexP_ne_nil env))
    split
    · exact ⟨hr, hwf, fun _ _ => rfl, Or.inl rfl⟩
    · exact hyes

theorem handleLog_fs (env : Env) (fs : FS) : (handleLog env fs).fs = fs := by
  unfold handleLog
  split
  · rfl
  · split
    · rfl
    · split <;> rfl

theorem osReadDir_ok {fs : FS} {cwd : Path} {s : Str} {l : List Str}
    (h : osReadDir fs cwd s = Except.ok l) : ∃ p, l = listDir fs p := by
  unfold osReadDir at h
  split at h
  · rename_i p _
    exact ⟨p, by injection h with h; exact h.symm⟩
  all_goals simp at h

/-- `checkout`, whatever its argument, changes regular files of the working
directory at most. -/
theorem handleCheckOut_effect {env : Env} {fs : FS} (hr : Repo env fs) (hwf : WF fs)
    (args : List Str) :
    Repo env (handleCheckOut env args fs).fs ∧ WF (handleCheckOut env args fs).fs ∧
      ∀ q, (∀ e, q ≠ env.cwd ++ [e]) →
        fsGet (handleCheckOut env args fs).fs q = fsGet fs q := by
  unfold handleCheckOut
  cases args with
  | nil => exact ⟨hr, hwf, fun _ _ => rfl⟩
  | cons id rest =>
    simp only
    cases hd : osReadDir fs env.cwd (filepathJoin ["./vcs/commits".toList, id]) with
    | error err => cases err <;> exact ⟨hr, hwf, fun _ _ => rfl⟩
    | ok entities =>
      obtain ⟨p, hp⟩ := osReadDir_ok hd
      have hent : ∀ e ∈ entities, SimpleName e := by
        intro e he
        rw [hp] at he
        exact simpleName_of_mem_listDir hwf he
      have := restoreFiles_work env (filepathJoin ["./vcs/commits".toList, id]) entities hent
        fs hr hwf
      simp only
      rcases hres : restoreFiles env (filepathJoin ["./vcs/commits".toList, id]) fs entities with
        ⟨fs1, ok⟩
      rw [hres] at this
      cases ok <;> exact this

theorem snapP_append_inj {env : Env} {h1 h2 : Str} {q r : Path}
    (e : snapP env h1 ++ q = snapP env h2 ++ r) : h1 = h2 ∧ q = r := by
  simp only [snapP, commitsP, List.append_assoc, List.cons_append, List.nil_append,
    List.append_cancel_left_eq, List.cons.injEq, true_and] at e
  exact e

theorem snapP_append_ne_log (env : Env) (h : Str) (q : Path) : snapP env h ++ q ≠ logP env := by
  simp [snapP, commitsP, logP]

theorem snapP_append_ne_index (env : Env) (h : Str) (q : Path) :
    snapP env h ++ q ≠ indexP env := by
  simp [snapP, commitsP, indexP]

theorem snapP_append_ne_config (env : Env) (h : Str) (q : Path) :
    snapP env h ++ q ≠ configP env := by
  simp [snapP, commitsP, configP]

theorem snapP_append_ne_work (env : Env) (h : Str) (q : Path) (e : Str) :
    snapP env h ++ q ≠ env.cwd ++ [e] := by
  simp [snapP, commitsP]

/-! ## Tracked paths with several elements -/

theorem foldl_cleanStep_noDotDot (rooted : Bool) (comps : List Str)
    (h : ∀ c ∈ comps, c ≠ ['.', '.']) (st : List Str) :
    comps.foldl (cleanStep rooted) st =
      (comps.filter fun c => decide (c ≠ [] ∧ c ≠ ['.'])).reverse ++ st := by
  induction comps generalizing st with
  | nil => rfl
  | cons c rest ih =>
    have hc : c ≠ ['.', '.'] := h c (by simp)
    rw [List.foldl_cons, ih (fun x hx => h x (List.mem_cons_of_mem _ hx))]
    unfold cleanStep
    by_cases h1 : c = [] ∨ c = ['.']
    · rw [if_pos h1, List.filter_cons_of_neg (by rcases h1 with h1 | h1 <;> simp [h1])]
    · have h2 : c ≠ [] ∧ c ≠ ['.'] := not_or.1 h1
      rw [if_neg h1, if_neg hc, List.filter_cons_of_pos (by simp [h2.1, h2.2])]
      simp

theorem plain_of_mem_keptElems {f c : Str} (hf : NoDotDot f) (hc : c ∈ keptElems f) :
    c ≠ [] ∧ c ≠ ['.'] ∧ c ≠ ['.', '.'] ∧ '/' ∉ c := by
  unfold keptElems at hc
  obtain ⟨h1, h2⟩ := List.mem_filter.1 hc
  have h3 : c ≠ [] ∧ c ≠ ['.'] := by simpa using h2
  exact ⟨h3.1, h3.2, fun e => hf (e ▸ h1), sep_not_mem_of_mem_splitOn h1⟩

theorem splitOn_commitPath {h : Str} (hh : SimpleName h) (f : Str) :
    splitOn '/' (commitsDir ++ h ++ '/' :: f) =
      [['.'], "vcs".toList, "commits".toList, h] ++ splitOn '/' f := by
  have e : commitsDir ++ h ++ '/' :: f =
      ['.'] ++ '/' :: ("vcs".toList ++ '/' :: ("commits".toList ++ '/' :: (h ++ '/' :: f))) := by
    simp [commitsDir]
  rw [e, splitOn_append_sep _ (by decide), splitOn_append_sep _ (by decide),
    splitOn_append_sep _ (by decide), splitOn_append_sep _ hh.no_slash]
  rfl

/-- The path `createCommit` writes to, for a tracked path without a `..`
element: the elements `filepath.Clean` keeps, below the directory of the
snapshot. -/
theorem join_commit_path {h : Str} (hh : SimpleName h) {f : Str} (hf : NoDotDot f) :
    filepathJoin [commitsDir ++ h, f] =
      joinWith '/' (["vcs".toList, "commits".toList, h] ++ keptElems f) := by
  have hne : commitsDir ++ h ≠ [] := by simp [commitsDir]
  have e : joinWith '/' [commitsDir ++ h, f] = commitsDir ++ h ++ '/' :: f := rfl
  have hs : commitsDir ++ h ++ '/' :: f ≠ [] := by simp [commitsDir]
  have hhd : (commitsDir ++ h ++ '/' :: f).head? ≠ some '/' := by simp [commitsDir]
  unfold filepathJoin
  rw [if_neg hne, e]
  unfold filepathClean
  simp only [if_neg hs, hhd, decide_False, splitOn_commitPath hh]
  rw [List.foldl_append, foldl_cleanStep_noDotDot false _ (fun c hc => fun e => hf (e ▸ hc))]
  have hst : List.foldl (cleanStep false) [] [['.'], "vcs".toList, "commits".toList, h] =
      [h, "commits".toList, "vcs".toList] := by
    simp [List.foldl, cleanStep, hh.ne_nil, hh.ne_dot, hh.ne_dotdot]
  rw [hst]
  have hrev : ((List.filter (fun c => decide (c ≠ [] ∧ c ≠ ['.'])) (splitOn '/' f)).reverse ++
      [h, "commits".toList, "vcs".toList]).reverse =
      ["vcs".toList, "commits".toList, h] ++ keptElems f := by
    simp [keptElems]
  rw [hrev]
  have hj : joinWith '/' (["vcs".toList, "commits".toList, h] ++ keptElems f) ≠ [] :=
    joinWith_ne_nil (by decide)
  simp only [Bool.false_eq_true, if_false, if_neg hj]

/-- The walk below the directory of a snapshot that has no sub-directory
fails on a path of two elements or more. -/
theorem walk_snapshot_long {fs : FS} {snap : Path}
    (hsub : ∀ n, fsGet fs (snap ++ [n]) ≠ some Node.dir) {c : Str} (hc : SimpleName c)
    (d : Str) (ds : List Str) :
    walk fs snap (c :: d :: ds) = Lookup.enoent ∨ walk fs snap (c :: d :: ds) = Lookup.enotdir := by
  have h3 : ¬ nameMax < c.length := Nat.not_lt.2 hc.length_le
  simp only [walk, if_neg hc.ne_dot, if_neg hc.ne_dotdot, if_neg h3]
  cases hg : fsGet fs (snap ++ [c]) with
  | none => simp
  | some n =>
    cases n with
    | file x => simp
    | dir => exact absurd hg (hsub c)

theorem resolve_commit_path {env : Env} {fs : FS} (hr : Repo env fs) {h : Str}
    (hh : SimpleName h) (hd : fsGet fs (snapP env h) = some Node.dir) (cs : List Str)
    (hcs : ∀ c ∈ cs, c ≠ [] ∧ '/' ∉ c)
    (hz : '\x00' ∉ joinWith '/' (["vcs".toList, "commits".toList, h] ++ cs))
    (hl : ¬ pathMax ≤ (joinWith '/' (["vcs".toList, "commits".toList, h] ++ cs)).length) :
    resolve fs env.cwd (joinWith '/' (["vcs".toList, "commits".toList, h] ++ cs)) =
      walk fs (snapP env h) cs := by
  rw [resolve_joinWith_of _ _ _ (by simp) _ hz hl]
  · simp only [List.cons_append, List.nil_append]
    rw [walk_dir _ (by decide) (by simpa [vcsP] using hr.vcs_dir),
      walk_dir _ (by decide) (by simpa [commitsP] using hr.commits_dir),
      walk_dir _ hh (by simpa [commitsP, snapP] using hd)]
    simp [snapP, commitsP]
  · intro c hc
    simp only [List.cons_append, List.nil_append, List.mem_cons] at hc
    rcases hc with rfl | rfl | rfl | hc
    · decide
    · decide
    · exact ⟨hh.ne_nil, hh.no_slash⟩
    · exact hcs c hc

/-- What `os.Create` does on the path `createCommit` joins for a tracked path
without a `..` element, in a snapshot without sub-directories: it fails, or
makes or empties one file of the snapshot. -/
theorem osCreate_commit_path {env : Env} {fs : FS} (hr : Repo env fs) {h : Str}
    (hh : SimpleName h) (hd : fsGet fs (snapP env h) = some Node.dir)
    (hsub : ∀ n, fsGet fs (snapP env h ++ [n]) ≠ some Node.dir) {f : Str} (hf : NoDotDot f) :
    (∃ err, osCreate fs env.cwd (filepathJoin [commitsDir ++ h, f]) = Except.error err) ∨
    ∃ c, SimpleName c ∧ osCreate fs env.cwd (filepathJoin [commitsDir ++ h, f]) =
      Except.ok (fsSet fs (snapP env h ++ [c]) (Node.file []), snapP env h ++ [c]) := by
  unfold osCreate
  rw [join_commit_path hh hf]
  have hall : ∀ c ∈ keptElems f, c ≠ [] ∧ c ≠ ['.'] ∧ c ≠ ['.', '.'] ∧ '/' ∉ c :=
    fun c hc => plain_of_mem_keptElems hf hc
  generalize keptElems f = cs at hall
  by_cases hz : '\x00' ∈ joinWith '/' (["vcs".toList, "commits".toList, h] ++ cs)
  · have e : resolve fs env.cwd (joinWith '/' (["vcs".toList, "commits".toList, h] ++ cs)) =
        Lookup.einval := by
      unfold resolve; rw [if_pos hz]
    rw [e]; exact Or.inl ⟨_, rfl⟩
  by_cases hl : pathMax ≤ (joinWith '/' (["vcs".toList, "commits".toList, h] ++ cs)).length
  · have hne : joinWith '/' (["vcs".toList, "commits".toList, h] ++ cs) ≠ [] :=
      joinWith_ne_nil (by decide)
    have e : resolve fs env.cwd (joinWith '/' (["vcs".toList, "commits".toList, h] ++ cs)) =
        Lookup.enametoolong := by
      unfold resolve; rw [if_neg hz, if_neg hne, if_pos hl]
    rw [e]; exact Or.inl ⟨_, rfl⟩
  rw [resolve_commit_path hr hh hd cs (fun c hc => ⟨(hall c hc).1, (hall c hc).2.2.2⟩) hz hl]
  cases cs with
  | nil => exact Or.inl ⟨_, rfl⟩
  | cons c rest =>
    have hp := hall c (by simp)
    by_cases hlong : nameMax < c.length
    · rw [walk_long _ hp.2.1 hp.2.2.1 hlong]; exact Or.inl ⟨_, rfl⟩
    have hc : SimpleName c :=
      ⟨hp.1, hp.2.1, hp.2.2.1, hp.2.2.2,
        fun hx => hz (mem_joinWith '/' (c := c) (by simp) hx), Nat.not_lt.1 hlong⟩
    cases rest with
    | nil =>
      rw [walk_last hc]
      unfold probe
      cases hg : fsGet fs (snapP env h ++ [c]) with
      | none => exact Or.inr ⟨c, hc, rfl⟩
      | some n =>
        cases n with
        | file x => exact Or.inr ⟨c, hc, rfl⟩
        | dir => exact absurd hg (hsub c)
    | cons d ds =>
      rcases walk_snapshot_long hsub hc d ds with e | e <;> rw [e] <;> exact Or.inl ⟨_, rfl⟩

/-- The loop of `createCommit` over tracked paths without a `..` element, in
a snapshot without sub-directories: whether it runs to its end or not, it
writes regular files of the snapshot and nothing else. -/
theorem copyFiles_frame {env : Env} {h : Str} (hh : SimpleName h) (data : List Str)
    (hdata : ∀ f ∈ data, NoDotDot f) (fs : FS) (hr : Repo env fs) (hwf : WF fs)
    (hd : fsGet fs (snapP env h) = some Node.dir)
    (hsub : ∀ n, fsGet fs (snapP env h ++ [n]) ≠ some Node.dir) :
    Repo env (copyFiles env (commitsDir ++ h) fs data).1 ∧
      WF (copyFiles env (commitsDir ++ h) fs data).1 ∧
      (∀ q, (∀ c, q ≠ snapP env h ++ [c]) →
        fsGet (copyFiles env (commitsDir ++ h) fs data).1 q = fsGet fs q) ∧
      ∀ n, fsGet (copyFiles env (commitsDir ++ h) fs data).1 (snapP env h ++ [n]) ≠
        some Node.dir := by
  induction data generalizing fs with
  | nil => exact ⟨hr, hwf, fun _ _ => rfl, hsub⟩
  | cons f rest ih =>
    rw [copyFiles]
    cases ho : osOpen fs env.cwd f with
    | error err => exact ⟨hr, hwf, fun _ _ => rfl, hsub⟩
    | ok src =>
      simp only
      rcases osCreate_commit_path hr hh hd hsub (hdata f (by simp)) with ⟨err, hc⟩ | ⟨c, hcn, hc⟩
      · rw [hc]
        exact ⟨hr, hwf, fun _ _ => rfl, hsub⟩
      · rw [hc]
        simp only
        have hne : snapP env h ++ [c] ≠ [] := by simp
        have hget : ∀ q, fsGet (ioCopy (fsSet fs (snapP env h ++ [c]) (Node.file []))
            (snapP env h ++ [c]) src) q =
            if snapP env h ++ [c] = q then
              some (Node.file (readAll (fsSet fs (snapP env h ++ [c]) (Node.file [])) src))
            else fsGet fs q := by
          intro q
          unfold ioCopy
          rw [fsGet_fsSet _ _ _ hne]
          split
          · rfl
          · rename_i hq
            exact fsGet_fsSet_of_ne _ _ hne hq
        have hr1 : Repo env (ioCopy (fsSet fs (snapP env h ++ [c]) (Node.file []))
            (snapP env h ++ [c]) src) := by
          unfold ioCopy
          exact repo_fsSet (repo_fsSet hr _ hne (by simp [snapP, commitsP])
            (by simp [snapP, commitsP, vcsP]) (by simp [snapP, commitsP])
            (by simp [snapP, commitsP, indexP]) (by simp [snapP, commitsP, logP])
            (by simp [snapP, commitsP, configP])) _ hne (by simp [snapP, commitsP])
            (by simp [snapP, commitsP, vcsP]) (by simp [snapP, commitsP])
            (by simp [snapP, commitsP, indexP]) (by simp [snapP, commitsP, logP])
            (by simp [snapP, commitsP, configP])
        have hwf1 : WF (ioCopy (fsSet fs (snapP env h ++ [c]) (Node.file []))
            (snapP env h ++ [c]) src) := by
          unfold ioCopy
          apply wf_fsSet_file (wf_fsSet_file hwf _ _ _ hd hcn (hsub c)) _ _ _
          · rw [fsGet_fsSet_of_ne _ _ hne (by simp)]; exact hd
          · exact hcn
          · rw [fsGet_fsSet_self _ _ hne]; simp
        obtain ⟨i1, i2, i3, i4⟩ := ih (fun x hx => hdata x (List.mem_cons_of_mem _ hx)) _ hr1
          hwf1 (by rw [hget, if_neg (by simp)]; exact hd)
          (by
            intro n
            rw [hget]
            split
            · simp
            · exact hsub n)
        refine ⟨i1, i2, fun q hq => ?_, i4⟩
        rw [i3 q hq, hget, if_neg (fun e => hq c e.symm)]

/-- The directory step of `createCommit` in a well-formed repository, for a
snapshot without sub-directories: it fails and changes nothing, or the
directory exists afterwards, without sub-directories, and nothing else has
changed. -/
theorem mkdir_snapshot_wf {env : Env} {fs : FS} (hr : Repo env fs) (hwf : WF fs) {h : Str}
    (hh : SimpleName h) (hsub : ∀ n, fsGet fs (snapP env h ++ [n]) ≠ some Node.dir) :
    osMkdirAll fs env.cwd (commitsDir ++ h) = none ∨
    ∃ fsA, osMkdirAll fs env.cwd (commitsDir ++ h) = some fsA ∧ Repo env fsA ∧ WF fsA ∧
      fsGet fsA (snapP env h) = some Node.dir ∧
      (∀ q, q ≠ snapP env h → fsGet fsA q = fsGet fs q) ∧
      ∀ n, fsGet fsA (snapP env h ++ [n]) ≠ some Node.dir := by
  rw [osMkdirAll_snapshot hr hh]
  have hneS : snapP env h ≠ [] := by simp [snapP]
  cases hg : fsGet fs (snapP env h) with
  | none =>
    have hframe : ∀ q, q ≠ snapP env h →
        fsGet (fsSet fs (snapP env h) Node.dir) q = fsGet fs q :=
      fun q hq => fsGet_fsSet_of_ne _ _ hneS (Ne.symm hq)
    refine Or.inr ⟨fsSet fs (snapP env h) Node.dir, by simp, repo_fsSet_snap hr h _,
      wf_fsSet_dir hwf (commitsP env) h hr.commits_dir hh, fsGet_fsSet_self _ _ hneS, hframe, ?_⟩
    intro n
    rw [hframe _ (by simp)]
    exact hsub n
  | some n =>
    cases n with
    | file d => exact Or.inl (by simp)
    | dir => exact Or.inr ⟨fs, by simp, hr, hwf, hg, fun _ _ => rfl, hsub⟩

/-- The three ways a commit with a message can end in a well-formed repository
whose tracked paths have no `..` element, when the directory named by the
identifier drawn has no sub-directory (as when it does not exist): nothing to
commit; a fatal error that has touched nothing but the snapshot; or a commit
that went through, which has made the directory of the snapshot, appended one
record to the log and written nothing else outside that directory. -/
theorem handleCommit_frame {env : Env} {fs : FS} (hr : Repo env fs) (hwf : WF fs)
    (now msg : Str) (rest : List Str)
    (hdata : ∀ f ∈ scanLines (readAll fs (indexP env)), NoDotDot f)
    (hsub : ∀ n, fsGet fs
      (snapP env (hashCommit env now (readAll fs (configP env))) ++ [n]) ≠ some Node.dir) :
    handleCommit env now (msg :: rest) fs = ⟨fs, "Nothing to commit.\n".toList, false⟩ ∨
    ((handleCommit env now (msg :: rest) fs).fatal = true ∧
      (handleCommit env now (msg :: rest) fs).out = [] ∧
      Repo env (handleCommit env now (msg :: rest) fs).fs ∧
      WF (handleCommit env now (msg :: rest) fs).fs ∧
      (∀ n, fsGet (handleCommit env now (msg :: rest) fs).fs
        (snapP env (hashCommit env now (readAll fs (configP env))) ++ [n]) ≠ some Node.dir) ∧
      ∀ q, q ≠ snapP env (hashCommit env now (readAll fs (configP env))) →
        (∀ c, q ≠ snapP env (hashCommit env now (readAll fs (configP env))) ++ [c]) →
        fsGet (handleCommit env now (msg :: rest) fs).fs q = fsGet fs q) ∨
    ((handleCommit env now (msg :: rest) fs).fatal = false ∧
      (handleCommit env now (msg :: rest) fs).out = "Changes are committed.\n".toList ∧
      Repo env (handleCommit env now (msg :: rest) fs).fs ∧
      WF (handleCommit env now (msg :: rest) fs).fs ∧
      (∀ n, fsGet (handleCommit env now (msg :: rest) fs).fs
        (snapP env (hashCommit env now (readAll fs (configP env))) ++ [n]) ≠ some Node.dir) ∧
      fsGet (handleCommit env now (msg :: rest) fs).fs
        (snapP env (hashCommit env now (readAll fs (configP env)))) = some Node.dir ∧
      fsGet (handleCommit env now (msg :: rest) fs).fs (logP env) =
        some (Node.file (readAll fs (logP env) ++
          (logLine (hashCommit env now (readAll fs (configP env))) (readAll fs (configP env)) msg ++
            ['\n']))) ∧
      ∀ q, q ≠ snapP env (hashCommit env now (readAll fs (configP env))) →
        (∀ c, q ≠ snapP env (hashCommit env now (readAll fs (configP env))) ++ [c]) →
        q ≠ logP env → fsGet (handleCommit env now (msg :: rest) fs).fs q = fsGet fs q) := by
  generalize hD : scanLines (readAll fs (indexP env)) = data at hdata ⊢
  generalize hU : readAll fs (configP env) = user at hsub ⊢
  have hH : SimpleName (hashCommit env now user) := simpleName_hashCommit env now user
  generalize hHe : hashCommit env now user = H at hH hsub ⊢
  generalize ho : handleCommit env now (msg :: rest) fs = o
  simp only [handleCommit, readIndexAsSlice_repo hr, getUserName_repo hr, hD, hU, hHe] at ho
  by_cases hlen : data.length > 0
  swap
  · rw [if_neg hlen] at ho
    subst ho
    exact Or.inl rfl
  rw [if_pos hlen] at ho
  cases hsc : somehtingChanged env fs data with
  | none =>
    simp only [hsc] at ho
    subst ho
    exact Or.inr (Or.inl ⟨rfl, rfl, hr, hwf, hsub, fun _ _ _ => rfl⟩)
  | some b =>
    cases b with
    | false =>
      simp only [hsc] at ho
      subst ho
      exact Or.inl rfl
    | true =>
      simp only [hsc] at ho
      unfold createCommit at ho
      rcases mkdir_snapshot_wf hr hwf hH hsub with hmk | ⟨fsA, hmk, hrA, hwfA, hdirA, hframeA, hsubA⟩
      · simp only [hmk] at ho
        subst ho
        exact Or.inr (Or.inl ⟨rfl, rfl, hr, hwf, hsub, fun _ _ _ => rfl⟩)
      simp only [hmk] at ho
      obtain ⟨c1, c2, c3, c4⟩ := copyFiles_frame hH data hdata _ hrA hwfA hdirA hsubA
      generalize copyFiles env (commitsDir ++ H) fsA data = r at ho c1 c2 c3 c4
      obtain ⟨fs1, ok⟩ := r
      cases ok with
      | false =>
        simp only at ho
        subst ho
        refine Or.inr (Or.inl ⟨rfl, rfl, c1, c2, c4, fun q h1 h2 => ?_⟩)
        simp only at c3 ⊢
        rw [c3 q h2, hframeA q h1]
      | true =>
        simp only [addCommitToLog_repo c1] at ho
        subst ho
        simp only at c1 c2 c3 c4 ⊢
        have hneL : logP env ≠ [] := by simp [logP]
        have hlogsame : readAll fs1 (logP env) = readAll fs (logP env) :=
          readAll_congr (by
            rw [c3 _ (fun c => (snapP_append_ne_log env H [c]).symm),
              hframeA _ (fun e => snapP_append_ne_log env H [] (by simpa using e.symm))])
        have eL : logP env = vcsP env ++ ["log.txt".toList] := by simp [logP, vcsP]
        have hSL : snapP env H ≠ logP env := by simpa using snapP_append_ne_log env H []
        refine Or.inr (Or.inr ⟨trivial, trivial, ?_, ?_, ?_, ?_, ?_, ?_⟩)
        · exact repo_fsSet_log c1 _
        · rw [eL]
          apply wf_fsSet_file c2 _ _ _ c1.vcs_dir (by decide)
          rw [← eL, fsGet_of_isFile c1.log_file]
          simp
        · intro n
          rw [fsGet_fsSet_of_ne _ _ hneL (snapP_append_ne_log env H [n]).symm]
          exact c4 n
        · rw [fsGet_fsSet_of_ne _ _ hneL hSL.symm, c3 _ (fun c => by simp), hdirA]
        · rw [fsGet_fsSet_self _ _ hneL, hlogsame, logLine_newline]
        · intro q h1 h2 h3
          rw [fsGet_fsSet_of_ne _ _ hneL (Ne.symm h3), c3 q h2, hframeA q h1]

/-- A directory that does not exist in a well-formed file system has no
sub-directory. -/
theorem no_subdir_of_none {fs : FS} (hwf : WF fs) {p : Path} (hp : fsGet fs p = none) (n : Str) :
    fsGet fs (p ++ [n]) ≠ some Node.dir := by
  rw [wf_child_none hwf hp n]
  simp

/-! ## C8: snapshots are not rewritten -/

theorem vcsP_ne_nil (env : Env) : vcsP env ≠ [] := by simp [vcsP]

theorem commitsP_ne_nil (env : Env) : commitsP env ≠ [] := by simp [commitsP]

theorem osCreate_control (env : Env) (fs : FS) (name : Str)
    (hv : fsGet fs (vcsP env) = some Node.dir)
    (hz : '\x00' ∉ "./vcs/".toList ++ name)
    (hs : "./vcs/".toList ++ name ≠ []) (hl : ¬ pathMax ≤ ("./vcs/".toList ++ name).length)
    (hh : ("./vcs/".toList ++ name).head? ≠ some '/')
    (hc : pathComps ("./vcs/".toList ++ name) = [['.'], "vcs".toList, name])
    (h1 : SimpleName name)
    (hn : fsGet fs (vcsP env ++ [name]) = none) :
    osCreate fs env.cwd ("./vcs/".toList ++ name) =
      Except.ok (fsSet fs (vcsP env ++ [name]) (Node.file []), vcsP env ++ [name]) := by
  have hn' : fsGet fs (env.cwd ++ ["vcs".toList] ++ [name]) = none := hn
  unfold osCreate resolve
  rw [if_neg hz, if_neg hs, if_neg hl, if_neg hh, hc, walk_dot, walk_dir _ (by decide) hv,
    walk_last h1, probe_of_none hn']
  rfl

/-- The first run of the program in a well-formed working directory without
`vcs` leaves a freshly initialised repository. -/
theorem fresh_prepareFolders {env : Env} {w : FS} (hwf : WF w)
    (hcwd : fsGet w env.cwd = some Node.dir) (hno : fsGet w (vcsP env) = none) :
    (prepareFolders env w).2 = true ∧ Fresh env (prepareFolders env w).1 := by
  have hstat : osStat w env.cwd "vcs".toList = Except.error OsErr.notExist := by
    unfold osStat
    rw [resolve_simple w env.cwd (by decide), probe_of_none hno]
  have hm1 : osMkdirAll w env.cwd "./vcs".toList = some (fsSet w (vcsP env) Node.dir) := by
    have hc : pathComps "./vcs".toList = [['.'], "vcs".toList] := by decide
    unfold osMkdirAll
    rw [if_neg (by decide), if_neg (by decide), if_neg (by decide), if_neg (by decide), hc]
    have hno' : fsGet w (env.cwd ++ ["vcs".toList]) = none := hno
    simp only [mkdirWalk, if_true, (by decide : "vcs".toList ≠ ['.']),
      (by decide : "vcs".toList ≠ ['.', '.']), (by decide : ¬ nameMax < "vcs".toList.length),
      if_false, hno']
    rfl
  have hv1 : fsGet (fsSet w (vcsP env) Node.dir) (vcsP env) = some Node.dir :=
    fsGet_fsSet_self _ _ (vcsP_ne_nil env)
  have hwf1 : WF (fsSet w (vcsP env) Node.dir) :=
    wf_fsSet_dir hwf env.cwd "vcs".toList hcwd (by decide)
  have ec : vcsP env ++ ["commits".toList] = commitsP env := by simp [vcsP, commitsP]
  have hc0 : fsGet (fsSet w (vcsP env) Node.dir) (commitsP env) = none := by
    rw [fsGet_fsSet_of_ne _ _ (vcsP_ne_nil env) (by simp [vcsP, commitsP]), ← ec]
    exact wf_child_none hwf hno _
  have hm2 : osMkdirAll (fsSet w (vcsP env) Node.dir) env.cwd "./vcs/commits".toList =
      some (fsSet (fsSet w (vcsP env) Node.dir) (commitsP env) Node.dir) := by
    have hc : pathComps "./vcs/commits".toList = [['.'], "vcs".toList, "commits".toList] := by
      decide
    unfold osMkdirAll
    rw [if_neg (by decide), if_neg (by decide), if_neg (by decide), if_neg (by decide), hc]
    have hv1' : fsGet (fsSet w (vcsP env) Node.dir) (env.cwd ++ ["vcs".toList]) =
        some Node.dir := hv1
    have hc0' : fsGet (fsSet w (vcsP env) Node.dir)
        (env.cwd ++ ["vcs".toList] ++ ["commits".toList]) = none := by
      have : env.cwd ++ ["vcs".toList] ++ ["commits".toList] = commitsP env := ec
      rw [this]; exact hc0
    simp only [mkdirWalk, if_true, (by decide : "vcs".toList ≠ ['.']),
      (by decide : "vcs".toList ≠ ['.', '.']), (by decide : "commits".toList ≠ ['.']),
      (by decide : "commits".toList ≠ ['.', '.']),
      (by decide : ¬ nameMax < "vcs".toList.length),
      (by decide : ¬ nameMax < "commits".toList.length), if_false, hv1', hc0']
    rw [show env.cwd ++ ["vcs".toList] ++ ["commits".toList] = commitsP env from ec]
  generalize hf2 : fsSet (fsSet w (vcsP env) Node.dir) (commitsP env) Node.dir = f2 at hm2
  have hg2 : ∀ q, fsGet f2 q =
      if commitsP env = q then some Node.dir
      else if vcsP env = q then some Node.dir else fsGet w q := by
    intro q
    rw [← hf2, fsGet_fsSet _ _ _ (commitsP_ne_nil env), fsGet_fsSet _ _ _ (vcsP_ne_nil env)]
  have hwf2 : WF f2 := by
    rw [← hf2, ← ec]
    exact wf_fsSet_dir hwf1 (vcsP env) "commits".toList hv1 (by decide)
  have hchild : ∀ (base : Path) (n : Str), (base = vcsP env ∨ base = commitsP env) →
      fsGet w (base ++ [n]) = none := by
    intro base n hb
    rcases hb with hb | hb
    · rw [hb]; exact wf_child_none hwf hno n
    · rw [hb, ← ec]; exact wf_child_none hwf (wf_child_none hwf hno _) n
  have hcfg : vcsP env ++ ["config.txt".toList] = configP env := by simp [vcsP, configP]
  have hidx : vcsP env ++ ["index.txt".toList] = indexP env := by simp [vcsP, indexP]
  have hlg : vcsP env ++ ["log.txt".toList] = logP env := by simp [vcsP, logP]
  have hv2 : fsGet f2 (vcsP env) = some Node.dir := by
    rw [hg2, if_neg (by simp [vcsP, commitsP]), if_pos rfl]
  have hn_cfg : fsGet f2 (vcsP env ++ ["config.txt".toList]) = none := by
    rw [hg2, if_neg (by simp [vcsP, commitsP]), if_neg (by simp)]
    exact hchild _ _ (Or.inl rfl)
  have hcr1 := osCreate_control env f2 "config.txt".toList hv2 (by decide)
    (by decide) (by decide) (by decide) (by decide) (by decide) hn_cfg
  rw [hcfg] at hcr1
  generalize hf3 : fsSet f2 (configP env) (Node.file []) = f3 at hcr1
  have hg3 : ∀ q, fsGet f3 q = if configP env = q then some (Node.file []) else fsGet f2 q := by
    intro q; rw [← hf3, fsGet_fsSet _ _ _ (configP_ne_nil env)]
  have hv3 : fsGet f3 (vcsP env) = some Node.dir := by
    rw [hg3, if_neg (by simp [vcsP, configP])]; exact hv2
  have hn_idx : fsGet f3 (vcsP env ++ ["index.txt".toList]) = none := by
    rw [hidx, hg3, if_neg (by simp [indexP, configP]), hg2,
      if_neg (by simp [indexP, commitsP]), if_neg (by simp [indexP, vcsP]), ← hidx]
    exact hchild _ _ (Or.inl rfl)
  have hcr2 := osCreate_control env f3 "index.txt".toList hv3 (by decide)
    (by decide) (by decide) (by decide) (by decide) (by decide) hn_idx
  rw [hidx] at hcr2
  generalize hf4 : fsSet f3 (indexP env) (Node.file []) = f4 at hcr2
  have hg4 : ∀ q, fsGet f4 q = if indexP env = q then some (Node.file []) else fsGet f3 q := by
    intro q; rw [← hf4, fsGet_fsSet _ _ _ (indexP_ne_nil env)]
  have hv4 : fsGet f4 (vcsP env) = some Node.dir := by
    rw [hg4, if_neg (by simp [vcsP, indexP])]; exact hv3
  have hn_log : fsGet f4 (vcsP env ++ ["log.txt".toList]) = none := by
    rw [hlg, hg4, if_neg (by simp [indexP, logP]), hg3, if_neg (by simp [logP, configP]), hg2,
      if_neg (by simp [logP, commitsP]), if_neg (by simp [logP, vcsP]), ← hlg]
    exact hchild _ _ (Or.inl rfl)
  have hcr3 := osCreate_control env f4 "log.txt".toList hv4 (by decide)
    (by decide) (by decide) (by decide) (by decide) (by decide) hn_log
  rw [hlg] at hcr3
  generalize hf5 : fsSet f4 (logP env) (Node.file []) = f5 at hcr3
  have hg5 : ∀ q, fsGet f5 q = if logP env = q then some (Node.file []) else fsGet f4 q := by
    intro q; rw [← hf5, fsGet_fsSet _ _ _ (logP_ne_nil env)]
  have hres : prepareFolders env w = (f5, true) := by
    unfold prepareFolders
    rw [hstat]
    simp only [hm1, hm2]
    simp only [createFiles, hcr1, hcr2, hcr3]
  rw [hres]
  have hwf3 : WF f3 := by
    rw [← hf3, ← hcfg]
    exact wf_fsSet_file hwf2 _ _ _ hv2 (by decide) (by rw [hn_cfg]; simp)
  have hwf4 : WF f4 := by
    rw [← hf4, ← hidx]
    exact wf_fsSet_file hwf3 _ _ _ hv3 (by decide) (by rw [hn_idx]; simp)
  have hwf5 : WF f5 := by
    rw [← hf5, ← hlg]
    exact wf_fsSet_file hwf4 _ _ _ hv4 (by decide) (by rw [hn_log]; simp)
  have hget : ∀ q, fsGet f5 q =
      if logP env = q then some (Node.file [])
      else if indexP env = q then some (Node.file [])
      else if configP env = q then some (Node.file [])
      else if commitsP env = q then some Node.dir
      else if vcsP env = q then some Node.dir else fsGet w q := by
    intro q; rw [hg5, hg4, hg3, hg2]
  refine ⟨rfl, ⟨?_, ?_, ?_, ?_, ?_, ?_⟩, hwf5, ?_, ?_, ?_⟩
  · rw [hget, if_neg (by simp [logP]), if_neg (by simp [indexP]), if_neg (by simp [configP]),
      if_neg (by simp [commitsP]), if_neg (by simp [vcsP])]
    exact hcwd
  · rw [hget, if_neg (by simp [logP, vcsP]), if_neg (by simp [indexP, vcsP]),
      if_neg (by simp [configP, vcsP]), if_neg (by simp [commitsP, vcsP]), if_pos rfl]
  · rw [hget, if_neg (by simp [logP, commitsP]), if_neg (by simp [indexP, commitsP]),
      if_neg (by simp [configP, commitsP]), if_pos rfl]
  · rw [hget, if_neg (by simp [logP, indexP]), if_pos rfl]; rfl
  · rw [hget, if_pos rfl]; rfl
  · rw [hget, if_neg (by simp [logP, configP]), if_neg (by simp [indexP, configP]), if_pos rfl]
    rfl
  · exact readAll_of_file (by rw [hget, if_neg (by simp [logP, indexP]), if_pos rfl])
  · exact readAll_of_file (by rw [hget, if_pos rfl])
  · rw [List.eq_nil_iff_forall_not_mem]
    intro n hn
    have := (mem_listDir f5 (commitsP env) n).1 hn
    rw [hget, if_neg (by simp [logP, commitsP]), if_neg (by simp [indexP, commitsP]),
      if_neg (by simp [configP, commitsP]), if_neg (by simp), if_neg (by simp [vcsP, commitsP])]
      at this
    exact this (hchild _ _ (Or.inr rfl))

/-! ## C7: the log and the snapshot store -/

theorem consistent_of_fresh {env : Env} {fs : FS} (h : Fresh env fs) : Consistent env fs := by
  have hnone : scanLines ([] : Str) = [] := by decide
  refine ⟨h.repo, h.wf, by rw [h.index_empty, hnone]; simp, [], by rw [h.log_empty]; rfl,
    by simp, by simp, ?_⟩
  intro x
  simp only [List.map_nil, List.not_mem_nil, iff_false]
  intro hx
  have : x ∈ listDir fs (commitsP env) :=
    (mem_listDir fs (commitsP env) x).2 (by
      have e : commitsP env ++ [x] = snapP env x := rfl
      rw [e, hx]; simp)
  rw [h.no_snapshot] at this
  exact absurd this (by simp)

/-- Frame rule for the invariant: a run that keeps the repository well-formed
and leaves the index, the log and the snapshot directories as they are keeps
the invariant. -/
theorem consistent_of_same {env : Env} {fs fs1 : FS} (hc : Consistent env fs)
    (hr : Repo env fs1) (hwf : WF fs1)
    (hidx : readAll fs1 (indexP env) = readAll fs (indexP env))
    (hlog : readAll fs1 (logP env) = readAll fs (logP env))
    (hsnap : ∀ h, fsGet fs1 (snapP env h) = fsGet fs (snapP env h)) : Consistent env fs1 := by
  obtain ⟨es, h1, h2, h3, h4⟩ := hc.records
  exact ⟨hr, hwf, by rw [hidx]; exact hc.index_plain, es, by rw [hlog]; exact h1, h2, h3,
    fun h => by rw [hsnap]; exact h4 h⟩

theorem logLines_concat (es : List (Str × Str × Str)) (e : Str × Str × Str) :
    logLines (es ++ [e]) = logLines es ++ [logLine e.1 e.2.1 e.2.2] := by
  simp [logLines]

/-- A commit that went through keeps the invariant. -/
theorem consistent_of_committed {env : Env} {fs fs1 : FS} {now msg : Str}
    (hc : Consistent env fs) (hmsg : '\n' ∉ msg) (huser : '\n' ∉ readAll fs (configP env))
    (hlen : 42 + (readAll fs (configP env)).length + msg.length < maxScanTokenSize)
    (hfresh : fsGet fs (snapP env (hashCommit env now (readAll fs (configP env)))) = none)
    (hrepo : Repo env fs1) (hwf : WF fs1)
    (hdir : fsGet fs1 (snapP env (hashCommit env now (readAll fs (configP env)))) =
      some Node.dir)
    (hlogged : fsGet fs1 (logP env) = some (Node.file (readAll fs (logP env) ++
      (logLine (hashCommit env now (readAll fs (configP env))) (readAll fs (configP env)) msg ++
        ['\n']))))
    (hframe : ∀ q, q ≠ snapP env (hashCommit env now (readAll fs (configP env))) →
      (∀ c, q ≠ snapP env (hashCommit env now (readAll fs (configP env))) ++ [c]) →
      q ≠ logP env → fsGet fs1 q = fsGet fs q) : Consistent env fs1 := by
  obtain ⟨es, h1, h2, h3, h4⟩ := hc.records
  have hline := logLine_ok env now _ msg huser hmsg hlen
  have hnl := newline_not_mem_hashCommit env now (readAll fs (configP env))
  have hbar := bar_not_mem_hashCommit env now (readAll fs (configP env))
  generalize hashCommit env now (readAll fs (configP env)) = H at *
  refine ⟨hrepo, hwf, ?_, es ++ [(H, readAll fs (configP env), msg)], ?_, ?_, ?_, ?_⟩
  · have : readAll fs1 (indexP env) = readAll fs (indexP env) :=
      readAll_congr (hframe _ (by simp [snapP, commitsP, indexP])
        (fun c => by simp [snapP, commitsP, indexP]) (by simp [indexP, logP]))
    rw [this]; exact hc.index_plain
  · rw [readAll_of_file hlogged, h1, logLines_concat, printLines_concat]
  · intro e he
    rcases List.mem_append.1 he with he | he
    · exact h2 e he
    · simp only [List.mem_singleton] at he
      subst he
      exact ⟨hnl, hbar, huser, hmsg, hline.2⟩
  · rw [List.map_append, List.nodup_append]
    refine ⟨h3, by simp, ?_⟩
    intro a ha hb
    simp only [List.map_cons, List.map_nil, List.mem_singleton] at hb
    subst hb
    have := (h4 a).2 ha
    rw [hfresh] at this
    exact absurd this (by simp)
  · intro h
    rw [List.map_append, List.mem_append]
    by_cases e : h = H
    · subst e
      simp [hdir]
    · rw [hframe _ (fun e1 => e (snapP_append_inj (q := []) (r := []) (by simpa using e1)).1)
        (fun c e1 => by
          have := (snapP_append_inj (q := []) (r := [c]) (by simpa using e1)).2
          simp at this)
        (by simp [snapP, commitsP, logP]), h4 h]
      simp [e]

/-- One run that satisfies `ArgsOk` keeps the invariant. -/
theorem consistent_main {env : Env} {fs : FS} (hc : Consistent env fs) (now : Str)
    (args : List Str) (hok : ArgsOk env fs now args) :
    Consistent env (main env now args fs).fs := by
  apply main_cases hc.repo now args (fun o => Consistent env o.fs)
  · intro _; exact hc
  · intro rest _
    obtain ⟨h1, h2, h3⟩ := handleConfig_effect hc.repo hc.wf rest
    exact consistent_of_same hc h1 h2 (readAll_congr (h3 _ (by simp [indexP, configP])))
      (readAll_congr (h3 _ (by simp [logP, configP])))
      (fun h => h3 _ (by simp [snapP, commitsP, configP]))
  · intro rest hargs
    obtain ⟨h1, h2, h3, h4⟩ := handleAdd_effect hc.repo hc.wf rest
    obtain ⟨es, g1, g2, g3, g4⟩ := hc.records
    refine ⟨h1, h2, ?_, es, ?_, g2, g3, ?_⟩
    · cases rest with
      | nil =>
        rcases h4 with h4 | ⟨p, r, e, -⟩
        · rw [h4]; exact hc.index_plain
        · exact absurd e (by simp)
      | cons p r =>
        subst hargs
        exact hok.1 rfl
    · rw [readAll_congr (h3 _ (by simp [logP, indexP]))]; exact g1
    · intro h
      rw [h3 _ (by simp [snapP, commitsP, indexP])]; exact g4 h
  · intro _ _
    rw [handleLog_fs]; exact hc
  · intro rest hargs
    cases rest with
    | nil => exact hc
    | cons msg rest =>
      subst hargs
      obtain ⟨hnf, hmsg, huser, hlen, hfresh⟩ := hok.2 rfl
      rcases handleCommit_frame hc.repo hc.wf now msg rest hc.index_plain
          (no_subdir_of_none hc.wf hfresh) with
        h1 | ⟨h1, -⟩ | ⟨-, -, g1, g2, -, g3, g4, g5⟩
      · rw [h1]; exact hc
      · rw [h1] at hnf; exact absurd hnf (by simp)
      · exact consistent_of_committed hc hmsg huser hlen hfresh g1 g2 g3 g4 g5
  · intro rest _
    obtain ⟨h1, h2, h3⟩ := handleCheckOut_effect hc.repo hc.wf rest
    exact consistent_of_same hc h1 h2
      (readAll_congr (h3 _ (fun e => by simp [indexP])))
      (readAll_congr (h3 _ (fun e => by simp [logP])))
      (fun h => h3 _ (fun e => by simp [snapP, commitsP]))

theorem consistent_runAll {env : Env} (runs : List (Str × List Str)) (fs : FS)
    (hc : Consistent env fs) (hok : RunsOk env fs runs) : Consistent env (runAll env fs runs) := by
  induction runs generalizing fs with
  | nil => exact hc
  | cons r rest ih => exact ih _ (consistent_main hc r.1 r.2 hok.1) hok.2

theorem logLine_eq (h u m : Str) : logLine h u m = h ++ '|' :: (u ++ '|' :: m) := by
  simp [logLine]

theorem lineId_record {e : Str × Str × Str} (he : LoggedRecord e) :
    lineId (dropCR (logLine e.1 e.2.1 e.2.2)) = e.1 := by
  unfold lineId
  rw [logLine_eq]
  exact head_split_record _ he.2.1

theorem scanLines_records {es : List (Str × Str × Str)} (hes : ∀ e ∈ es, LoggedRecord e) :
    scanLines (printLines (logLines es)) = (logLines es).map dropCR := by
  apply scanLines_printLines
  intro l hl
  obtain ⟨e, he, rfl⟩ := List.mem_map.1 hl
  obtain ⟨h1, -, h3, h4, h5⟩ := hes e he
  exact ⟨by simp [logLine, h1, h3, h4], h5⟩

theorem mem_snapshotDirs (env : Env) (fs : FS) (h : Str) :
    h ∈ snapshotDirs env fs ↔ fsGet fs (snapP env h) = some Node.dir := by
  unfold snapshotDirs
  rw [List.mem_filter, mem_listDir]
  have e : commitsP env ++ [h] = snapP env h := rfl
  rw [e]
  constructor
  · intro hx; simpa using hx.2
  · intro hx; exact ⟨by rw [hx]; simp, by simpa using hx⟩

theorem nodup_snapshotDirs (env : Env) (fs : FS) : (snapshotDirs env fs).Nodup :=
  (nodup_listDir fs (commitsP env)).filter _

/-- The invariant gives the two statements of C7. -/
theorem counts_of_consistent {env : Env} {fs : FS} (hc : Consistent env fs) :
    (scanLines (readAll fs (logP env))).length = (snapshotDirs env fs).length ∧
      ∀ h, h ∈ (scanLines (readAll fs (logP env))).map lineId ↔ h ∈ snapshotDirs env fs := by
  obtain ⟨es, h1, h2, h3, h4⟩ := hc.records
  have hids : (scanLines (readAll fs (logP env))).map lineId = es.map fun e => e.1 := by
    rw [h1, scanLines_records h2]
    unfold logLines
    rw [List.map_map, List.map_map]
    apply List.map_congr_left
    intro e he
    exact lineId_record (h2 e he)
  have hmem : ∀ h, h ∈ (es.map fun e => e.1) ↔ h ∈ snapshotDirs env fs := by
    intro h
    rw [mem_snapshotDirs, h4]
  constructor
  · have hp : List.Perm (es.map fun e => e.1) (snapshotDirs env fs) :=
      (List.perm_ext_iff_of_nodup h3 (nodup_snapshotDirs env fs)).2 hmem
    rw [← hp.length_eq, ← hids, List.length_map]
  · intro h
    rw [hids]; exact hmem h

/-- C7, as amended.  Start from a freshly initialised repository (well-formed,
empty index, empty log, empty commits directory) and run the program any
number of times, with any arguments, where every `add` leaves an index whose
lines have no `..` element and every `commit` with a message does not end in
a fatal error, has a message and a configured user name without a newline
that fit one scanner line, and draws an identifier that names nothing in the
commits directory.
Then the number of lines of the log equals the number of snapshot
directories, and the identifiers the lines start with are exactly the names
of those directories. -/
theorem C7_log_matches_store (env : Env) (fs : FS) (runs : List (Str × List Str))
    (hfresh : Fresh env fs) (hok : RunsOk env fs runs) :
    (scanLines (readAll (runAll env fs runs) (logP env))).length =
        (snapshotDirs env (runAll env fs runs)).length ∧
      ∀ h, h ∈ (scanLines (readAll (runAll env fs runs) (logP env))).map lineId ↔
        h ∈ snapshotDirs env (runAll env fs runs) :=
  counts_of_consistent (consistent_runAll runs fs (consistent_of_fresh hfresh) hok)

set_option maxRecDepth 100000 in
/-- A witness of C7: in the fresh repository of the examples, `add a.txt`,
`commit first`, `config ann`, `checkout` of the commit and `log`; the log has
one line and the store one snapshot. -/
theorem C7_log_matches_store_witness :
    (scanLines (readAll (runAll demoEnv demoFresh
        [("t1".toList, ["add".toList, "a.txt".toList]),
         ("t2".toList, ["commit".toList, "first".toList]),
         ("t3".toList, ["config".toList, "ann".toList]),
         ("t4".toList, ["checkout".toList, hashCommit demoEnv "t2".toList []]),
         ("t5".toList, ["log".toList])]) (logP demoEnv))).length = 1 ∧
      snapshotDirs demoEnv (runAll demoEnv demoFresh
        [("t1".toList, ["add".toList, "a.txt".toList]),
         ("t2".toList, ["commit".toList, "first".toList]),
         ("t3".toList, ["config".toList, "ann".toList]),
         ("t4".toList, ["checkout".toList, hashCommit demoEnv "t2".toList []]),
         ("t5".toList, ["log".toList])]) = [hashCommit demoEnv "t2".toList []] := by
  have h := C7_log_matches_store demoEnv demoFresh
    [("t1".toList, ["add".toList, "a.txt".toList]),
     ("t2".toList, ["commit".toList, "first".toList]),
     ("t3".toList, ["config".toList, "ann".toList]),
     ("t4".toList, ["checkout".toList, hashCommit demoEnv "t2".toList []]),
     ("t5".toList, ["log".toList])]
    ⟨⟨by decide!, by decide!, by decide!, by decide!, by decide!, by decide!⟩,
      by decide!, by decide!, by decide!, by decide!⟩
    ⟨⟨fun _ => by decide!, fun h => absurd h (by decide)⟩,
      ⟨fun h => absurd h (by decide),
        fun _ => ⟨by decide!, by decide!, by decide!, by decide!, by decide!⟩⟩,
      ⟨fun h => absurd h (by decide), fun h => absurd h (by decide)⟩,
      ⟨fun h => absurd h (by decide), fun h => absurd h (by decide)⟩,
      trivial, trivial⟩
  exact ⟨by rw [h.1]; decide!, by decide!⟩

set_option maxRecDepth 100000 in
/-- C7 as stated fails: in the fresh repository of the examples, after
`add a.txt` and a commit whose message holds a newline, both of which run to
their end, the log has two lines and the store one snapshot directory. -/
theorem C7_counterexample_newline_in_message :
    readAll demoFresh (logP demoEnv) = [] ∧ listDir demoFresh (commitsP demoEnv) = [] ∧
      (main demoEnv "t2".toList ["commit".toList, "a\nb".toList]
        (main demoEnv "t1".toList ["add".toList, "a.txt".toList] demoFresh).fs).out =
        "Changes are committed.\n".toList ∧
      (scanLines (readAll (runAll demoEnv demoFresh
        [("t1".toList, ["add".toList, "a.txt".toList]),
         ("t2".toList, ["commit".toList, "a\nb".toList])]) (logP demoEnv))).length = 2 ∧
      (snapshotDirs demoEnv (runAll demoEnv demoFresh
        [("t1".toList, ["add".toList, "a.txt".toList]),
         ("t2".toList, ["commit".toList, "a\nb".toList])])).length = 1 := by
  decide!

/-! ## C9: the log view after a history of commits -/

theorem vcsP_prefix_snap (env : Env) (h : Str) (q : Path) : vcsP env <+: snapP env h ++ q := by
  refine ⟨"commits".toList :: h :: q, ?_⟩
  simp [vcsP, snapP, commitsP]

theorem vcsP_prefix_index (env : Env) : vcsP env <+: indexP env :=
  ⟨["index.txt".toList], by simp [vcsP, indexP]⟩

theorem vcsP_prefix_log (env : Env) : vcsP env <+: logP env :=
  ⟨["log.txt".toList], by simp [vcsP, logP]⟩

theorem vcsP_prefix_config (env : Env) : vcsP env <+: configP env :=
  ⟨["config.txt".toList], by simp [vcsP, configP]⟩

theorem vcsP_prefix_commits (env : Env) : vcsP env <+: commitsP env :=
  ⟨["commits".toList], by simp [vcsP, commitsP]⟩

theorem isFile_congr {fs fs1 : FS} {p : Path} (h : fsGet fs1 p = fsGet fs p)
    (hf : isFile (fsGet fs p) = true) : isFile (fsGet fs1 p) = true := by
  rw [h]; exact hf

theorem logged_of_fresh {env : Env} {fs : FS} (h : Fresh env fs) : Logged env fs [] := by
  have hnone : scanLines ([] : Str) = [] := by decide
  refine ⟨h.repo, h.wf, by rw [h.index_empty, hnone]; simp, ?_, by rw [h.log_empty]; rfl,
    by simp⟩
  intro x n
  have hx : fsGet fs (snapP env x) = none := by
    by_contra hne
    have : x ∈ listDir fs (commitsP env) := (mem_listDir fs (commitsP env) x).2 hne
    rw [h.no_snapshot] at this
    exact absurd this (by simp)
  exact no_subdir_of_none h.wf hx n

/-- Frame rule for the invariant: a step that keeps the repository
well-formed and its tracked paths without `..`, and leaves the log and the
snapshots as they are, keeps the invariant. -/
theorem logged_of_same {env : Env} {fs fs1 : FS} {es : List (Str × Str × Str)}
    (hl : Logged env fs es) (hr : Repo env fs1) (hwf : WF fs1)
    (hidx : ∀ f ∈ scanLines (readAll fs1 (indexP env)), NoDotDot f)
    (hlog : readAll fs1 (logP env) = readAll fs (logP env))
    (hsnap : ∀ h n, fsGet fs1 (snapP env h ++ [n]) = fsGet fs (snapP env h ++ [n])) :
    Logged env fs1 es :=
  ⟨hr, hwf, hidx, fun h n => by rw [hsnap]; exact hl.flat h n, by rw [hlog]; exact hl.log,
    hl.plain⟩

/-- An edit from outside that leaves `vcs` alone keeps the invariant. -/
theorem logged_edit {env : Env} {fs fs1 : FS} {es : List (Str × Str × Str)}
    (hl : Logged env fs es) (hwf : WF fs1)
    (hsame : ∀ q, vcsP env <+: q → fsGet fs1 q = fsGet fs q) : Logged env fs1 es := by
  have hv : fsGet fs1 (vcsP env) = some Node.dir := by
    rw [hsame _ (List.prefix_refl _)]; exact hl.repo.vcs_dir
  have hcwd : fsGet fs1 env.cwd = some Node.dir :=
    ((wf_iff fs1).1 hwf env.cwd "vcs".toList (by
      have e : env.cwd ++ ["vcs".toList] = vcsP env := rfl
      rw [e, hv]; simp)).1
  have hr : Repo env fs1 :=
    ⟨hcwd, hv, by rw [hsame _ (vcsP_prefix_commits env)]; exact hl.repo.commits_dir,
      isFile_congr (hsame _ (vcsP_prefix_index env)) hl.repo.index_file,
      isFile_congr (hsame _ (vcsP_prefix_log env)) hl.repo.log_file,
      isFile_congr (hsame _ (vcsP_prefix_config env)) hl.repo.config_file⟩
  refine logged_of_same hl hr hwf ?_ (readAll_congr (hsame _ (vcsP_prefix_log env)))
    (fun h n => hsame _ (vcsP_prefix_snap env h [n]))
  rw [readAll_congr (hsame _ (vcsP_prefix_index env))]
  exact hl.index_plain

theorem commitRecord_nil (env : Env) (fs : FS) (now : Str) (args : List Str) (out : Str)
    (h : ∀ msg rest, args ≠ "commit".toList :: msg :: rest) :
    commitRecord env fs now args out = [] := by
  unfold commitRecord
  split
  · rename_i cmd msg rest
    rw [if_neg]
    intro hc
    exact h msg rest (by rw [hc.1])
  · rfl

theorem commitRecord_commit (env : Env) (fs : FS) (now msg : Str) (rest : List Str) (out : Str) :
    commitRecord env fs now ("commit".toList :: msg :: rest) out =
      if out = "Changes are committed.\n".toList then
        [(hashCommit env now (readAll fs (configP env)), readAll fs (configP env), msg)]
      else [] := by
  unfold commitRecord
  simp

/-- A commit with a message keeps the invariant, with its record added when
it goes through. -/
theorem logged_commit {env : Env} {fs : FS} {es : List (Str × Str × Str)}
    (hl : Logged env fs es) (now msg : Str) (rest : List Str)
    (hplain : ∀ e ∈ commitRecord env fs now ("commit".toList :: msg :: rest)
      (handleCommit env now (msg :: rest) fs).out, PlainRecord e) :
    Logged env (handleCommit env now (msg :: rest) fs).fs
      (es ++ commitRecord env fs now ("commit".toList :: msg :: rest)
        (handleCommit env now (msg :: rest) fs).out) := by
  rw [commitRecord_commit] at hplain ⊢
  have hflat : ∀ {fs1 : FS},
      (∀ n, fsGet fs1 (snapP env (hashCommit env now (readAll fs (configP env))) ++ [n]) ≠
        some Node.dir) →
      (∀ q, q ≠ snapP env (hashCommit env now (readAll fs (configP env))) →
        (∀ c, q ≠ snapP env (hashCommit env now (readAll fs (configP env))) ++ [c]) →
        q ≠ logP env → fsGet fs1 q = fsGet fs q) →
      ∀ h n, fsGet fs1 (snapP env h ++ [n]) ≠ some Node.dir := by
    intro fs1 h4 h5 h n
    by_cases e : h = hashCommit env now (readAll fs (configP env))
    · rw [e]; exact h4 n
    · rw [h5 _ (fun e1 => by
          have := (snapP_append_inj (q := [n]) (r := []) (by simpa using e1)).2
          simp at this)
        (fun c e1 => e (snapP_append_inj e1).1) (snapP_append_ne_log env h [n])]
      exact hl.flat h n
  have hindex : ∀ {fs1 : FS},
      (∀ q, q ≠ snapP env (hashCommit env now (readAll fs (configP env))) →
        (∀ c, q ≠ snapP env (hashCommit env now (readAll fs (configP env))) ++ [c]) →
        q ≠ logP env → fsGet fs1 q = fsGet fs q) →
      ∀ f ∈ scanLines (readAll fs1 (indexP env)), NoDotDot f := by
    intro fs1 h5
    rw [readAll_congr (h5 _ (by simp [snapP, commitsP, indexP])
      (fun c => by simp [snapP, commitsP, indexP]) (by simp [indexP, logP]))]
    exact hl.index_plain
  rcases handleCommit_frame hl.repo hl.wf now msg rest hl.index_plain
      (hl.flat (hashCommit env now (readAll fs (configP env)))) with
    h1 | ⟨-, h1, h2, h3, h4, h5⟩ | ⟨-, h1, h2, h3, h4, -, h6, h7⟩
  · have hne : ("Nothing to commit.\n".toList : Str) ≠ "Changes are committed.\n".toList := by
      decide
    rw [h1]
    simp only [if_neg hne, List.append_nil]
    exact hl
  · rw [h1, if_neg (by decide), List.append_nil]
    have h5' : ∀ q, q ≠ snapP env (hashCommit env now (readAll fs (configP env))) →
        (∀ c, q ≠ snapP env (hashCommit env now (readAll fs (configP env))) ++ [c]) →
        q ≠ logP env → fsGet (handleCommit env now (msg :: rest) fs).fs q = fsGet fs q :=
      fun q a b _ => h5 q a b
    refine ⟨h2, h3, hindex h5', hflat h4 h5', ?_, hl.plain⟩
    rw [readAll_congr (h5 _ (fun e => snapP_append_ne_log env _ [] (by simpa using e.symm))
      (fun c e => snapP_append_ne_log env _ [c] e.symm))]
    exact hl.log
  · rw [h1, if_pos rfl] at hplain ⊢
    refine ⟨h2, h3, hindex h7, hflat h4 h7, ?_, ?_⟩
    · rw [readAll_of_file h6, hl.log, logLines_concat, printLines_concat]
    · intro e he
      rcases List.mem_append.1 he with he | he
      · exact hl.plain e he
      · exact hplain e he

/-- One run that satisfies `StepOk` keeps the invariant, with the record of
its commit added when it makes one. -/
theorem logged_run {env : Env} {fs : FS} {es : List (Str × Str × Str)}
    (hl : Logged env fs es) (now : Str) (args : List Str)
    (hok : StepOk env fs (Step.run now args)) :
    Logged env (main env now args fs).fs
      (es ++ commitRecord env fs now args (main env now args fs).out) := by
  obtain ⟨hadd, hplain⟩ := hok
  by_cases hc : ∃ msg rest, args = "commit".toList :: msg :: rest
  · obtain ⟨msg, rest, rfl⟩ := hc
    rw [main_commit hl.repo] at hplain ⊢
    exact logged_commit hl now msg rest hplain
  have hc' : ∀ msg rest, args ≠ "commit".toList :: msg :: rest :=
    fun msg rest e => hc ⟨msg, rest, e⟩
  rw [commitRecord_nil env fs now args _ hc', List.append_nil]
  apply main_cases hl.repo now args (fun o => Logged env o.fs es)
  · intro _; exact hl
  · intro rest _
    obtain ⟨h1, h2, h3⟩ := handleConfig_effect hl.repo hl.wf rest
    refine logged_of_same hl h1 h2 ?_ (readAll_congr (h3 _ (by simp [logP, configP])))
      (fun h n => h3 _ (snapP_append_ne_config env h [n]))
    rw [readAll_congr (h3 _ (by simp [indexP, configP]))]
    exact hl.index_plain
  · intro rest hargs
    obtain ⟨h1, h2, h3, h4⟩ := handleAdd_effect hl.repo hl.wf rest
    refine logged_of_same hl h1 h2 ?_ (readAll_congr (h3 _ (by simp [logP, indexP])))
      (fun h n => h3 _ (snapP_append_ne_index env h [n]))
    cases rest with
    | nil =>
      rcases h4 with h4 | ⟨p, r, e, -⟩
      · rw [h4]; exact hl.index_plain
      · exact absurd e (by simp)
    | cons p r =>
      subst hargs
      exact hadd rfl
  · intro _ _
    rw [handleLog_fs]; exact hl
  · intro rest hargs
    cases rest with
    | nil => exact hl
    | cons msg rest => exact absurd hargs (hc' msg rest)
  · intro rest _
    obtain ⟨h1, h2, h3⟩ := handleCheckOut_effect hl.repo hl.wf rest
    refine logged_of_same hl h1 h2 ?_ (readAll_congr (h3 _ (fun e => by simp [logP])))
      (fun h n => h3 _ (fun e => snapP_append_ne_work env h [n] e))
    rw [readAll_congr (h3 _ (fun e => by simp [indexP]))]
    exact hl.index_plain

theorem logged_step {env : Env} {fs : FS} {es : List (Str × Str × Str)}
    (hl : Logged env fs es) (s : Step) (hok : StepOk env fs s) :
    Logged env (stepFS env fs s) (es ++ commitOf env fs s) := by
  cases s with
  | run now args => exact logged_run hl now args hok
  | edit fs1 =>
    have : es ++ commitOf env fs (Step.edit fs1) = es := List.append_nil es
    rw [this]
    exact logged_edit hl hok.1 hok.2

/-- The invariant along a history: the log holds the records of the commits
made, in their order. -/
theorem logged_history {env : Env} (steps : List Step) (fs : FS) (es : List (Str × Str × Str))
    (hl : Logged env fs es) (hok : StepsOk env fs steps) :
    Logged env (history env fs steps) (es ++ commitsOf env fs steps) := by
  induction steps generalizing fs es with
  | nil => simpa [history, commitsOf] using hl
  | cons s rest ih =>
    have := ih _ _ (logged_step hl s hok.1) hok.2
    simpa [history, commitsOf, List.append_assoc] using this

/-- C9, as amended.  Start from a freshly initialised repository and let any
sequence of steps follow: runs of the program with any arguments, and edits
from outside that leave a well-formed file system and do not touch `vcs`.
Every `add` leaves an index whose lines have no `..` element, and every
commit that goes through has a message and an author (the user name
configured at the time) without a newline or a `|`, a message that does not
end in a carriage return, and a record that fits one scanner line.  Then the
log command prints `No commits yet.` when no commit went through, and
otherwise exactly one block for each commit that went through, the last one
first, each block being `commit <id>`, `Author: <author>`, the whole message
and an empty line. -/
theorem C9_log_prints_reverse (env : Env) (fs : FS) (steps : List Step) (now : Str)
    (rest : List Str) (hfresh : Fresh env fs) (hok : StepsOk env fs steps) :
    main env now ("log".toList :: rest) (history env fs steps) =
      ⟨history env fs steps,
        if commitsOf env fs steps = [] then "No commits yet.\n".toList
        else printBlocks (commitsOf env fs steps).reverse, false⟩ := by
  have hl := logged_history steps fs [] (logged_of_fresh hfresh) hok
  rw [List.nil_append] at hl
  rw [main_log hl.repo, handleLog_records _ hl.repo hl.log hl.plain]

set_option maxRecDepth 100000 in
/-- A witness of C9: in the fresh repository of the examples, `add a.txt`,
`config ann`, `commit first`, an edit of `a.txt`, `config bob` and
`commit second`; the log command prints the commit of `bob` before the
commit of `ann`. -/
theorem C9_log_prints_reverse_witness :
    (main demoEnv "t9".toList ["log".toList] (history demoEnv demoFresh demoSteps)).out =
      "commit ".toList ++ hashCommit demoEnv "t5".toList "bob".toList ++
        "\nAuthor: bob\nsecond\n\ncommit ".toList ++
        hashCommit demoEnv "t3".toList "ann".toList ++ "\nAuthor: ann\nfirst\n\n".toList := by
  rw [C9_log_prints_reverse demoEnv demoFresh demoSteps "t9".toList []
    ⟨⟨by decide!, by decide!, by decide!, by decide!, by decide!, by decide!⟩,
      by decide!, by decide!, by decide!, by decide!⟩
    ⟨⟨fun _ => by decide!, by decide!⟩,
      ⟨fun h => absurd h (by decide), by decide!⟩,
      ⟨fun h => absurd h (by decide), by decide!⟩,
      ⟨by decide!, fun q hq => fsGet_fsSet_of_ne _ _ (by decide)
        (fun e => absurd (e ▸ hq) (by decide))⟩,
      ⟨fun h => absurd h (by decide), by decide!⟩,
      ⟨fun h => absurd h (by decide), by decide!⟩,
      trivial⟩]
  decide!

set_option maxRecDepth 100000 in
/-- C9 as stated fails for a message that holds the separator: after the one
commit `commit "a|b"` the log command prints the message as `a`. -/
theorem C9_counterexample_bar_in_message :
    (handleCommit demoEnv "t1".toList ["a|b".toList] demoTracked).out =
        "Changes are committed.\n".toList ∧
      (handleLog demoEnv (handleCommit demoEnv "t1".toList ["a|b".toList] demoTracked).fs).out =
        "commit ".toList ++ demoId ++ "\nAuthor: \na\n\n".toList := by
  decide!

/-! ## Examples at the limits of the lookup -/

set_option maxRecDepth 1000000 in
/-- An identifier of 256 bytes is no name the kernel looks up: `os.ReadDir`
fails with `ENAMETOOLONG`, which `os.IsNotExist` does not accept, and
checkout ends in `log.Fatal` without a message. -/
theorem checkout_long_name_fatal :
    osReadDir demoCommitted demoEnv.cwd (filepathJoin ["./vcs/commits".toList, demoLongName]) =
        Except.error OsErr.other ∧
      handleCheckOut demoEnv [demoLongName] demoCommitted = ⟨demoCommitted, [], true⟩ := by
  decide!

set_option maxRecDepth 1000000 in
/-- A missing name of 256 bytes is not reported as missing: `os.Stat` fails
with `ENAMETOOLONG`, and add appends the name to the index. -/
theorem add_long_name_tracked :
    osStat demoTracked demoEnv.cwd demoLongName = Except.error OsErr.other ∧
      (handleAdd demoEnv [demoLongName] demoTracked).out =
        "The file '".toList ++ demoLongName ++ "' is tracked.\n".toList ∧
      readAll (handleAdd demoEnv [demoLongName] demoTracked).fs (indexP demoEnv) =
        "a.txt\n".toList ++ demoLongName ++ ['\n'] := by
  decide!

set_option maxRecDepth 1000000 in
/-- After `add a.txt` and `add` of a missing name of 256 bytes, `commit first`
dies in `createCommit`: the directory of the snapshot is there, the log has
no line. -/
theorem commit_after_long_name_dies :
    (main demoEnv "t3".toList ["commit".toList, "first".toList]
        (runAll demoEnv demoFresh [("t1".toList, ["add".toList, "a.txt".toList]),
          ("t2".toList, ["add".toList, demoLongName])])).fatal = true ∧
      (scanLines (readAll (runAll demoEnv demoFresh
        [("t1".toList, ["add".toList, "a.txt".toList]),
         ("t2".toList, ["add".toList, demoLongName]),
         ("t3".toList, ["commit".toList, "first".toList])]) (logP demoEnv))).length = 0 ∧
      (snapshotDirs demoEnv (runAll demoEnv demoFresh
        [("t1".toList, ["add".toList, "a.txt".toList]),
         ("t2".toList, ["add".toList, demoLongName]),
         ("t3".toList, ["commit".toList, "first".toList])])).length = 1 := by
  decide!

set_option maxRecDepth 1000000 in
/-- Why the log view asks for tracked paths without `..`: with
`../../log.txt` tracked, the next commit copies that file over `vcs/log.txt`
before it appends its record, and the log command no longer shows the first
commit. -/
theorem log_lost_to_tracked_path :
    (handleLog demoEnv demoLogTracked).out =
        "commit ".toList ++ demoId ++ "\nAuthor: \nfirst\n\n".toList ∧
      (handleCommit demoEnv "t3".toList ["second".toList] demoLogTracked).out =
        "Changes are committed.\n".toList ∧
      (handleLog demoEnv
        (handleCommit demoEnv "t3".toList ["second".toList] demoLogTracked).fs).out =
        "commit ".toList ++ hashCommit demoEnv "t3".toList [] ++
          "\nAuthor: \nsecond\n\ncommit x\nAuthor: y\nz\n\n".toList := by
  decide!

end Svcs
